import Mathlib

/-!
Verification of the `coffre-Fort` integration overlay.

This development shallowly embeds the Python sources under
`docker/mayan/mayan_custom/` — chiefly the ACL reconciliation routine
`acl_sync.sync_acl_from_redis`, the OIDC views, the auto-login middleware,
the admin API view and the periodic Celery task — as executable Lean
definitions, and proves the specification claims about them.

Conventions of the embedding:
* Python `str` values are Lean `String`s; Python string primitives
  (slicing, `strip`, `startswith`, ordering) are defined below over
  `String.data` (`List Char`), matching Python's code-point semantics.
* The relational state touched by the sync routine (Django ORM rows for
  `AccessControlList`, `Role`, `Group`, users and `StoredPermission`) is a
  record of lists of rows; Redis is a list of `grant:*` values plus a
  string key/value table.
* Fallible Python code is `Option`-valued: `none` models an uncaught
  exception propagating out of the routine (Django would report a 500 and
  no value is returned to the caller).
-/

/-! ### Python string primitives (over `String.data`) -/

/-- Python slicing `s[:n]` (by code points, as Python slices `str`). -/
def strTake (s : String) (n : Nat) : String := ⟨s.data.take n⟩

/-- Python slicing `s[n:]`. -/
def strDrop (s : String) (n : Nat) : String := ⟨s.data.drop n⟩

/-- Python `s.startswith(pre)`. -/
def strStartsWith (s pre : String) : Bool := pre.data.isPrefixOf s.data

/-- The ASCII whitespace characters stripped by Python `str.strip()` /
accepted around `int()` literals (unicode whitespace is not modelled). -/
def pyIsSpace (c : Char) : Bool :=
  c == ' ' || c == '\t' || c == '\n' || c == '\r' || c == '\x0b' || c == '\x0c'

/-- Python `s.strip()`. -/
def pyStrip (s : String) : String :=
  ⟨((s.data.dropWhile pyIsSpace).reverse.dropWhile pyIsSpace).reverse⟩

/-- Numeric value of a list of decimal digit characters. -/
def digitsVal (cs : List Char) : Nat :=
  cs.foldl (fun a c => a * 10 + (c.toNat - 48)) 0

/-- Python `int(s)` on a string: optional surrounding whitespace, optional
sign, then decimal digits; `none` models a raised `ValueError`.
(Digit-group underscores accepted by CPython are not modelled.) -/
def pyStrToInt (s : String) : Option Int :=
  match (s.data.dropWhile pyIsSpace).reverse.dropWhile pyIsSpace |>.reverse with
  | [] => none
  | c :: rest =>
    let signDigits : Bool × List Char :=
      if c == '-' then (true, rest)
      else if c == '+' then (false, rest)
      else (false, c :: rest)
    if signDigits.2.isEmpty || !(signDigits.2.all Char.isDigit) then none
    else
      let v : Int := (digitsVal signDigits.2 : Nat)
      some (if signDigits.1 then -v else v)

/-- Python `<=` on strings: lexicographic comparison by code point. -/
def charListLe : List Char → List Char → Bool
  | [], _ => true
  | _ :: _, [] => false
  | a :: as, b :: bs => if a == b then charListLe as bs else decide (a < b)

/-- Python string `<=`, used by `sorted()`. -/
def strLe (a b : String) : Bool := charListLe a.data b.data

/-- Insertion step of a stable ascending sort (the result of Python
`sorted()` on strings). -/
def insertSorted (x : String) : List String → List String
  | [] => [x]
  | y :: ys => if strLe x y then x :: y :: ys else y :: insertSorted x ys

/-- Python `sorted()` on a collection of strings. -/
def sortStrings (l : List String) : List String := l.foldr insertSorted []

/-! ### JSON values and the Python coercions used by `_iter_grants`
(`docker/mayan/mayan_custom/acl_sync.py`) -/

/-- A decoded JSON value as produced by `json.loads` (JSON numbers are
modelled as integers; the grant records at issue carry no fractional
numbers). -/
inductive JVal where
  | null
  | jbool (b : Bool)
  | num (n : Int)
  | str (s : String)
  | arr (xs : List JVal)
  | obj (fs : List (String × JVal))

/-- Python truthiness of a decoded JSON value. -/
def pyTruthy : JVal → Bool
  | .null => false
  | .jbool b => b
  | .num n => n != 0
  | .str s => s != ""
  | .arr xs => !xs.isEmpty
  | .obj fs => !fs.isEmpty

/-- The quote character used by Python `repr` of a string. -/
def pyQuote : String := String.singleton (Char.ofNat 39)

mutual

/-- Python `repr` of a decoded JSON value (escaping inside string
literals is not modelled; the values at issue contain none). -/
def pyRepr : JVal → String
  | .null => "None"
  | .jbool b => if b then "True" else "False"
  | .num n => toString n
  | .str s => pyQuote ++ s ++ pyQuote
  | .arr xs => "[" ++ String.intercalate ", " (pyReprList xs) ++ "]"
  | .obj fs => "\x7b" ++ String.intercalate ", " (pyReprFields fs) ++ "\x7d"

/-- `repr` of each element of a JSON array. -/
def pyReprList : List JVal → List String
  | [] => []
  | x :: xs => pyRepr x :: pyReprList xs

/-- `repr` of each `key: value` item of a JSON object. -/
def pyReprFields : List (String × JVal) → List String
  | [] => []
  | (k, v) :: fs => (pyQuote ++ k ++ pyQuote ++ ": " ++ pyRepr v) :: pyReprFields fs

end

/-- Python `str()` of a decoded JSON value. -/
def pyStr : JVal → String
  | .null => "None"
  | .jbool b => if b then "True" else "False"
  | .num n => toString n
  | .str s => s
  | .arr xs => pyRepr (.arr xs)
  | .obj fs => pyRepr (.obj fs)

/-- `dict.get` on a decoded JSON object (`json.loads` keeps the last of
duplicate keys, hence the reverse search). -/
def jsonGet (fs : List (String × JVal)) (k : String) : Option JVal :=
  (fs.reverse.find? (fun p => p.1 == k)).map (·.2)

/-- Python `int(x)` on an optional decoded JSON value; `none` models a
raised `TypeError`/`ValueError` (for a missing field, `None`, an array, an
object, or an unparsable string). -/
def pyToInt : Option JVal → Option Int
  | none => none
  | some .null => none
  | some (.jbool b) => some (if b then 1 else 0)
  | some (.num n) => some n
  | some (.str s) => pyStrToInt s
  | some (.arr _) => none
  | some (.obj _) => none

/-- Python `str(x or "")` on an optional decoded JSON value. -/
def pyStrOrEmpty : Option JVal → String
  | none => ""
  | some j => if pyTruthy j then pyStr j else ""

/-! ### `acl_sync.py`: grants -/

/-- `acl_sync.Grant` (lines 13-17): the frozen dataclass holding one
parsed grant. -/
structure Grant where
  user_id : String
  document_id : Int
  permissions : List String
deriving DecidableEq, Repr

/-- The raw value stored under one `grant:*` Redis key, as seen by
`_iter_grants`: absent/empty, not decodable as JSON, or a decoded JSON
value. -/
inductive RedisValue where
  | empty
  | badJson
  | val (j : JVal)

/-- `perms = payload.get("permissions") or ["view"]` followed by the
`str`-wrapping and `tuple(str(p) for p in perms if p)` normalisation of
`_iter_grants` (lines 44-47).  `none` models the `TypeError` raised by
iterating a non-iterable `permissions` value (caught by the enclosing
`except`, skipping the record).  Iterating a JSON object yields its keys. -/
def pyPermissions (v : Option JVal) : Option (List String) :=
  let perms : JVal :=
    match v with
    | none => .arr [.str "view"]
    | some j => if pyTruthy j then j else .arr [.str "view"]
  match perms with
  | .str s => some [s]
  | .arr xs => some ((xs.filter pyTruthy).map pyStr)
  | .obj fs => some ((fs.map (·.1)).filter (fun k => k != ""))
  | _ => none

/-- The body of `_iter_grants` (lines 36-52) for a single `grant:*` key:
`none` when the record is skipped (empty value, invalid JSON, non-object
payload, `documentId` not convertible to `int`, non-iterable
`permissions`, or empty `userId`). -/
def parseGrantValue : RedisValue → Option Grant
  | .empty => none
  | .badJson => none
  | .val (.obj fs) =>
    let user_id := pyStrip (pyStrOrEmpty (jsonGet fs "userId"))
    match pyToInt (jsonGet fs "documentId") with
    | none => none
    | some document_id =>
      match pyPermissions (jsonGet fs "permissions") with
      | none => none
      | some permissions =>
        if user_id == "" then none
        else some { user_id := user_id, document_id := document_id, permissions := permissions }
  | .val _ => none

/-- `_iter_grants` (lines 34-52) over the values of all `grant:*` keys in
scan order: skipped records contribute nothing. -/
def iterGrants (vs : List RedisValue) : List Grant := vs.filterMap parseGrantValue

/-- `_permission_keys_for_grant` (lines 55-67).  The Python function
returns a `set`; it is represented here as the list of its elements in
insertion order (its only consumer iterates it through `sorted()`).
Listed permission strings other than `"download"` and `"ocr"` are
ignored. -/
def permission_keys_for_grant (grant : Grant) : List String :=
  ["documents.document_view", "documents.document_file_view"]
  ++ (if grant.permissions.contains "download" then ["document_downloads.document_file_download"] else [])
  ++ (if grant.permissions.contains "ocr" then ["document_parsing.content_view"] else [])

/-- `_get_stored_permissions` (lines 70-81): iterate the permission keys
in sorted order and keep those present in the `StoredPermission` table
(represented as the list of registered `namespace.name` keys, unique by
the model's database constraint); unknown keys are skipped. -/
def get_stored_permissions (table : List String) (permission_keys : List String) : List String :=
  (sortStrings permission_keys).filter (fun k => table.contains k)

/-! ### The host relational state -/

/-- One `AccessControlList` row: generic foreign key `(content type,
object id)` plus the role (identified by its unique label) and the set of
permissions on the row. -/
structure AclRow where
  ctApp : String
  ctModel : String
  objectId : Int
  roleLabel : String
  permissions : List String
deriving DecidableEq, Repr

/-- One `Role` row (label unique), with its linked groups and its global
permission set. -/
structure RoleRow where
  label : String
  groups : List String
  permissions : List String
deriving DecidableEq, Repr

/-- One user row (primary key unique), with its group memberships. -/
structure UserRow where
  pk : Int
  groups : List String
deriving DecidableEq, Repr

/-- The slice of the host database state read and written by
`sync_acl_from_redis`. -/
structure MayanState where
  storedPermissions : List String
  groupNames : List String
  roles : List RoleRow
  users : List UserRow
  acls : List AclRow
deriving DecidableEq, Repr

/-- The statistics dictionary returned by `sync_acl_from_redis`
(lines 180-185). -/
structure Stats where
  created : Nat
  updated : Nat
  deleted : Nat
  skipped : Nat
deriving DecidableEq, Repr

/-- A many-to-many `add` of one element (a no-op when already linked). -/
def addUnique (l : List String) (x : String) : List String :=
  if l.contains x then l else l ++ [x]

/-- `_ensure_user_group_role` (lines 84-97): get-or-create the per-user
group and role named `("kc:" + user_id)[:128]`, link them, and add the
group to the Mayan user.  `none` models `User.objects.get` raising when
`mayan_user_id` matches no user row — an exception that propagates out of
the whole sync (the partial group/role writes of the raising call are not
retained in this functional model, and no claim observes a raising run). -/
def ensure_user_group_role (st : MayanState) (user_id : String) (mayan_user_id : Int) :
    Option (MayanState × String) :=
  let label := strTake ("kc:" ++ user_id) 128
  let st1 := if st.groupNames.contains label then st
             else { st with groupNames := st.groupNames ++ [label] }
  let st2 := if st1.roles.any (fun ro => ro.label == label) then st1
             else { st1 with roles := st1.roles ++ [{ label := label, groups := [], permissions := [] }] }
  let st3 := { st2 with
               roles := st2.roles.map (fun (ro : RoleRow) =>
                 if ro.label == label then { ro with groups := addUnique ro.groups label } else ro) }
  if st3.users.any (fun u => u.pk == mayan_user_id) then
    some ({ st3 with
            users := st3.users.map (fun (u : UserRow) =>
              if u.pk == mayan_user_id then { u with groups := addUnique u.groups label } else u) },
          label)
  else
    none

/-! ### `sync_acl_from_redis` (lines 100-185) -/

/-- The Redis state read by the sync: the values of the `grant:*` keys in
scan order, and the string key space (holding the `mayan:user:{userId}`
mappings). -/
structure RedisState where
  grantValues : List RedisValue
  kv : List (String × String)

/-- `r.get(key)` on the string key space. -/
def redisGet (r : RedisState) (k : String) : Option String :=
  (r.kv.find? (fun p => p.1 == k)).map (·.2)

/-- One step of building `grants_by_user` (lines 115-116):
`grants_by_user.setdefault(grant.user_id, []).append(grant)` on a `dict`
represented as an association list in key-insertion order. -/
def ggStep (acc : List (String × List Grant)) (g : Grant) : List (String × List Grant) :=
  if acc.any (fun p => p.1 == g.user_id)
  then acc.map (fun p => if p.1 == g.user_id then (p.1, p.2 ++ [g]) else p)
  else acc ++ [(g.user_id, [g])]

/-- Building `grants_by_user` (lines 114-116): a `dict` keyed by
`user_id` in first-occurrence order, each value the user's grants in scan
order. -/
def groupGrants (grants : List Grant) : List (String × List Grant) :=
  grants.foldl ggStep []

/-- `grants_by_user.get(role_user_id, [])`. -/
def grantsFor (gbu : List (String × List Grant)) (uid : String) : List Grant :=
  ((gbu.find? (fun p => p.1 == uid)).map (·.2)).getD []

/-- Whether an ACL row sits on the Document content type
(`ContentType.objects.get(app_label="documents", model="document")`,
line 119). -/
def rowIsDocument (a : AclRow) : Bool :=
  a.ctApp == "documents" && a.ctModel == "document"

/-- The stale-row test of the deletion pass (lines 135-139): a Document
row of the managed role whose object id is not among the desired
document ids (when the desired set is empty, every row of the role is
stale). -/
def staleRow (desired : List Int) (label : String) (a : AclRow) : Bool :=
  rowIsDocument a && a.roleLabel == label &&
    (if desired.isEmpty then true else !(desired.contains a.objectId))

/-- The deletion pass (lines 128-143) over the managed (`kc:`-prefixed)
roles: delete each role's stale Document rows, counting deletions. -/
def deleteStaleLoop (gbu : List (String × List Grant)) :
    List RoleRow → MayanState → Nat → MayanState × Nat
  | [], st, deleted => (st, deleted)
  | ro :: ros, st, deleted =>
    let desired := (grantsFor gbu (strDrop ro.label 3)).map (·.document_id)
    let stale := st.acls.filter (staleRow desired ro.label)
    deleteStaleLoop gbu ros
      { st with acls := st.acls.filter (fun a => !(staleRow desired ro.label a)) }
      (deleted + stale.length)

/-- The key test of `AccessControlList.objects.get_or_create(content_type=
document_ct, object_id=grant.document_id, role=role)` (lines 164-168). -/
def aclKeyMatch (label : String) (document_id : Int) (a : AclRow) : Bool :=
  rowIsDocument a && a.objectId == document_id && a.roleLabel == label

/-- One iteration of the inner upsert loop (lines 160-178): get-or-create
the row, replace its permission set, bump the counters, and extend the
role's global permissions.  `none` models `get_or_create` raising
`MultipleObjectsReturned` on a duplicated key (impossible in the real
database, which enforces uniqueness of `(content_type, object_id,
role)`). -/
def upsertGrant (label : String) (st : MayanState) (created updated : Nat) (grant : Grant) :
    Option (MayanState × Nat × Nat) :=
  let stored_perms := get_stored_permissions st.storedPermissions (permission_keys_for_grant grant)
  let matching := st.acls.filter (aclKeyMatch label grant.document_id)
  if matching.length > 1 then none
  else
    let was_created := matching.isEmpty
    let stA := if was_created
               then { st with acls := st.acls ++ [{ ctApp := "documents", ctModel := "document",
                                                    objectId := grant.document_id,
                                                    roleLabel := label, permissions := [] }] }
               else st
    let stB := { stA with
                 acls := stA.acls.map (fun a =>
                   if aclKeyMatch label grant.document_id a
                   then { a with permissions := stored_perms } else a) }
    let stC := if stored_perms.isEmpty then stB
               else { stB with
                      roles := stB.roles.map (fun ro =>
                        if ro.label == label
                        then { ro with permissions := stored_perms.foldl addUnique ro.permissions }
                        else ro) }
    some (stC, (if was_created then created + 1 else created),
          (if was_created then updated else updated + 1))

/-- The inner upsert loop over one user's grants. -/
def upsertGrantsLoop (label : String) :
    List Grant → MayanState → Nat → Nat → Option (MayanState × Nat × Nat)
  | [], st, created, updated => some (st, created, updated)
  | g :: gs, st, created, updated =>
    match upsertGrant label st created updated g with
    | none => none
    | some (st', created', updated') => upsertGrantsLoop label gs st' created' updated'

/-- The outer upsert loop (lines 146-178) over `grants_by_user`: look up
the `mayan:user:{userId}` mapping, skipping the user's grants when it is
missing, empty, or not an integer; otherwise ensure the group/role and
upsert each grant. -/
def upsertUsersLoop (r : RedisState) :
    List (String × List Grant) → MayanState → Nat → Nat → Nat →
    Option (MayanState × Nat × Nat × Nat)
  | [], st, created, updated, skipped => some (st, created, updated, skipped)
  | (user_id, user_grants) :: rest, st, created, updated, skipped =>
    let raw := redisGet r ("mayan:user:" ++ user_id)
    match raw with
    | none => upsertUsersLoop r rest st created updated (skipped + user_grants.length)
    | some rawv =>
      if rawv == "" then upsertUsersLoop r rest st created updated (skipped + user_grants.length)
      else
        match pyStrToInt rawv with
        | none => upsertUsersLoop r rest st created updated (skipped + user_grants.length)
        | some mayan_user_id =>
          match ensure_user_group_role st user_id mayan_user_id with
          | none => none
          | some (st', label) =>
            match upsertGrantsLoop label user_grants st' created updated with
            | none => none
            | some (st'', created', updated') =>
              upsertUsersLoop r rest st'' created' updated' skipped

/-- `sync_acl_from_redis` (lines 100-185): parse the grants, group them
by user, delete stale managed rows, then upsert every current grant,
returning the statistics.  `none` models an exception escaping the
routine. -/
def sync_acl_from_redis (r : RedisState) (st : MayanState) : Option (MayanState × Stats) :=
  let grants_by_user := groupGrants (iterGrants r.grantValues)
  let del := deleteStaleLoop grants_by_user
    (st.roles.filter (fun ro => strStartsWith ro.label "kc:")) st 0
  match upsertUsersLoop r grants_by_user del.1 0 0 0 with
  | none => none
  | some (st2, created, updated, skipped) =>
    some (st2, { created := created, updated := updated, deleted := del.2, skipped := skipped })

/-! ### `middleware.py`: `AutoOIDCLoginMiddleware` -/

/-- UTF-8 bytes of one code point (as used by `urllib.parse.quote`). -/
def utf8Bytes (c : Char) : List Nat :=
  let n := c.toNat
  if n < 128 then [n]
  else if n < 2048 then [192 + n / 64, 128 + n % 64]
  else if n < 65536 then [224 + n / 4096, 128 + (n / 64) % 64, 128 + n % 64]
  else [240 + n / 262144, 128 + (n / 4096) % 64, 128 + (n / 64) % 64, 128 + n % 64]

/-- Upper-case hexadecimal digit. -/
def hexDigit (n : Nat) : Char := Char.ofNat (if n < 10 then 48 + n else 55 + n)

/-- `urllib.parse.quote` on one character: ASCII letters, digits,
`_.-~` and the default-safe `/` pass through, everything else is
percent-encoded byte by byte. -/
def quoteChar (c : Char) : String :=
  if c.isAlphanum || c == '_' || c == '.' || c == '-' || c == '~' || c == '/' then
    String.singleton c
  else
    String.join ((utf8Bytes c).map (fun b => String.mk ['%', hexDigit (b / 16), hexDigit (b % 16)]))

/-- `urllib.parse.quote` with its default `safe='/'`. -/
def urlQuote (s : String) : String := String.join (s.data.map quoteChar)

/-- The view of an incoming request taken by `AutoOIDCLoginMiddleware`
(`middleware.py`): the method, `request.path`, `request.get_full_path()`,
and the authentication signals read defensively from the session and the
user object. -/
structure MwRequest where
  method : String
  path : String
  fullPath : String
  hasSession : Bool
  sessionAuthUserId : Bool
  hasUser : Bool
  userIsAuthenticated : Bool
deriving DecidableEq, Repr

/-- What the middleware does with a request: hand it to the wrapped
handler unchanged, or answer with a redirect. -/
inductive MwOutcome where
  | forwarded
  | redirect (url : String)
deriving DecidableEq, Repr

/-- `self.allowed_prefixes` (middleware.py lines 25-31). -/
def allowed_prefixes : List String :=
  ["/api/", "/oidc/", "/static/", "/media/", "/favicon.ico"]

/-- `self.allowed_exact` (middleware.py lines 33-35). -/
def allowed_exact : List String := ["/robots.txt"]

/-- `AutoOIDCLoginMiddleware.__call__` (middleware.py lines 37-69). -/
def autoOIDCLoginMiddleware (req : MwRequest) : MwOutcome :=
  if req.hasSession && req.sessionAuthUserId then .forwarded
  else if req.hasUser && req.userIsAuthenticated then .forwarded
  else if req.method != "GET" then .forwarded
  else
    let path := if req.path == "" then "/" else req.path
    if allowed_exact.contains path then .forwarded
    else if allowed_prefixes.any (fun p => strStartsWith path p) then .forwarded
    else if strStartsWith path "/authentication/" then .forwarded
    else
      let next_url := if req.fullPath == "" then "/" else req.fullPath
      .redirect ("/oidc/authenticate/?next=" ++ urlQuote next_url)

/-! ### `oidc_views.py`: cookie-based OIDC views -/

/-- `OIDC_STATE_COOKIE` (oidc_views.py line 30). -/
def OIDC_STATE_COOKIE : String := "oidc_state_cookie"

/-- `OIDC_STATE_MAX_AGE` (oidc_views.py line 31): ten minutes. -/
def OIDC_STATE_MAX_AGE : Nat := 600

/-- The `state_data` dictionary signed into the cookie by the
authentication request view (oidc_views.py lines 59-64). -/
structure OIDCStateData where
  state : String
  nonce : String
  next : String
  created : Nat
deriving DecidableEq, Repr

/-- The OIDC settings read by the request view. -/
structure OIDCSettings where
  scopes : String
  clientId : String
  callbackUri : String
  authEndpoint : String
deriving DecidableEq, Repr

/-- Everything `CookieBasedOIDCAuthenticationRequestView.get` produces
(oidc_views.py lines 42-111): the authorization-request parameters, the
signed cookie (name, payload, max age) and the session mirror. -/
structure AuthRequestResult where
  authEndpoint : String
  params : List (String × String)
  cookieName : String
  cookieData : OIDCStateData
  cookieMaxAge : Nat
  sessionStates : List (String × String)
  sessionLoginNext : String
deriving DecidableEq, Repr

/-- Insert-or-replace in the session's `oidc_states` mapping
(`request.session["oidc_states"][state] = {...}`). -/
def setAssoc (m : List (String × String)) (k v : String) : List (String × String) :=
  if m.any (fun p => p.1 == k) then m.map (fun p => if p.1 == k then (k, v) else p)
  else m ++ [(k, v)]

/-- `CookieBasedOIDCAuthenticationRequestView.get` (lines 42-111), as a
function of the freshly drawn `state`/`nonce`, the sanitised `next`
target (`get_next_url(request, "next")`), the clock, and the session's
current `oidc_states`.  The signed cookie is set on the redirect response
with `max_age=OIDC_STATE_MAX_AGE`; the same state/nonce pair and the
`next` target are mirrored into the session as a fallback. -/
def cookieBasedOIDCAuthenticationRequest (cfg : OIDCSettings) (state nonce : String)
    (nextUrl : Option String) (now : Nat) (sessionStates : List (String × String)) :
    AuthRequestResult :=
  let data : OIDCStateData :=
    { state := state, nonce := nonce, next := nextUrl.getD "/", created := now }
  { authEndpoint := cfg.authEndpoint
    params := [("response_type", "code"), ("scope", cfg.scopes), ("client_id", cfg.clientId),
               ("redirect_uri", cfg.callbackUri), ("state", state), ("nonce", nonce)]
    cookieName := OIDC_STATE_COOKIE
    cookieData := data
    cookieMaxAge := OIDC_STATE_MAX_AGE
    sessionStates := setAssoc sessionStates state nonce
    sessionLoginNext := data.next }

/-- The `oidc_state_cookie` as presented to the callback: absent, present
but failing signature verification, or carrying signed data of a known
age (seconds since `signing.dumps`). -/
inductive SignedCookie where
  | absent
  | badSignature
  | signed (d : OIDCStateData) (age : Nat)

/-- `signing.loads(signed_state, salt='oidc-state',
max_age=OIDC_STATE_MAX_AGE)`: `none` models the raised `BadSignature`
(including its `SignatureExpired` subclass when the cookie is older than
the maximum age). -/
def loadSignedState : SignedCookie → Option OIDCStateData
  | .absent => none
  | .badSignature => none
  | .signed d age => if age > OIDC_STATE_MAX_AGE then none else some d

/-- The outcome of `auth.authenticate(request=..., nonce=...,
code_verifier=None)` — an external collaborator: it may raise, return no
user, or return a user that is active or not. -/
inductive AuthOutcome where
  | raises
  | noUser
  | user (isActive : Bool)
deriving DecidableEq, Repr

/-- The view of the callback request taken by
`CookieBasedOIDCAuthenticationCallbackView.get`: URL parameters, the
state cookie, the session's `oidc_states` fallback (state ↦ nonce), the
requester's current authentication, and the behaviour of
`auth.authenticate` as a function of the nonce passed to it. -/
structure CallbackRequest where
  urlState : Option String
  code : Option String
  errorParam : Option String
  cookie : SignedCookie
  sessionStates : List (String × String)
  userIsAuthenticated : Bool
  authResult : String → AuthOutcome

/-- What the callback run did: whether it ended in `login_success()`
(which is the only path that logs a user in) or `login_failure()`,
whether `auth.logout` was called, and the nonce handed to
`auth.authenticate` when it was called at all. -/
structure CallbackOutcome where
  success : Bool
  loggedOut : Bool
  authenticateNonce : Option String
deriving DecidableEq, Repr

/-- Truthiness of an optional `request.GET` parameter. -/
def truthyOpt : Option String → Bool
  | none => false
  | some s => s != ""

/-- `CookieBasedOIDCAuthenticationCallbackView.get` (oidc_views.py
lines 119-266). -/
def cookieBasedOIDCAuthenticationCallback (req : CallbackRequest) : CallbackOutcome :=
  if truthyOpt req.errorParam then
    { success := false, loggedOut := req.userIsAuthenticated, authenticateNonce := none }
  else if !(truthyOpt req.urlState) || !(truthyOpt req.code) then
    { success := false, loggedOut := false, authenticateNonce := none }
  else
    let url_state := (req.urlState).getD ""
    match req.cookie with
    | .absent =>
      match (req.sessionStates.find? (fun p => p.1 == url_state)).map (·.2) with
      | none => { success := false, loggedOut := false, authenticateNonce := none }
      | some nonce =>
        match req.authResult nonce with
        | .raises => { success := false, loggedOut := false, authenticateNonce := some nonce }
        | .noUser => { success := false, loggedOut := false, authenticateNonce := some nonce }
        | .user isActive =>
          { success := isActive, loggedOut := false, authenticateNonce := some nonce }
    | c =>
      match loadSignedState c with
      | none => { success := false, loggedOut := false, authenticateNonce := none }
      | some state_data =>
        if state_data.state != url_state then
          { success := false, loggedOut := false, authenticateNonce := none }
        else
          match req.authResult state_data.nonce with
          | .raises =>
            { success := false, loggedOut := false, authenticateNonce := some state_data.nonce }
          | .noUser =>
            { success := false, loggedOut := false, authenticateNonce := some state_data.nonce }
          | .user isActive =>
            { success := isActive, loggedOut := false, authenticateNonce := some state_data.nonce }

/-! ### `api_views.py`: `ACLSyncNowView` -/

/-- The authenticated user returned by Django `authenticate` — only the
flags the view reads. -/
structure ApiUser where
  is_staff : Bool
  is_superuser : Bool
deriving DecidableEq, Repr

/-- The external collaborators of `_basic_auth_user`: `base64.b64decode`
followed by UTF-8 decoding (which may fail), and Django
`authenticate`. -/
structure BasicAuthEnv where
  b64decode : String → Option String
  authenticate : String → String → Option ApiUser

/-- Python `auth_header.split(' ', 1)[1]`: everything after the first
space. -/
def afterFirstSpace (s : String) : String :=
  ⟨(s.data.dropWhile (fun c => c != ' ')).drop 1⟩

/-- Python `decoded.split(':', 1)` unpacked into two names: `none` models
the `ValueError` raised when there is no colon. -/
def splitColonOnce (s : String) : Option (String × String) :=
  if s.data.contains ':' then
    some (⟨s.data.takeWhile (fun c => c != ':')⟩, ⟨(s.data.dropWhile (fun c => c != ':')).drop 1⟩)
  else none

/-- `_basic_auth_user` (api_views.py lines 18-30), as a function of the
`HTTP_AUTHORIZATION` header (`''` when absent). -/
def basic_auth_user (env : BasicAuthEnv) (auth_header : String) : Option ApiUser :=
  if !(strStartsWith auth_header "Basic ") then none
  else
    match env.b64decode (pyStrip (afterFirstSpace auth_header)) with
    | none => none
    | some decoded =>
      match splitColonOnce decoded with
      | none => none
      | some (username, password) => env.authenticate username password

/-- The JSON body of the view's response. -/
inductive ApiBody where
  | detail (s : String)
  | okStats (stats : Stats)
deriving DecidableEq, Repr

/-- An HTTP response of the view: status code plus JSON body. -/
structure ApiResponse where
  status : Nat
  body : ApiBody
deriving DecidableEq, Repr

/-- `ACLSyncNowView.post` (api_views.py lines 37-48): 401 without an
authenticated Basic user, 403 unless staff or superuser, otherwise run
the sync and answer `{'ok': True, 'stats': ...}`.  The resulting host
state is returned alongside; `none` models the sync raising (Django
would answer 500). -/
def aclSyncNowPost (env : BasicAuthEnv) (auth_header : String) (r : RedisState)
    (st : MayanState) : Option (ApiResponse × MayanState) :=
  match basic_auth_user env auth_header with
  | none => some ({ status := 401, body := .detail "Unauthorized" }, st)
  | some user =>
    if !(user.is_staff || user.is_superuser) then
      some ({ status := 403, body := .detail "Forbidden" }, st)
    else
      match sync_acl_from_redis r st with
      | none => none
      | some (st2, stats) => some ({ status := 200, body := .okStats stats }, st2)

/-! ### `tasks.py` and `queues.py`: the periodic task -/

/-- `sync_acl_from_redis_task` (tasks.py lines 6-13): the Celery task
body calls `sync_acl_from_redis` once and only prints the returned
statistics, so its effect on the host state is the sync's. -/
def sync_acl_from_redis_task (r : RedisState) (st : MayanState) : Option MayanState :=
  match sync_acl_from_redis r st with
  | none => none
  | some (st2, _stats) => some st2

/-- The queue name of `queue_mayan_custom_periodic` (queues.py line 13). -/
def queue_mayan_custom_periodic_name : String := "mayan_custom_periodic"

/-- The task registration of `queues.py` lines 20-25: dotted path, task
name and schedule in seconds. -/
structure TaskRegistration where
  dottedPath : String
  taskName : String
  scheduleSeconds : Nat
deriving DecidableEq, Repr

/-- The single task type added to the periodic queue (queues.py
lines 20-25): scheduled every 30 seconds. -/
def sync_acl_task_registration : TaskRegistration :=
  { dottedPath := "mayan_custom.tasks.sync_acl_from_redis_task"
    taskName := "mayan_custom_sync_acl_from_redis"
    scheduleSeconds := 30 }

/-! ### Claim C8: the auto-login middleware -/

/-- The pass-through condition of claim C8: authenticated requester (by
session or user object), non-GET method, the exact path `/robots.txt`, or
a path under one of the allowed prefixes (including `/authentication/`). -/
def mwPassThrough (req : MwRequest) : Bool :=
  (req.hasSession && req.sessionAuthUserId)
  || (req.hasUser && req.userIsAuthenticated)
  || req.method != "GET"
  || allowed_exact.contains req.path
  || allowed_prefixes.any (fun p => strStartsWith req.path p)
  || strStartsWith req.path "/authentication/"

/-! ### Analysis definitions for the reconciliation claims -/

/-- The label of the managed role/group of a user:
`("kc:" + user_id)[:128]`. -/
def labelOf (uid : String) : String := strTake ("kc:" ++ uid) 128

/-- The Mayan user id mapped to a backend user id: `mayan:user:{userId}`
must exist, be non-empty, and convert to `int` (lines 147-156). -/
def mappedId (r : RedisState) (uid : String) : Option Int :=
  match redisGet r ("mayan:user:" ++ uid) with
  | none => none
  | some raw => if raw == "" then none else pyStrToInt raw

/-- `grants_by_user` as computed by the sync for a Redis state. -/
def gbuOf (r : RedisState) : List (String × List Grant) :=
  groupGrants (iterGrants r.grantValues)

/-- The desired document ids of a user: the documents granted to it. -/
def docsOf (gbu : List (String × List Grant)) (uid : String) : List Int :=
  (grantsFor gbu uid).map (·.document_id)

/-- The get-or-create identity of an ACL row. -/
def aclKey (a : AclRow) : String × String × Int × String :=
  (a.ctApp, a.ctModel, a.objectId, a.roleLabel)

/-- Database well-formedness of the ACL table: the unique constraint on
`(content_type, object_id, role)`. -/
def WfAcl (acls : List AclRow) : Prop := (acls.map aclKey).Nodup

/-- Rows outside the sync's management: not a Document row of a
`kc:`-prefixed role (claim C2). -/
def unmanagedB (a : AclRow) : Bool :=
  !(strStartsWith a.roleLabel "kc:" && rowIsDocument a)

/-- Role foreign-key integrity for the managed rows: every `kc:` Document
ACL row references an existing role. -/
def KcFk (st : MayanState) : Prop :=
  ∀ a ∈ st.acls, strStartsWith a.roleLabel "kc:" = true → rowIsDocument a = true →
    st.roles.any (fun ro => ro.label == a.roleLabel) = true

/-- Survivor predicate of the deletion pass: the row is stale for none of
the listed managed roles. -/
def keepRowB (gbu : List (String × List Grant)) (ros : List RoleRow) (a : AclRow) : Bool :=
  ros.all (fun ro => !(staleRow (docsOf gbu (strDrop ro.label 3)) ro.label a))

/-- The stored permissions derived from one grant against a
`StoredPermission` table. -/
def storedFor (table : List String) (g : Grant) : List String :=
  get_stored_permissions table (permission_keys_for_grant g)

/-- First-occurrence deduplication of a list of document ids. -/
def dedupFirst : List Int → List Int
  | [] => []
  | d :: ds => d :: dedupFirst (ds.filter (fun x => x != d))
termination_by l => l.length
decreasing_by
  simpa using Nat.lt_succ_of_le (List.length_filter_le _ ds)

/-- The last grant of a user's list for a given document id (the one
whose permissions win within a run). -/
def lastGrantFor (gs : List Grant) (d : Int) : Grant :=
  ((gs.filter (fun g => g.document_id == d)).getLast?).getD
    { user_id := "", document_id := d, permissions := [] }

/-- The role permission set accumulated over a user's grants
(`role.permissions.add(*stored_perms)`, line 178). -/
def rolePermsAfter (table : List String) (gs : List Grant) (ps : List String) : List String :=
  gs.foldl
    (fun acc g =>
      let stored := storedFor table g
      if stored.isEmpty then acc else stored.foldl addUnique acc)
    ps

/-- The rows the upsert pass appends for one mapped user, judged against
the ACL table as it stood when the pass began: one row per first
occurrence of a document id that had no row yet, carrying the
permissions of the user's last grant for that document. -/
def newRowsFor (table : List String) (A : List AclRow) (l : String) (gs : List Grant) :
    List AclRow :=
  (dedupFirst (gs.map (·.document_id))).filterMap (fun d =>
    if (A.filter (aclKeyMatch l d)).isEmpty then
      some { ctApp := "documents", ctModel := "document", objectId := d, roleLabel := l,
             permissions := storedFor table (lastGrantFor gs d) }
    else none)

/-- All rows the upsert pass appends, user by user. -/
def newRowsAll (table : List String) (r : RedisState) (A : List AclRow)
    (us : List (String × List Grant)) : List AclRow :=
  us.flatMap (fun p =>
    if (mappedId r p.1).isSome then newRowsFor table A (labelOf p.1) p.2 else [])

/-- The permission overwrite the upsert pass applies to a pre-existing
row: if some mapped user's grants target the row's key, its permissions
become those of that user's last grant for the document. -/
def touchUpd (table : List String) (r : RedisState) (us : List (String × List Grant))
    (a : AclRow) : AclRow :=
  match us.find? (fun p => (mappedId r p.1).isSome && labelOf p.1 == a.roleLabel &&
      rowIsDocument a && p.2.any (fun g => g.document_id == a.objectId)) with
  | some p => { a with permissions := storedFor table (lastGrantFor p.2 a.objectId) }
  | none => a

/-- The `skipped` total: one per grant of a user without a usable
`mayan:user` mapping. -/
def skippedOf (r : RedisState) (us : List (String × List Grant)) : Nat :=
  ((us.filter (fun p => !(mappedId r p.1).isSome)).map (fun p => p.2.length)).sum

/-- The `created` total: one per appended row. -/
def createdOf (table : List String) (r : RedisState) (A : List AclRow)
    (us : List (String × List Grant)) : Nat :=
  (newRowsAll table r A us).length

/-- The `updated` total: every grant of a mapped user bumps exactly one
of `created`/`updated`. -/
def updatedOf (table : List String) (r : RedisState) (A : List AclRow)
    (us : List (String × List Grant)) : Nat :=
  ((us.filter (fun p => (mappedId r p.1).isSome)).map (fun p => p.2.length)).sum
    - createdOf table r A us

/-- The role-permission extension of one upsert iteration
(`role.permissions.add(*stored_perms)` when non-empty, line 177-178). -/
def rolesAdd (l : String) (sp : List String) (roles : List RoleRow) : List RoleRow :=
  if sp.isEmpty then roles
  else roles.map (fun ro =>
    if ro.label == l then { ro with permissions := sp.foldl addUnique ro.permissions } else ro)

/-- The role table after one user's whole grant loop. -/
def rolesAfterGrants (table : List String) (l : String) (gs : List Grant)
    (roles : List RoleRow) : List RoleRow :=
  gs.foldl (fun rs g => rolesAdd l (storedFor table g) rs) roles

/-- The permission overwrite one user's grant loop applies to a
pre-existing row: a Document row of the user's role whose document is
granted gets the permissions of the user's last grant for it. -/
def aclUpd (table : List String) (l : String) (gs : List Grant) (a : AclRow) : AclRow :=
  if a.roleLabel == l && rowIsDocument a && gs.any (fun g => g.document_id == a.objectId)
  then { a with permissions := storedFor table (lastGrantFor gs a.objectId) }
  else a

/-- The composite permission overwrite of the whole upsert pass, user by
user. -/
def usersUpd (table : List String) (r : RedisState) (us : List (String × List Grant))
    (a : AclRow) : AclRow :=
  us.foldl (fun b p => if (mappedId r p.1).isSome then aclUpd table (labelOf p.1) p.2 b else b) a

/-- No managed role label is truncated: every grant-holding user id fits
the 128-character role label (the counterexamples to claims C5/C6 show
the sync misbehaves beyond it). -/
def ShortIds (us : List (String × List Grant)) : Prop :=
  ∀ p ∈ us, ("kc:" ++ p.1).data.length ≤ 128

/-! ### Users-loop step characterization -/

/-- The role get-or-create plus `role.groups.add(group)` of
`_ensure_user_group_role`. -/
def ensureRolesFor (l : String) (roles : List RoleRow) : List RoleRow :=
  (if roles.any (fun ro => ro.label == l) then roles
   else roles ++ [{ label := l, groups := [], permissions := [] }]).map
    (fun ro => if ro.label == l then { ro with groups := addUnique ro.groups l } else ro)

/-- The `user.groups.add(group)` of `_ensure_user_group_role`. -/
def usersAddGroup (n : Int) (l : String) (users : List UserRow) : List UserRow :=
  users.map (fun u2 => if u2.pk == n then { u2 with groups := addUnique u2.groups l } else u2)

/-- The whole host-state effect of processing one user of
`grants_by_user` in the upsert pass (a no-op when the user has no usable
`mayan:user` mapping). -/
def userStep (r : RedisState) (uid : String) (gs : List Grant) (st : MayanState) :
    MayanState :=
  match mappedId r uid with
  | none => st
  | some n =>
    { storedPermissions := st.storedPermissions
      groupNames := addUnique st.groupNames (labelOf uid)
      roles := rolesAfterGrants st.storedPermissions (labelOf uid) gs
                 (ensureRolesFor (labelOf uid) st.roles)
      users := usersAddGroup n (labelOf uid) st.users
      acls := st.acls.map (aclUpd st.storedPermissions (labelOf uid) gs)
              ++ newRowsFor st.storedPermissions st.acls (labelOf uid) gs }

/-! ### Users-loop fold form -/

/-- Every mapped user of the list has an existing Mayan account. -/
def PkOk (r : RedisState) (st : MayanState) (us : List (String × List Grant)) : Prop :=
  ∀ p ∈ us, ∀ n, mappedId r p.1 = some n →
    st.users.any (fun u2 => u2.pk == n) = true

/-- The `created` total of the upsert pass, user by user against the
evolving state. -/
def createdLoop (r : RedisState) : List (String × List Grant) → MayanState → Nat
  | [], _ => 0
  | (uid, gs) :: rest, st =>
    match mappedId r uid with
    | none => createdLoop r rest st
    | some _ => (newRowsFor st.storedPermissions st.acls (labelOf uid) gs).length
                + createdLoop r rest (userStep r uid gs st)

/-- The `updated` total of the upsert pass. -/
def updatedLoop (r : RedisState) : List (String × List Grant) → MayanState → Nat
  | [], _ => 0
  | (uid, gs) :: rest, st =>
    match mappedId r uid with
    | none => updatedLoop r rest st
    | some _ => (gs.length - (newRowsFor st.storedPermissions st.acls (labelOf uid) gs).length)
                + updatedLoop r rest (userStep r uid gs st)

/-! ### The upsert pass as a fold, and the deletion pass as a state -/

/-- The upsert pass of `sync_acl_from_redis` as a fold of the per-user
state changes. -/
def foldUsers (r : RedisState) (us : List (String × List Grant)) (st : MayanState) :
    MayanState :=
  us.foldl (fun s p => userStep r p.1 p.2 s) st

/-- The host state after the deletion pass of `sync_acl_from_redis`. -/
def delState (r : RedisState) (st : MayanState) : MayanState :=
  (deleteStaleLoop (gbuOf r) (st.roles.filter (fun ro => strStartsWith ro.label "kc:")) st 0).1

/-- The `deleted` statistic of `sync_acl_from_redis`. -/
def delCount (r : RedisState) (st : MayanState) : Nat :=
  (deleteStaleLoop (gbuOf r) (st.roles.filter (fun ro => strStartsWith ro.label "kc:")) st 0).2

/-! ### Concrete instances for the claim witnesses and counterexamples -/

/-- A `StoredPermission` registry holding all four derivable keys. -/
def exTable : List String :=
  ["documents.document_view", "documents.document_file_view",
   "document_downloads.document_file_download", "document_parsing.content_view"]

/-- A Redis state: two well-formed grants and both user mappings. -/
def exRedis : RedisState :=
  { grantValues :=
      [.val (.obj [("userId", .str "u1"), ("documentId", .num 5)]),
       .val (.obj [("userId", .str " u2 "), ("documentId", .str "7"),
                   ("permissions", .arr [.str "download", .str "ai_summary"])])]
    kv := [("mayan:user:u1", "10"), ("mayan:user:u2", "20")] }

/-- A host state: one stale managed row (role `kc:u3`) and one unmanaged
row, plus the two mapped Mayan users. -/
def exState : MayanState :=
  { storedPermissions := exTable
    groupNames := []
    roles := [{ label := "kc:u3", groups := ["kc:u3"], permissions := [] }]
    users := [{ pk := 10, groups := [] }, { pk := 20, groups := [] }]
    acls := [{ ctApp := "documents", ctModel := "document", objectId := 9,
               roleLabel := "kc:u3", permissions := ["documents.document_view"] },
             { ctApp := "documents", ctModel := "documentfile", objectId := 4,
               roleLabel := "staff", permissions := ["documents.document_view"] }] }

/-- The host state produced by running the sync on the concrete instance. -/
def exFinal : MayanState :=
  { storedPermissions := exTable
    groupNames := ["kc:u1", "kc:u2"]
    roles := [{ label := "kc:u3", groups := ["kc:u3"], permissions := [] },
              { label := "kc:u1", groups := ["kc:u1"],
                permissions := ["documents.document_file_view", "documents.document_view"] },
              { label := "kc:u2", groups := ["kc:u2"],
                permissions := ["document_downloads.document_file_download",
                                "documents.document_file_view", "documents.document_view"] }]
    users := [{ pk := 10, groups := ["kc:u1"] }, { pk := 20, groups := ["kc:u2"] }]
    acls := [{ ctApp := "documents", ctModel := "documentfile", objectId := 4,
               roleLabel := "staff", permissions := ["documents.document_view"] },
             { ctApp := "documents", ctModel := "document", objectId := 5,
               roleLabel := "kc:u1",
               permissions := ["documents.document_file_view", "documents.document_view"] },
             { ctApp := "documents", ctModel := "document", objectId := 7,
               roleLabel := "kc:u2",
               permissions := ["document_downloads.document_file_download",
                               "documents.document_file_view", "documents.document_view"] }] }

/-- The statistics produced by running the sync on the concrete
instance. -/
def exStats : Stats := { created := 2, updated := 0, deleted := 1, skipped := 0 }

/-- Decidable form of the mapped-account condition. -/
def PkOkB (r : RedisState) (st : MayanState) (us : List (String × List Grant)) : Bool :=
  us.all (fun p => match mappedId r p.1 with
    | none => true
    | some n => st.users.any (fun u2 => u2.pk == n))

/-- A Redis state granting document 5 to user `u`, with no
`mayan:user:u` mapping. -/
def cxRedis : RedisState :=
  { grantValues := [.val (.obj [("userId", .str "u"), ("documentId", .num 5)])]
    kv := [] }

/-- A host state where the managed role `kc:u` already exists with no
ACL rows. -/
def cxState : MayanState :=
  { storedPermissions := exTable
    groupNames := ["kc:u"]
    roles := [{ label := "kc:u", groups := ["kc:u"], permissions := [] }]
    users := []
    acls := [] }

/-- A Redis state with one mapped user whose grant lists `"download"`. -/
def cyRedis : RedisState :=
  { grantValues := [.val (.obj [("userId", .str "u"), ("documentId", .num 1),
                                ("permissions", .arr [.str "download"])])]
    kv := [("mayan:user:u", "10")] }

/-- A host state with an empty `StoredPermission` registry. -/
def cyState : MayanState :=
  { storedPermissions := []
    groupNames := []
    roles := []
    users := [{ pk := 10, groups := [] }]
    acls := [] }

/-! ### Invariants established by a completed run (claim C5) -/

/-- Every managed Document row references a currently granted document
of its own role's user. -/
def CurrentManaged (r : RedisState) (acls : List AclRow) : Prop :=
  ∀ a ∈ acls, strStartsWith a.roleLabel "kc:" = true → rowIsDocument a = true →
    a.objectId ∈ docsOf (gbuOf r) (strDrop a.roleLabel 3)

/-- The role table records a processed user: their role exists, is
linked to their group, and carries all their stored grant
permissions. -/
def RolesOk (l : String) (T : List String) (gs : List Grant) (roles : List RoleRow) : Prop :=
  roles.any (fun ro => ro.label == l) = true ∧
  ∀ ro ∈ roles, ro.label = l →
    l ∈ ro.groups ∧ ∀ g ∈ gs, ∀ p ∈ storedFor T g, p ∈ ro.permissions

/-- The user rows of a processed user's account carry their group. -/
def UsersOk (l : String) (n : Int) (users : List UserRow) : Prop :=
  ∀ u2 ∈ users, u2.pk = n → l ∈ u2.groups

/-! ### The post-run invariant -/

/-- The state of a host database synchronised with the Redis grants:
the registry is untouched, every managed Document row is currently
granted, and every mapped grant-holding user has their group, role
links, account link, and exactly reconciled rows. -/
def SyncedState (r : RedisState) (T : List String) (s : MayanState) : Prop :=
  s.storedPermissions = T ∧
  CurrentManaged r s.acls ∧
  (∀ uid gs n, (uid, gs) ∈ gbuOf r → mappedId r uid = some n →
     labelOf uid ∈ s.groupNames ∧
     RolesOk (labelOf uid) T gs s.roles ∧
     UsersOk (labelOf uid) n s.users ∧
     (∀ d : Int, gs.any (fun g => g.document_id == d) = true →
        s.acls.filter (aclKeyMatch (labelOf uid) d) =
          [{ ctApp := "documents", ctModel := "document", objectId := d,
             roleLabel := labelOf uid,
             permissions := storedFor T (lastGrantFor gs d) }])) 

/-- A user id of 126 characters: its role label `("kc:" + id)[:128]` is
truncated. -/
def czUid : String := String.mk (List.replicate 126 'a')

/-- A Redis state granting one document to the long-id user, with a
valid `mayan:user` mapping. -/
def czRedis : RedisState :=
  { grantValues := [.val (.obj [("userId", .str czUid), ("documentId", .num 1)])]
    kv := [("mayan:user:" ++ czUid, "10")] }

/-- A host state holding the mapped Mayan account. -/
def czState : MayanState :=
  { storedPermissions := exTable
    groupNames := []
    roles := []
    users := [{ pk := 10, groups := [] }]
    acls := [] }

/-- The concrete Redis instance with its two grant records scanned in
the opposite order. -/
def exRedis2 : RedisState :=
  { grantValues :=
      [.val (.obj [("userId", .str " u2 "), ("documentId", .str "7"),
                   ("permissions", .arr [.str "download", .str "ai_summary"])]),
       .val (.obj [("userId", .str "u1"), ("documentId", .num 5)])]
    kv := [("mayan:user:u1", "10"), ("mayan:user:u2", "20")] }

/-- A 126-character user id ending in `b`. -/
def cwU1 : String := String.mk (List.replicate 125 'a' ++ ['b'])

/-- A 126-character user id ending in `c`: its role label truncates to
the same 128 characters as `cwU1`'s. -/
def cwU2 : String := String.mk (List.replicate 125 'a' ++ ['c'])

/-- Two grants of distinct users for the same document, with distinct
permission lists. -/
def cwV1 : RedisValue :=
  .val (.obj [("userId", .str cwU1), ("documentId", .num 1),
              ("permissions", .arr [.str "download"])])

/-- The second user's grant. -/
def cwV2 : RedisValue := .val (.obj [("userId", .str cwU2), ("documentId", .num 1)])

/-- Both users carry valid `mayan:user` mappings. -/
def cwKv : List (String × String) :=
  [("mayan:user:" ++ cwU1, "10"), ("mayan:user:" ++ cwU2, "11")]

/-- The two scan orders of the same Redis contents. -/
def cwRedisA : RedisState := { grantValues := [cwV1, cwV2], kv := cwKv }

/-- The opposite scan order. -/
def cwRedisB : RedisState := { grantValues := [cwV2, cwV1], kv := cwKv }

/-- A host state holding both mapped accounts. -/
def cwState : MayanState :=
  { storedPermissions := exTable
    groupNames := []
    roles := []
    users := [{ pk := 10, groups := [] }, { pk := 11, groups := [] }]
    acls := [] }

/-! ### Claim C10: the periodic task -/

/-- C10: the periodic background job — the Celery task registered on the
`mayan_custom_periodic` queue with a 30-second schedule — performs exactly
one call to `sync_acl_from_redis` per invocation: its effect on the host
state is precisely the state component of the sync's result. -/
theorem periodic_task_refines_sync :
    (∀ (r : RedisState) (st : MayanState),
      sync_acl_from_redis_task r st = (sync_acl_from_redis r st).map Prod.fst)
    ∧ sync_acl_task_registration.scheduleSeconds = 30
    ∧ sync_acl_task_registration.dottedPath = "mayan_custom.tasks.sync_acl_from_redis_task"
    ∧ queue_mayan_custom_periodic_name = "mayan_custom_periodic" := by
  refine ⟨fun r st => ?_, rfl, rfl, rfl⟩
  unfold sync_acl_from_redis_task
  cases sync_acl_from_redis r st with
  | none => rfl
  | some p => rfl

/-- C8: on any real request (Django request paths and full paths are
never empty), `AutoOIDCLoginMiddleware` forwards the request unchanged
exactly when the requester is authenticated, the method is not GET, the
path is `/robots.txt`, or the path starts with `/api/`, `/oidc/`,
`/static/`, `/media/`, `/favicon.ico` or `/authentication/`; every other
request is redirected to `/oidc/authenticate/?next=<quoted full path>`.
In particular an API call under `/api/` is never redirected. -/
theorem middleware_redirect_rules (req : MwRequest)
    (hpath : req.path ≠ "") (hfull : req.fullPath ≠ "") :
    (mwPassThrough req → autoOIDCLoginMiddleware req = .forwarded)
    ∧ (¬ mwPassThrough req →
        autoOIDCLoginMiddleware req =
          .redirect ("/oidc/authenticate/?next=" ++ urlQuote req.fullPath))
    ∧ (strStartsWith req.path "/api/" → autoOIDCLoginMiddleware req = .forwarded) := by
  have hp : (req.path == "") = false := by
    simp [hpath]
  have hf : (req.fullPath == "") = false := by
    simp [hfull]
  simp only [autoOIDCLoginMiddleware, mwPassThrough, hp, hf, Bool.false_eq_true, if_false]
  cases h1 : (req.hasSession && req.sessionAuthUserId) <;>
  cases h2 : (req.hasUser && req.userIsAuthenticated) <;>
  cases h3 : (req.method != "GET") <;>
  cases h4 : (allowed_exact.contains req.path) <;>
  cases h5 : (allowed_prefixes.any fun p => strStartsWith req.path p) <;>
  cases h6 : (strStartsWith req.path "/authentication/") <;>
    simp_all [allowed_prefixes]

/-- Concrete instantiation of `middleware_redirect_rules`: an anonymous
GET for `/api/v4/documents/` is forwarded, never redirected. -/
theorem middleware_redirect_rules_witness :
    autoOIDCLoginMiddleware
      { method := "GET", path := "/api/v4/documents/", fullPath := "/api/v4/documents/",
        hasSession := false, sessionAuthUserId := false,
        hasUser := false, userIsAuthenticated := false } = .forwarded := by
  exact (middleware_redirect_rules
    { method := "GET", path := "/api/v4/documents/", fullPath := "/api/v4/documents/",
      hasSession := false, sessionAuthUserId := false,
      hasUser := false, userIsAuthenticated := false }
    (by decide) (by decide)).2.2 (by decide)

/-! ### Claim C9: `ACLSyncNowView` -/

/-- C9: `ACLSyncNowView.post` answers 401 when the request carries no
Basic credentials that authenticate a user and 403 when the
authenticated user is neither staff nor superuser, performing no ACL
synchronization in either case (the host state is returned unchanged);
only a staff or superuser request runs `sync_acl_from_redis` and answers
its statistics with `ok = true` (status 200) over the synchronized
state. -/
theorem acl_sync_now_auth (env : BasicAuthEnv) (auth_header : String)
    (r : RedisState) (st : MayanState) :
    (basic_auth_user env auth_header = none →
      aclSyncNowPost env auth_header r st =
        some ({ status := 401, body := .detail "Unauthorized" }, st))
    ∧ (∀ u, basic_auth_user env auth_header = some u →
        ¬ (u.is_staff = true ∨ u.is_superuser = true) →
        aclSyncNowPost env auth_header r st =
          some ({ status := 403, body := .detail "Forbidden" }, st))
    ∧ (∀ u st2 stats, basic_auth_user env auth_header = some u →
        (u.is_staff = true ∨ u.is_superuser = true) →
        sync_acl_from_redis r st = some (st2, stats) →
        aclSyncNowPost env auth_header r st =
          some ({ status := 200, body := .okStats stats }, st2)) := by
  refine ⟨fun h => ?_, fun u hu hs => ?_, fun u st2 stats hu hs hsync => ?_⟩
  · simp [aclSyncNowPost, h]
  · have hflag : (u.is_staff || u.is_superuser) = false := by
      rcases Bool.eq_false_or_eq_true u.is_staff with h1 | h1 <;>
      rcases Bool.eq_false_or_eq_true u.is_superuser with h2 | h2 <;>
        simp_all
    simp [aclSyncNowPost, hu, hflag]
  · have hflag : (u.is_staff || u.is_superuser) = true := by
      rcases hs with h | h <;> simp [h]
    simp [aclSyncNowPost, hu, hflag, hsync]

/-- Concrete instantiation of `acl_sync_now_auth`: a request without an
`Authorization` header is answered 401 with the state untouched. -/
theorem acl_sync_now_auth_witness :
    aclSyncNowPost
      { b64decode := fun _ => none, authenticate := fun _ _ => none } ""
      { grantValues := [], kv := [] }
      { storedPermissions := [], groupNames := [], roles := [], users := [], acls := [] } =
    some ({ status := 401, body := .detail "Unauthorized" },
          { storedPermissions := [], groupNames := [], roles := [], users := [], acls := [] }) := by
  exact (acl_sync_now_auth
    { b64decode := fun _ => none, authenticate := fun _ _ => none } ""
    { grantValues := [], kv := [] }
    { storedPermissions := [], groupNames := [], roles := [], users := [], acls := [] }).1 rfl

/-! ### Claim C7: the cookie-based OIDC views -/

/-- C7: the custom OIDC views change only where the state and nonce are
stored.  The authenticate view places `{state, nonce, next, created}` in
the signed cookie `oidc_state_cookie` with a 600-second maximum age and
mirrors the state ↦ nonce pair and the `next` target into the session as
a fallback; the callback view logs no user in (it ends in
`login_failure()`) whenever the OP reports an error, the URL `state` or
`code` parameter is absent, the cookie's signature does not verify, the
cookie is older than 600 seconds, or the state stored in the cookie
differs from the URL `state` parameter. -/
theorem oidc_views_cookie_state :
    (∀ (cfg : OIDCSettings) (state nonce : String) (nextUrl : Option String)
        (now : Nat) (ss : List (String × String)),
      (cookieBasedOIDCAuthenticationRequest cfg state nonce nextUrl now ss).cookieName =
          OIDC_STATE_COOKIE
      ∧ (cookieBasedOIDCAuthenticationRequest cfg state nonce nextUrl now ss).cookieMaxAge = 600
      ∧ (cookieBasedOIDCAuthenticationRequest cfg state nonce nextUrl now ss).cookieData =
          { state := state, nonce := nonce, next := nextUrl.getD "/", created := now }
      ∧ (cookieBasedOIDCAuthenticationRequest cfg state nonce nextUrl now ss).sessionStates =
          setAssoc ss state nonce
      ∧ (cookieBasedOIDCAuthenticationRequest cfg state nonce nextUrl now ss).sessionLoginNext =
          nextUrl.getD "/")
    ∧ (∀ req : CallbackRequest,
        (truthyOpt req.errorParam = true →
          (cookieBasedOIDCAuthenticationCallback req).success = false)
        ∧ (truthyOpt req.urlState = false →
          (cookieBasedOIDCAuthenticationCallback req).success = false)
        ∧ (truthyOpt req.code = false →
          (cookieBasedOIDCAuthenticationCallback req).success = false)
        ∧ (req.cookie = .badSignature →
          (cookieBasedOIDCAuthenticationCallback req).success = false)
        ∧ (∀ d age, req.cookie = .signed d age → age > OIDC_STATE_MAX_AGE →
          (cookieBasedOIDCAuthenticationCallback req).success = false)
        ∧ (∀ d age, req.cookie = .signed d age → age ≤ OIDC_STATE_MAX_AGE →
          d.state ≠ req.urlState.getD "" →
          (cookieBasedOIDCAuthenticationCallback req).success = false)) := by
  constructor
  · intro cfg state nonce nextUrl now ss
    exact ⟨rfl, rfl, rfl, rfl, rfl⟩
  · intro req
    refine ⟨fun herr => ?_, fun hstate => ?_, fun hcode => ?_,
            fun hbad => ?_, fun d age hc hage => ?_, fun d age hc hage hne => ?_⟩
    · simp [cookieBasedOIDCAuthenticationCallback, herr]
    · by_cases herr : truthyOpt req.errorParam = true
      · simp [cookieBasedOIDCAuthenticationCallback, herr]
      · simp at herr
        simp [cookieBasedOIDCAuthenticationCallback, herr, hstate]
    · by_cases herr : truthyOpt req.errorParam = true
      · simp [cookieBasedOIDCAuthenticationCallback, herr]
      · simp at herr
        by_cases hstate : truthyOpt req.urlState = true
        · simp [cookieBasedOIDCAuthenticationCallback, herr, hstate, hcode]
        · simp at hstate
          simp [cookieBasedOIDCAuthenticationCallback, herr, hstate]
    · by_cases herr : truthyOpt req.errorParam = true
      · simp [cookieBasedOIDCAuthenticationCallback, herr]
      · simp at herr
        by_cases hstate : truthyOpt req.urlState = true
        · by_cases hcode : truthyOpt req.code = true
          · simp [cookieBasedOIDCAuthenticationCallback, herr, hstate, hcode, hbad,
              loadSignedState]
          · simp at hcode
            simp [cookieBasedOIDCAuthenticationCallback, herr, hstate, hcode]
        · simp at hstate
          simp [cookieBasedOIDCAuthenticationCallback, herr, hstate]
    · by_cases herr : truthyOpt req.errorParam = true
      · simp [cookieBasedOIDCAuthenticationCallback, herr]
      · simp at herr
        by_cases hstate : truthyOpt req.urlState = true
        · by_cases hcode : truthyOpt req.code = true
          · simp [cookieBasedOIDCAuthenticationCallback, herr, hstate, hcode, hc,
              loadSignedState, hage]
          · simp at hcode
            simp [cookieBasedOIDCAuthenticationCallback, herr, hstate, hcode]
        · simp at hstate
          simp [cookieBasedOIDCAuthenticationCallback, herr, hstate]
    · by_cases herr : truthyOpt req.errorParam = true
      · simp [cookieBasedOIDCAuthenticationCallback, herr]
      · simp at herr
        by_cases hstate : truthyOpt req.urlState = true
        · by_cases hcode : truthyOpt req.code = true
          · simp [cookieBasedOIDCAuthenticationCallback, herr, hstate, hcode, hc,
              loadSignedState, Nat.not_lt.mpr hage, hne]
          · simp at hcode
            simp [cookieBasedOIDCAuthenticationCallback, herr, hstate, hcode]
        · simp at hstate
          simp [cookieBasedOIDCAuthenticationCallback, herr, hstate]

/-- Concrete instantiation of `oidc_views_cookie_state`: the request view
sets the cookie payload with a 600-second maximum age, and a callback
whose cookie state disagrees with the URL `state` parameter fails. -/
theorem oidc_views_cookie_state_witness :
    (cookieBasedOIDCAuthenticationRequest
        { scopes := "openid profile email", clientId := "mayan",
          callbackUri := "http://mayan/oidc/callback/", authEndpoint := "http://kc/auth" }
        "st1" "n1" (some "/docs/") 1000 []).cookieMaxAge = 600
    ∧ (cookieBasedOIDCAuthenticationCallback
        { urlState := some "other", code := some "c", errorParam := none,
          cookie := .signed { state := "st1", nonce := "n1", next := "/", created := 0 } 10,
          sessionStates := [], userIsAuthenticated := false,
          authResult := fun _ => .user true }).success = false := by
  constructor
  · exact (oidc_views_cookie_state.1
      { scopes := "openid profile email", clientId := "mayan",
        callbackUri := "http://mayan/oidc/callback/", authEndpoint := "http://kc/auth" }
      "st1" "n1" (some "/docs/") 1000 []).2.1
  · exact ((oidc_views_cookie_state.2
      { urlState := some "other", code := some "c", errorParam := none,
        cookie := .signed { state := "st1", nonce := "n1", next := "/", created := 0 } 10,
        sessionStates := [], userIsAuthenticated := false,
        authResult := fun _ => .user true }).2.2.2.2.2)
      { state := "st1", nonce := "n1", next := "/", created := 0 } 10 rfl (by decide) (by decide)

/-! ### List toolbox -/

/-- `List.contains` on strings decides membership. -/
theorem contains_true_iff (l : List String) (x : String) : l.contains x = true ↔ x ∈ l := by
  simp

/-- A map that fixes every element of a list is the identity. -/
theorem list_map_id_of {α : Type} (l : List α) (f : α → α) (h : ∀ a ∈ l, f a = a) :
    l.map f = l := by
  induction l with
  | nil => rfl
  | cons a l ih =>
    simp only [List.map_cons, h a (List.mem_cons_self a l)]
    rw [ih (fun b hb => h b (List.mem_cons_of_mem a hb))]

/-- A filter whose predicate holds on every element is the identity. -/
theorem list_filter_id_of {α : Type} (l : List α) (p : α → Bool) (h : ∀ a ∈ l, p a = true) :
    l.filter p = l := List.filter_eq_self.mpr h

/-- `addUnique` is the identity on an already-linked element. -/
theorem addUnique_of_contains (l : List String) (x : String) (h : l.contains x = true) :
    addUnique l x = l := by
  have hx : x ∈ l := (contains_true_iff l x).mp h
  simp [addUnique, hx]

/-- `addUnique` links its element. -/
theorem contains_addUnique_self (l : List String) (x : String) :
    (addUnique l x).contains x = true := by
  by_cases hx : x ∈ l <;> simp [addUnique, hx]

/-- `addUnique` keeps every linked element. -/
theorem contains_addUnique_of (l : List String) (x y : String) (h : l.contains y = true) :
    (addUnique l x).contains y = true := by
  have hy : y ∈ l := (contains_true_iff l y).mp h
  by_cases hx : x ∈ l <;> simp [addUnique, hx, hy]

/-- Folding `addUnique` keeps every linked element. -/
theorem foldl_addUnique_keeps (xs : List String) (l : List String) (y : String)
    (h : l.contains y = true) : (xs.foldl addUnique l).contains y = true := by
  induction xs generalizing l with
  | nil => simpa using h
  | cons x xs ih => exact ih (addUnique l x) (contains_addUnique_of l x y h)

/-- Folding `addUnique` links every folded element. -/
theorem foldl_addUnique_adds (xs : List String) (l : List String) (x : String)
    (h : x ∈ xs) : (xs.foldl addUnique l).contains x = true := by
  induction xs generalizing l with
  | nil => cases h
  | cons y ys ih =>
    rcases List.mem_cons.mp h with h1 | h1
    · subst h1
      exact foldl_addUnique_keeps ys (addUnique l x) x (contains_addUnique_self l x)
    · exact ih (addUnique l y) h1

/-- Folding `addUnique` over elements that are all already linked is the
identity. -/
theorem foldl_addUnique_id (xs : List String) (l : List String)
    (h : ∀ x ∈ xs, l.contains x = true) : xs.foldl addUnique l = l := by
  induction xs with
  | nil => rfl
  | cons x xs ih =>
    have hx := addUnique_of_contains l x (h x (List.mem_cons_self x xs))
    simp only [List.foldl_cons, hx]
    exact ih (fun y hy => h y (List.mem_cons_of_mem x hy))

/-! ### `groupGrants` lemmas -/

/-- The key of a pair is untouched by the `ggStep` value update. -/
theorem ggStep_upd_key (u : String) (g : Grant) (p : String × List Grant) :
    ((fun p : String × List Grant => if p.1 == u then (p.1, p.2 ++ [g]) else p) p).1 = p.1 := by
  by_cases hp : p.1 == u <;> simp [hp]

/-- One `ggStep` appends the grant to its user's list and touches no
other user's list. -/
theorem ggStep_grantsFor (acc : List (String × List Grant)) (g : Grant) (uid : String) :
    grantsFor (ggStep acc g) uid =
      grantsFor acc uid ++ (if g.user_id == uid then [g] else []) := by
  by_cases hk : acc.any (fun p => p.1 == g.user_id) = true
  · simp only [ggStep, hk, if_true]
    unfold grantsFor
    rw [List.find?_map]
    have hpred : ((fun p : String × List Grant => p.1 == uid) ∘
        (fun p : String × List Grant => if p.1 == g.user_id then (p.1, p.2 ++ [g]) else p)) =
        (fun p : String × List Grant => p.1 == uid) := by
      funext p
      simp only [Function.comp]
      rw [ggStep_upd_key]
    rw [hpred]
    cases hfind : acc.find? (fun p => p.1 == uid) with
    | none =>
      have hne : ¬ (g.user_id == uid) = true := by
        intro hgu
        have hgu' : g.user_id = uid := by simpa using hgu
        rcases List.any_eq_true.mp hk with ⟨p, hp, hpk⟩
        have : ¬ (p.1 == uid) = true := by
          intro hc
          have := List.find?_eq_none.mp hfind p hp
          exact this hc
        exact this (by simpa [hgu'] using hpk)
      simp [hne]
    | some p =>
      have hp1 : p.1 = uid := by simpa using List.find?_some hfind
      by_cases hgu : g.user_id = uid
      · have : (p.1 == g.user_id) = true := by simp [hp1, hgu]
        simp [this, hgu, hp1]
      · have hne : ¬ (p.1 = g.user_id) := by
          rw [hp1]; exact fun hc => hgu hc.symm
        simp [hne, hgu]
  · simp only [Bool.not_eq_true] at hk
    simp only [ggStep, hk, Bool.false_eq_true, if_false]
    unfold grantsFor
    rw [List.find?_append]
    by_cases hgu : g.user_id = uid
    · have hfind : acc.find? (fun p => p.1 == uid) = none := by
        rw [List.find?_eq_none]
        intro p hp hc
        have := List.any_eq_false.mp hk p hp
        exact this (by simpa [hgu] using hc)
      simp [hfind, hgu]
    · cases hfind : acc.find? (fun p => p.1 == uid) with
      | none => simp [hfind, hgu, Option.or]
      | some p => simp [hfind, hgu, Option.or]

/-- One `ggStep` adds exactly its grant's user to the key set. -/
theorem ggStep_hasKey (acc : List (String × List Grant)) (g : Grant) (uid : String) :
    (ggStep acc g).any (fun p => p.1 == uid) =
      (acc.any (fun p => p.1 == uid) || (g.user_id == uid)) := by
  by_cases hk : acc.any (fun p => p.1 == g.user_id) = true
  · simp only [ggStep, hk, if_true, List.any_map]
    have hpred : ((fun p : String × List Grant => p.1 == uid) ∘
        (fun p : String × List Grant => if p.1 == g.user_id then (p.1, p.2 ++ [g]) else p)) =
        (fun p : String × List Grant => p.1 == uid) := by
      funext p
      simp only [Function.comp]
      rw [ggStep_upd_key]
    rw [hpred]
    by_cases hgu : g.user_id = uid
    · subst hgu
      have hself : (g.user_id == g.user_id) = true := by simp
      rw [hself, Bool.or_true]
      exact hk
    · have hf : (g.user_id == uid) = false := by simp [hgu]
      rw [hf, Bool.or_false]
  · simp only [Bool.not_eq_true] at hk
    simp [ggStep, hk]

/-- `grantsFor` after grouping is exactly the filter of the grant list by
user (preserving scan order). -/
theorem groupGrants_grantsFor (gs : List Grant) (uid : String) :
    grantsFor (groupGrants gs) uid = gs.filter (fun g => g.user_id == uid) := by
  suffices h : ∀ (acc : List (String × List Grant)),
      grantsFor (gs.foldl ggStep acc) uid =
        grantsFor acc uid ++ gs.filter (fun g => g.user_id == uid) by
    simpa [groupGrants, grantsFor] using h []
  induction gs with
  | nil => intro acc; simp
  | cons g gs ih =>
    intro acc
    simp only [List.foldl_cons, ih (ggStep acc g), ggStep_grantsFor, List.filter_cons]
    by_cases hgu : g.user_id == uid
    · simp [hgu, List.append_assoc]
    · simp [hgu]

/-- The key set after grouping is the set of granted user ids. -/
theorem groupGrants_hasKey (gs : List Grant) (uid : String) :
    (groupGrants gs).any (fun p => p.1 == uid) = gs.any (fun g => g.user_id == uid) := by
  suffices h : ∀ (acc : List (String × List Grant)),
      (gs.foldl ggStep acc).any (fun p => p.1 == uid) =
        (acc.any (fun p => p.1 == uid) || gs.any (fun g => g.user_id == uid)) by
    simpa [groupGrants] using h []
  induction gs with
  | nil => intro acc; simp
  | cons g gs ih =>
    intro acc
    simp only [List.foldl_cons, ih (ggStep acc g), ggStep_hasKey, List.any_cons]
    cases acc.any (fun p => p.1 == uid) <;> cases (g.user_id == uid) <;> simp

/-- Grouping produces no duplicate user keys. -/
theorem groupGrants_keys_nodup (gs : List Grant) :
    ((groupGrants gs).map (·.1)).Nodup := by
  suffices h : ∀ (acc : List (String × List Grant)),
      (acc.map (·.1)).Nodup → ((gs.foldl ggStep acc).map (·.1)).Nodup by
    exact h [] (by simp)
  induction gs with
  | nil => intro acc hacc; simpa using hacc
  | cons g gs ih =>
    intro acc hacc
    refine ih (ggStep acc g) ?_
    by_cases hk : acc.any (fun p => p.1 == g.user_id) = true
    · have hkeys : (ggStep acc g).map (·.1) = acc.map (·.1) := by
        simp only [ggStep, hk, if_true, List.map_map]
        congr 1
        funext p
        simp only [Function.comp]
        rw [ggStep_upd_key]
      rw [hkeys]; exact hacc
    · simp only [Bool.not_eq_true] at hk
      simp only [ggStep, hk, Bool.false_eq_true, if_false, List.map_append, List.map_cons,
        List.map_nil]
      rw [List.nodup_append]
      refine ⟨hacc, by simp, ?_⟩
      intro x hx
      simp only [List.mem_map] at hx
      rcases hx with ⟨p, hp, hpx⟩
      have := List.any_eq_false.mp hk p hp
      simp only [beq_iff_eq] at this
      simp only [List.mem_cons, List.not_mem_nil, or_false]
      intro hc
      exact this (by rw [hpx, hc])

/-! ### Role-label lemmas -/

/-- The characters of `"kc:"`. -/
theorem kc_data : ("kc:" : String).data = ['k', 'c', ':'] := rfl

/-- Every managed role label carries the `kc:` marker: truncation to 128
characters keeps the three-character marker. -/
theorem labelOf_startsWith (uid : String) : strStartsWith (labelOf uid) "kc:" = true := by
  unfold labelOf strTake strStartsWith
  simp only [String.data_append, kc_data]
  rw [List.take_append_eq_append_take]
  simp only [List.isPrefixOf_iff_prefix]
  have h3 : (['k', 'c', ':'] : List Char).take 128 = ['k', 'c', ':'] := rfl
  rw [h3]
  exact List.prefix_append _ _

/-- A user id short enough for the 128-character label survives the
truncation intact. -/
theorem labelOf_short (uid : String) (h : uid.data.length ≤ 125) :
    labelOf uid = "kc:" ++ uid := by
  unfold labelOf strTake
  simp only [String.data_append, kc_data]
  rw [List.take_append_eq_append_take]
  have h3 : (['k', 'c', ':'] : List Char).take 128 = ['k', 'c', ':'] := rfl
  have h125 : (128 - List.length ['k', 'c', ':']) = 125 := rfl
  rw [h3, h125, List.take_of_length_le h]
  cases uid
  rfl

/-- Stripping the marker from an untruncated label recovers the user id. -/
theorem strDrop_label (uid : String) (h : uid.data.length ≤ 125) :
    strDrop (labelOf uid) 3 = uid := by
  rw [labelOf_short uid h]
  unfold strDrop
  simp only [String.data_append, kc_data]
  have : (3 : Nat) = List.length ['k', 'c', ':'] := rfl
  rw [this, List.drop_left]

/-- Untruncated labels are injective on user ids. -/
theorem labelOf_inj (u1 u2 : String) (h1 : u1.data.length ≤ 125) (h2 : u2.data.length ≤ 125)
    (h : labelOf u1 = labelOf u2) : u1 = u2 := by
  rw [labelOf_short u1 h1, labelOf_short u2 h2] at h
  have hd : ("kc:" ++ u1).data = ("kc:" ++ u2).data := by rw [h]
  simp only [String.data_append] at hd
  have h12 := List.append_cancel_left hd
  cases u1; cases u2
  exact congrArg String.mk (by simpa using h12)

/-! ### Record-level key lemmas -/

/-- The key of an ACL row ignores its permission set. -/
theorem aclKeyMatch_set_perms (l : String) (d : Int) (a : AclRow) (sp : List String) :
    aclKeyMatch l d { a with permissions := sp } = aclKeyMatch l d a := rfl

/-- `rowIsDocument` ignores the permission set. -/
theorem rowIsDocument_set_perms (a : AclRow) (sp : List String) :
    rowIsDocument { a with permissions := sp } = rowIsDocument a := rfl

/-- Unmanagedness of a row ignores its permission set. -/
theorem unmanagedB_set_perms (a : AclRow) (sp : List String) :
    unmanagedB { a with permissions := sp } = unmanagedB a := rfl

/-- A freshly created managed Document row always matches its own key. -/
theorem aclKeyMatch_new (l : String) (d : Int) (sp : List String) :
    aclKeyMatch l d { ctApp := "documents", ctModel := "document", objectId := d,
                      roleLabel := l, permissions := sp } = true := by
  simp [aclKeyMatch, rowIsDocument]

/-- Two different keys never match the same row. -/
theorem aclKeyMatch_disjoint (l1 l2 : String) (d1 d2 : Int) (a : AclRow)
    (hne : ¬ (l1 = l2 ∧ d1 = d2)) :
    ¬ (aclKeyMatch l1 d1 a = true ∧ aclKeyMatch l2 d2 a = true) := by
  rintro ⟨h1, h2⟩
  simp only [aclKeyMatch, Bool.and_eq_true, beq_iff_eq] at h1 h2
  exact hne ⟨h1.2.symm.trans h2.2, h1.1.2.symm.trans h2.1.2⟩

/-- A matching row of the key `(l, d)` is a Document row labelled `l`
with object id `d`. -/
theorem aclKeyMatch_elim (l : String) (d : Int) (a : AclRow) (h : aclKeyMatch l d a = true) :
    rowIsDocument a = true ∧ a.objectId = d ∧ a.roleLabel = l := by
  simp only [aclKeyMatch, Bool.and_eq_true, beq_iff_eq] at h
  exact ⟨h.1.1, h.1.2, h.2⟩

/-! ### Deletion-pass lemmas -/

/-- A filter and its complement split a list's length. -/
theorem filter_length_split {α : Type} (l : List α) (p : α → Bool) :
    (l.filter p).length + (l.filter (fun a => !(p a))).length = l.length := by
  induction l with
  | nil => rfl
  | cons a l ih =>
    by_cases hp : p a = true
    · simp [List.filter_cons, hp, ← ih, Nat.succ_add]
    · simp only [Bool.not_eq_true] at hp
      simp [List.filter_cons, hp, ← ih]
      omega

/-- The deletion pass filters the ACL table by survival against every
listed managed role, and touches nothing else. -/
theorem deleteStaleLoop_state (gbu : List (String × List Grant)) (ros : List RoleRow)
    (st : MayanState) (dl : Nat) :
    (deleteStaleLoop gbu ros st dl).1 = { st with acls := st.acls.filter (keepRowB gbu ros) } := by
  induction ros generalizing st dl with
  | nil =>
    have : st.acls.filter (keepRowB gbu []) = st.acls :=
      list_filter_id_of _ _ (fun a _ => rfl)
    simp [deleteStaleLoop, this]
  | cons ro ros ih =>
    simp only [deleteStaleLoop]
    rw [ih]
    simp only [List.filter_filter]
    congr 1
    apply List.filter_congr
    intro a _
    simp only [keepRowB, List.all_cons]
    cases h1 : staleRow (docsOf gbu (strDrop ro.label 3)) ro.label a <;>
    cases h2 : ros.all (fun ro2 => !(staleRow (docsOf gbu (strDrop ro2.label 3)) ro2.label a)) <;>
      simp only [docsOf] at h1 ⊢ <;> simp [keepRowB, docsOf, h1, h2]

/-- The deletion counter accounts exactly for the removed rows. -/
theorem deleteStaleLoop_count (gbu : List (String × List Grant)) (ros : List RoleRow)
    (st : MayanState) (dl : Nat) :
    (deleteStaleLoop gbu ros st dl).2 + (deleteStaleLoop gbu ros st dl).1.acls.length
      = dl + st.acls.length := by
  induction ros generalizing st dl with
  | nil => simp [deleteStaleLoop]
  | cons ro ros ih =>
    simp only [deleteStaleLoop]
    have hih := ih
      { st with acls := st.acls.filter (fun a =>
          !(staleRow ((grantsFor gbu (strDrop ro.label 3)).map (fun x => x.document_id))
            ro.label a)) }
      (dl + (st.acls.filter (staleRow
        ((grantsFor gbu (strDrop ro.label 3)).map (fun x => x.document_id)) ro.label)).length)
    have hs := filter_length_split st.acls
      (staleRow ((grantsFor gbu (strDrop ro.label 3)).map (fun x => x.document_id)) ro.label)
    dsimp only at hih ⊢
    omega

/-- When every row survives, the deletion pass is the identity and
deletes nothing. -/
theorem deleteStaleLoop_id (gbu : List (String × List Grant)) (ros : List RoleRow)
    (st : MayanState) (dl : Nat) (h : ∀ a ∈ st.acls, keepRowB gbu ros a = true) :
    deleteStaleLoop gbu ros st dl = (st, dl) := by
  have h1 := deleteStaleLoop_state gbu ros st dl
  have hfid : st.acls.filter (keepRowB gbu ros) = st.acls := list_filter_id_of _ _ h
  have h1' : (deleteStaleLoop gbu ros st dl).1 = st := by
    rw [h1, hfid]
  have h2 := deleteStaleLoop_count gbu ros st dl
  rw [h1'] at h2
  have h2' : (deleteStaleLoop gbu ros st dl).2 = dl := by omega
  exact Prod.ext h1' h2'

/-! ### Well-formedness helpers -/

/-- Under the database's unique key constraint, a key matches at most one
row. -/
theorem wf_filter_key_le_one (acls : List AclRow) (h : WfAcl acls) (l : String) (d : Int) :
    (acls.filter (aclKeyMatch l d)).length ≤ 1 := by
  have hnd : ((acls.filter (aclKeyMatch l d)).map aclKey).Nodup :=
    h.sublist ((List.filter_sublist acls).map aclKey)
  have hall : ∀ a ∈ acls.filter (aclKeyMatch l d),
      aclKey a = ("documents", "document", d, l) := by
    intro a ha
    have hm := List.of_mem_filter ha
    rcases aclKeyMatch_elim l d a hm with ⟨hdoc, hoid, hlab⟩
    simp only [rowIsDocument, Bool.and_eq_true, beq_iff_eq] at hdoc
    simp [aclKey, hdoc.1, hdoc.2, hoid, hlab]
  cases hfil : acls.filter (aclKeyMatch l d) with
  | nil => simp
  | cons a rest =>
    cases rest with
    | nil => simp
    | cons b rest2 =>
      exfalso
      have ha := hall a (by rw [hfil]; exact List.mem_cons_self _ _)
      have hb := hall b (by rw [hfil]; exact List.mem_cons_of_mem _ (List.mem_cons_self _ _))
      rw [hfil] at hnd
      simp only [List.map_cons, List.nodup_cons, List.mem_cons, List.mem_map] at hnd
      exact hnd.1 (Or.inl (ha.trans hb.symm))

/-- A key with a row matches exactly one row under the unique
constraint. -/
theorem wf_filter_key_cases (acls : List AclRow) (h : WfAcl acls) (l : String) (d : Int) :
    acls.filter (aclKeyMatch l d) = []
    ∨ ∃ a0, acls.filter (aclKeyMatch l d) = [a0] := by
  have := wf_filter_key_le_one acls h l d
  cases hfil : acls.filter (aclKeyMatch l d) with
  | nil => exact Or.inl rfl
  | cons a rest =>
    cases rest with
    | nil => exact Or.inr ⟨a, rfl⟩
    | cons b rest2 => rw [hfil] at this; simp at this

/-! ### `ensure_user_group_role` lemmas -/

/-- When the mapped Mayan user exists, `ensure_user_group_role` returns
the label and performs exactly the group/role/user updates of
lines 89-97. -/
theorem ensure_eq (st : MayanState) (uid : String) (n : Int)
    (h : st.users.any (fun u => u.pk == n) = true) :
    ensure_user_group_role st uid n = some
      ({ storedPermissions := st.storedPermissions,
         groupNames := addUnique st.groupNames (labelOf uid),
         roles := (if st.roles.any (fun ro => ro.label == labelOf uid) then st.roles
                   else st.roles ++ [{ label := labelOf uid, groups := [], permissions := [] }]).map
                  (fun ro => if ro.label == labelOf uid
                             then { ro with groups := addUnique ro.groups (labelOf uid) } else ro),
         users := st.users.map (fun u =>
           if u.pk == n then { u with groups := addUnique u.groups (labelOf uid) } else u),
         acls := st.acls }, labelOf uid) := by
  unfold ensure_user_group_role
  have hlab : strTake ("kc:" ++ uid) 128 = labelOf uid := rfl
  rw [hlab]
  have h' : ∃ x ∈ st.users, x.pk = n := by simpa using h
  by_cases hg : labelOf uid ∈ st.groupNames <;>
  by_cases hr : ∃ x ∈ st.roles, x.label = labelOf uid <;>
    simp [hg, hr, h', addUnique]

/-- When the mapped Mayan user does not exist, `User.objects.get` raises
and the sync aborts. -/
theorem ensure_none (st : MayanState) (uid : String) (n : Int)
    (h : st.users.any (fun u => u.pk == n) = false) :
    ensure_user_group_role st uid n = none := by
  unfold ensure_user_group_role
  have h' : ¬ ∃ x ∈ st.users, x.pk = n := by simpa using h
  by_cases hg : strTake ("kc:" ++ uid) 128 ∈ st.groupNames <;>
  by_cases hr : ∃ x ∈ st.roles, x.label = strTake ("kc:" ++ uid) 128 <;>
    simp [hg, hr, h']

/-! ### `upsertGrant` lemmas -/

/-- When the key has no row yet, `get_or_create` creates it and the
iteration appends the row (with the grant's permission set) and bumps
`created`. -/
theorem upsertGrant_created (l : String) (st : MayanState) (c u : Nat) (g : Grant)
    (hempty : st.acls.filter (aclKeyMatch l g.document_id) = []) :
    upsertGrant l st c u g = some
      ({ st with
         acls := st.acls ++ [{ ctApp := "documents", ctModel := "document",
                               objectId := g.document_id, roleLabel := l,
                               permissions := storedFor st.storedPermissions g }],
         roles := rolesAdd l (storedFor st.storedPermissions g) st.roles }, c + 1, u) := by
  have hnone : ∀ a ∈ st.acls, aclKeyMatch l g.document_id a = false := by
    intro a ha
    have := List.filter_eq_nil_iff.mp hempty a ha
    simpa using this
  unfold upsertGrant
  rw [hempty]
  have hmap : st.acls.map (fun a =>
      if aclKeyMatch l g.document_id a
      then { a with permissions :=
        get_stored_permissions st.storedPermissions (permission_keys_for_grant g) } else a)
      = st.acls := by
    apply list_map_id_of
    intro a ha
    simp [hnone a ha]
  simp only [List.length_nil, List.isEmpty_nil, gt_iff_lt, List.map_append, hmap,
    List.map_cons, List.map_nil, aclKeyMatch_new, if_true, rolesAdd, storedFor]
  norm_num
  by_cases hsp : get_stored_permissions st.storedPermissions
      (permission_keys_for_grant g) = [] <;>
    simp [hsp]

/-- When the key already has its (unique) row, `get_or_create` finds it
and the iteration overwrites that row's permission set and bumps
`updated`. -/
theorem upsertGrant_updated (l : String) (st : MayanState) (c u : Nat) (g : Grant) (a0 : AclRow)
    (hone : st.acls.filter (aclKeyMatch l g.document_id) = [a0]) :
    upsertGrant l st c u g = some
      ({ st with
         acls := st.acls.map (fun a =>
           if aclKeyMatch l g.document_id a
           then { a with permissions := storedFor st.storedPermissions g } else a),
         roles := rolesAdd l (storedFor st.storedPermissions g) st.roles }, c, u + 1) := by
  unfold upsertGrant
  rw [hone]
  simp only [List.length_cons, List.length_nil, List.isEmpty_cons, gt_iff_lt, rolesAdd,
    storedFor]
  norm_num
  by_cases hsp : get_stored_permissions st.storedPermissions
      (permission_keys_for_grant g) = [] <;>
    simp [hsp]

/-! ### `dedupFirst`, `lastGrantFor` and `filterMap` helpers -/

/-- Elements of the deduplicated list come from the original list. -/
theorem mem_dedupFirst (d : Int) : ∀ (n : Nat) (ds : List Int), ds.length ≤ n →
    d ∈ dedupFirst ds → d ∈ ds := by
  intro n
  induction n with
  | zero =>
    intro ds hlen hd
    cases ds with
    | nil => simpa [dedupFirst] using hd
    | cons e ds' => simp at hlen
  | succ n ih =>
    intro ds hlen hd
    cases ds with
    | nil => simpa [dedupFirst] using hd
    | cons e ds' =>
      simp only [dedupFirst, List.mem_cons] at hd
      rcases hd with hd | hd
      · exact hd ▸ List.mem_cons_self _ _
      · have hlen' : (ds'.filter (fun x => x != e)).length ≤ n := by
          have := List.length_filter_le (fun x => x != e) ds'
          simp at hlen
          omega
        have := ih _ hlen' hd
        exact List.mem_cons_of_mem _ (List.mem_of_mem_filter this)

/-- Every original element appears in the deduplicated list. -/
theorem mem_dedupFirst_of_mem (d : Int) : ∀ (n : Nat) (ds : List Int), ds.length ≤ n →
    d ∈ ds → d ∈ dedupFirst ds := by
  intro n
  induction n with
  | zero =>
    intro ds hlen hd
    cases ds with
    | nil => cases hd
    | cons e ds' => simp at hlen
  | succ n ih =>
    intro ds hlen hd
    cases ds with
    | nil => cases hd
    | cons e ds' =>
      simp only [List.length_cons, Nat.succ_le_succ_iff] at hlen
      by_cases he : d = e
      · subst he
        simp [dedupFirst]
      · rcases List.mem_cons.mp hd with h | h
        · exact absurd h he
        · have hmem : d ∈ ds'.filter (fun x => x != e) :=
            List.mem_filter.mpr ⟨h, by simp [he]⟩
          have hlen' : (ds'.filter (fun x => x != e)).length ≤ n :=
            Nat.le_trans (List.length_filter_le _ ds') hlen
          simp only [dedupFirst, List.mem_cons]
          exact Or.inr (ih _ hlen' hmem)

/-- Deduplication commutes with removing one value. -/
theorem dedupFirst_filter_comm (d : Int) : ∀ (n : Nat) (ds : List Int), ds.length ≤ n →
    dedupFirst (ds.filter (fun x => x != d)) = (dedupFirst ds).filter (fun x => x != d) := by
  intro n
  induction n with
  | zero =>
    intro ds hlen
    cases ds with
    | nil => simp [dedupFirst]
    | cons e ds' => simp at hlen
  | succ n ih =>
    intro ds hlen
    cases ds with
    | nil => simp [dedupFirst]
    | cons e ds' =>
      simp only [List.length_cons, Nat.succ_le_succ_iff] at hlen
      have hlf : ∀ (p : Int → Bool), (ds'.filter p).length ≤ n :=
        fun p => Nat.le_trans (List.length_filter_le p ds') hlen
      by_cases he : e = d
      · subst he
        simp only [List.filter_cons, bne_self_eq_false, Bool.false_eq_true, if_false,
          dedupFirst]
        symm
        apply list_filter_id_of
        intro x hx
        have hmem := mem_dedupFirst x _ (ds'.filter (fun y => y != e)) (hlf _) hx
        exact (List.mem_filter.mp hmem).2
      · have hbe : (e != d) = true := by simp [he]
        simp only [List.filter_cons, hbe, if_true, dedupFirst]
        congr 1
        have hcomm : (ds'.filter (fun x => x != d)).filter (fun x => x != e)
            = (ds'.filter (fun x => x != e)).filter (fun x => x != d) := by
          rw [List.filter_filter, List.filter_filter]
          apply List.filter_congr
          intro x _
          cases hx1 : (x != e) <;> cases hx2 : (x != d) <;> rfl
        rw [hcomm, ih (ds'.filter (fun x => x != e)) (hlf _)]

/-- `dedupFirst` never repeats a value. -/
theorem dedupFirst_nodup : ∀ (n : Nat) (ds : List Int), ds.length ≤ n →
    (dedupFirst ds).Nodup := by
  intro n
  induction n with
  | zero =>
    intro ds hlen
    cases ds with
    | nil => simp [dedupFirst]
    | cons e ds' => simp at hlen
  | succ n ih =>
    intro ds hlen
    cases ds with
    | nil => simp [dedupFirst]
    | cons e ds' =>
      simp only [List.length_cons, Nat.succ_le_succ_iff] at hlen
      have hlf : (ds'.filter (fun x => x != e)).length ≤ n :=
        Nat.le_trans (List.length_filter_le _ ds') hlen
      simp only [dedupFirst, List.nodup_cons]
      refine ⟨?_, ih _ hlf⟩
      intro hmem
      have := mem_dedupFirst e _ _ hlf hmem
      have := List.of_mem_filter this
      simp at this

/-- `dedupFirst` keeps at most as many elements. -/
theorem dedupFirst_length_le : ∀ (n : Nat) (ds : List Int), ds.length ≤ n →
    (dedupFirst ds).length ≤ ds.length := by
  intro n
  induction n with
  | zero =>
    intro ds hlen
    cases ds with
    | nil => simp [dedupFirst]
    | cons e ds' => simp at hlen
  | succ n ih =>
    intro ds hlen
    cases ds with
    | nil => simp [dedupFirst]
    | cons e ds' =>
      simp only [List.length_cons, Nat.succ_le_succ_iff] at hlen
      have hlf : (ds'.filter (fun x => x != e)).length ≤ n :=
        Nat.le_trans (List.length_filter_le _ ds') hlen
      simp only [dedupFirst, List.length_cons, Nat.succ_le_succ_iff]
      exact Nat.le_trans (ih _ hlf) (Nat.le_trans (List.length_filter_le _ ds') (Nat.le_refl _))

/-- A `filterMap` over a filtered list inlines the filter. -/
theorem filterMap_filter {α β : Type} (l : List α) (p : α → Bool) (f : α → Option β) :
    (l.filter p).filterMap f = l.filterMap (fun x => if p x then f x else none) := by
  induction l with
  | nil => rfl
  | cons a l ih =>
    by_cases hp : p a = true
    · simp only [List.filter_cons, hp, if_true, List.filterMap_cons, ih]
    · simp only [Bool.not_eq_true] at hp
      simp [List.filter_cons, hp, List.filterMap_cons, ih]

/-- `filterMap`s agree when the functions agree on the list. -/
theorem filterMap_congr_mem {α β : Type} (l : List α) (f g : α → Option β)
    (h : ∀ a ∈ l, f a = g a) : l.filterMap f = l.filterMap g := by
  induction l with
  | nil => rfl
  | cons a l ih =>
    simp only [List.filterMap_cons, h a (List.mem_cons_self a l)]
    rw [ih (fun b hb => h b (List.mem_cons_of_mem a hb))]

/-- The winning grant for a document among `g :: rest`. -/
theorem lastGrantFor_cons (g : Grant) (rest : List Grant) (d : Int) :
    lastGrantFor (g :: rest) d =
      if g.document_id == d then
        (if rest.any (fun x => x.document_id == d) then lastGrantFor rest d else g)
      else lastGrantFor rest d := by
  unfold lastGrantFor
  by_cases hg : g.document_id = d
  · have hbg : (g.document_id == d) = true := by simp [hg]
    simp only [List.filter_cons, hbg, if_true]
    by_cases hany : rest.any (fun x => x.document_id == d) = true
    · have hne : rest.filter (fun x => x.document_id == d) ≠ [] := by
        intro hc
        rcases List.any_eq_true.mp hany with ⟨x, hx, hxd⟩
        exact (List.filter_eq_nil_iff.mp hc x hx) hxd
      cases hfil : rest.filter (fun x => x.document_id == d) with
      | nil => exact absurd hfil hne
      | cons b bs =>
        rw [List.getLast?_cons_cons]
        simp [hany]
    · have hnil : rest.filter (fun x => x.document_id == d) = [] := by
        rw [List.filter_eq_nil_iff]
        intro x hx hxd
        exact hany (List.any_eq_true.mpr ⟨x, hx, hxd⟩)
      simp only [Bool.not_eq_true] at hany
      simp [hnil, hany]
  · have hbg : (g.document_id == d) = false := by simp [hg]
    simp [List.filter_cons, hbg]

/-! ### Key-preservation helpers for the upsert loop -/

/-- `aclUpd` never changes a row's key fields. -/
theorem aclKeyMatch_aclUpd (T : List String) (l l2 : String) (gs : List Grant) (d2 : Int)
    (a : AclRow) : aclKeyMatch l2 d2 (aclUpd T l gs a) = aclKeyMatch l2 d2 a := by
  unfold aclUpd
  split <;> rfl

/-- A permission overwrite of the matching rows never changes key
fields. -/
theorem aclKeyMatch_permSet (l l2 : String) (d d2 : Int) (sp : List String) (a : AclRow) :
    aclKeyMatch l2 d2 (if aclKeyMatch l d a then { a with permissions := sp } else a)
      = aclKeyMatch l2 d2 a := by
  split <;> rfl

/-- Filtering by a key commutes with a key-preserving map. -/
theorem filter_key_map (A : List AclRow) (f : AclRow → AclRow) (p : AclRow → Bool)
    (hf : ∀ a, p (f a) = p a) : (A.map f).filter p = (A.filter p).map f := by
  rw [List.filter_map]
  congr 1
  apply List.filter_congr
  intro a _
  simp [Function.comp, hf]

/-- The winning permissions of the tail when the head grant targets a
different document. -/
theorem lastGrantFor_cons_ne (g : Grant) (rest : List Grant) (d : Int)
    (h : ¬ g.document_id = d) : lastGrantFor (g :: rest) d = lastGrantFor rest d := by
  rw [lastGrantFor_cons]
  simp [h]

/-- Skipping the head grant in `aclUpd` when the row does not match its
key. -/
theorem aclUpd_cons_not_matching (T : List String) (l : String) (g : Grant)
    (rest : List Grant) (a : AclRow) (h : aclKeyMatch l g.document_id a = false) :
    aclUpd T l (g :: rest) a = aclUpd T l rest a := by
  unfold aclUpd
  by_cases hoid : g.document_id = a.objectId
  · have hcond : (a.roleLabel == l && rowIsDocument a) = false := by
      by_contra hc
      simp only [Bool.not_eq_false, Bool.and_eq_true, beq_iff_eq] at hc
      have : aclKeyMatch l g.document_id a = true := by
        simp [aclKeyMatch, hc.1, hc.2, hoid]
      rw [this] at h
      exact Bool.true_eq_false.mp h
    simp only [Bool.and_eq_false_iff] at hcond
    rcases hcond with hc | hc <;> simp [hc]
  · have hbe : (g.document_id == a.objectId) = false := by simp [hoid]
    simp only [List.any_cons, hbe, Bool.false_or]
    by_cases hcond : (a.roleLabel == l && rowIsDocument a
        && rest.any (fun x => x.document_id == a.objectId)) = true
    · rw [hcond]
      rw [lastGrantFor_cons_ne g rest a.objectId hoid]
    · simp only [Bool.not_eq_true] at hcond
      rw [hcond]
      simp

/-- Composing the head grant's overwrite with the tail's `aclUpd` on a
row matching the head's key. -/
theorem aclUpd_cons_matching (T : List String) (l : String) (g : Grant)
    (rest : List Grant) (a : AclRow) (h : aclKeyMatch l g.document_id a = true) :
    aclUpd T l rest { a with permissions := storedFor T g } =
      { a with permissions := storedFor T (lastGrantFor (g :: rest) a.objectId) } := by
  rcases aclKeyMatch_elim l g.document_id a h with ⟨hdoc, hoid, hlab⟩
  simp only [rowIsDocument, Bool.and_eq_true, beq_iff_eq] at hdoc
  have hbg : (g.document_id == a.objectId) = true := by simp [hoid]
  by_cases hany : rest.any (fun x => x.document_id == a.objectId) = true
  · simp [aclUpd, rowIsDocument, hlab, hdoc.1, hdoc.2, hany, lastGrantFor_cons, hbg]
  · simp only [Bool.not_eq_true] at hany
    simp [aclUpd, rowIsDocument, hlab, hdoc.1, hdoc.2, hany, lastGrantFor_cons, hbg]

/-! ### `newRowsFor` structure lemmas -/

/-- Matching a key against the appended fresh row only depends on the
document id. -/
theorem aclKeyMatch_new_row (l : String) (d d' : Int) (sp : List String) :
    aclKeyMatch l d' { ctApp := "documents", ctModel := "document", objectId := d,
                       roleLabel := l, permissions := sp } = (d == d') := by
  simp only [aclKeyMatch, rowIsDocument]
  by_cases h : d = d' <;> simp [h]

/-- A row carrying the key `(l, d)` matches it. -/
theorem aclKey_eq_imp_match (l : String) (d : Int) (a : AclRow)
    (h : aclKey a = ("documents", "document", d, l)) : aclKeyMatch l d a = true := by
  simp only [aclKey, Prod.mk.injEq] at h
  simp [aclKeyMatch, rowIsDocument, h.1, h.2.1, h.2.2.1, h.2.2.2]

/-- Appending a fresh keyed row preserves the unique-key constraint. -/
theorem wf_append_new (A : List AclRow) (l : String) (d : Int) (sp : List String)
    (hwf : WfAcl A) (hempty : A.filter (aclKeyMatch l d) = []) :
    WfAcl (A ++ [{ ctApp := "documents", ctModel := "document", objectId := d,
                   roleLabel := l, permissions := sp }]) := by
  unfold WfAcl at hwf ⊢
  rw [List.map_append, List.nodup_append]
  refine ⟨hwf, by simp, ?_⟩
  intro k hk
  simp only [List.mem_map] at hk
  rcases hk with ⟨a, ha, hka⟩
  simp only [List.map_cons, List.map_nil, List.mem_cons, List.not_mem_nil, or_false]
  intro hc
  have hmatch : aclKeyMatch l d a = true := by
    apply aclKey_eq_imp_match
    rw [hka, hc]
    rfl
  have := List.filter_eq_nil_iff.mp hempty a ha
  exact this hmatch

/-- A key-preserving map preserves the unique-key constraint. -/
theorem wf_map_key (A : List AclRow) (f : AclRow → AclRow)
    (hf : ∀ a, aclKey (f a) = aclKey a) (hwf : WfAcl A) : WfAcl (A.map f) := by
  unfold WfAcl at hwf ⊢
  rw [List.map_map]
  have : (aclKey ∘ f) = aclKey := by funext a; exact hf a
  rw [this]
  exact hwf

/-- The permission overwrite of one iteration preserves every key. -/
theorem aclKey_permSet (l : String) (d : Int) (sp : List String) (a : AclRow) :
    aclKey (if aclKeyMatch l d a then { a with permissions := sp } else a) = aclKey a := by
  split <;> rfl

/-- Unfolding `newRowsFor` at a cons: the head document contributes its
row when fresh, and the tail is judged outside the head's document. -/
theorem newRowsFor_cons (T : List String) (A : List AclRow) (l : String) (g : Grant)
    (rest : List Grant) :
    newRowsFor T A l (g :: rest) =
      (if (A.filter (aclKeyMatch l g.document_id)).isEmpty then
         [{ ctApp := "documents", ctModel := "document", objectId := g.document_id,
            roleLabel := l,
            permissions := storedFor T (lastGrantFor (g :: rest) g.document_id) }]
       else []) ++
      ((dedupFirst (rest.map (fun x => x.document_id))).filter
          (fun x => x != g.document_id)).filterMap
        (fun d' => if (A.filter (aclKeyMatch l d')).isEmpty then
            some { ctApp := "documents", ctModel := "document", objectId := d', roleLabel := l,
                   permissions := storedFor T (lastGrantFor (g :: rest) d') }
          else none) := by
  unfold newRowsFor
  simp only [List.map_cons, dedupFirst, List.filterMap_cons]
  rw [dedupFirst_filter_comm g.document_id (rest.map (fun x => x.document_id)).length _
    (Nat.le_refl _)]
  by_cases hem : (A.filter (aclKeyMatch l g.document_id)).isEmpty = true <;> simp [hem]

/-- The appended rows of the tail, judged against a state whose only
difference on the role's keys is that the head's document now has a
row. -/
theorem newRowsFor_tail (T : List String) (A A' : List AclRow) (l : String) (g : Grant)
    (rest : List Grant)
    (hA : ∀ d', (A'.filter (aclKeyMatch l d')).isEmpty
        = if d' = g.document_id then false else (A.filter (aclKeyMatch l d')).isEmpty) :
    newRowsFor T A' l rest =
      ((dedupFirst (rest.map (fun x => x.document_id))).filter
          (fun x => x != g.document_id)).filterMap
        (fun d' => if (A.filter (aclKeyMatch l d')).isEmpty then
            some { ctApp := "documents", ctModel := "document", objectId := d', roleLabel := l,
                   permissions := storedFor T (lastGrantFor (g :: rest) d') }
          else none) := by
  unfold newRowsFor
  rw [filterMap_filter]
  apply filterMap_congr_mem
  intro d' _
  by_cases hd : d' = g.document_id
  · rw [hA d']
    simp [hd]
  · rw [hA d']
    have hbd : (d' != g.document_id) = true := by simp [hd]
    simp only [hd, if_false, hbd, if_true]
    rw [lastGrantFor_cons_ne g rest d' (fun hc => hd hc.symm)]

/-- `aclUpd` on a row matching the head grant's key. -/
theorem aclUpd_cons_self (T : List String) (l : String) (g : Grant) (rest : List Grant)
    (a : AclRow) (h : aclKeyMatch l g.document_id a = true) :
    aclUpd T l (g :: rest) a =
      { a with permissions := storedFor T (lastGrantFor (g :: rest) a.objectId) } := by
  rcases aclKeyMatch_elim l g.document_id a h with ⟨hdoc, hoid, hlab⟩
  have hbg : (g.document_id == a.objectId) = true := by simp [hoid]
  simp [aclUpd, hlab, hdoc, hbg]

/-- `aclUpd` applied to the freshly created row of the head grant. -/
theorem aclUpd_fresh_row (T : List String) (l : String) (g : Grant) (rest : List Grant) :
    aclUpd T l rest
      { ctApp := "documents", ctModel := "document", objectId := g.document_id,
        roleLabel := l, permissions := storedFor T g }
    = { ctApp := "documents", ctModel := "document", objectId := g.document_id,
        roleLabel := l,
        permissions := storedFor T (lastGrantFor (g :: rest) g.document_id) } := by
  have h := aclUpd_cons_matching T l g rest
    { ctApp := "documents", ctModel := "document", objectId := g.document_id,
      roleLabel := l, permissions := storedFor T g }
    (aclKeyMatch_new l g.document_id _)
  simpa using h

/-- At most one appended row per grant. -/
theorem newRowsFor_length_le (T : List String) (A : List AclRow) (l : String)
    (gs : List Grant) : (newRowsFor T A l gs).length ≤ gs.length := by
  unfold newRowsFor
  refine Nat.le_trans (List.length_filterMap_le _ _) ?_
  refine Nat.le_trans (dedupFirst_length_le (gs.map (fun x => x.document_id)).length _
    (Nat.le_refl _)) ?_
  simp

/-- The closed form of one user's grant loop: every grant is upserted in
order, the ACL table becomes the key-wise overwrite of the old rows plus
the appended fresh rows, the role's global permissions accumulate every
grant's stored permissions, `created` counts the appended rows and
`updated` counts the remaining grants.  Nothing else changes. -/
theorem upsertGrantsLoop_spec :
    ∀ (gs : List Grant) (l : String) (st : MayanState) (c u : Nat), WfAcl st.acls →
    upsertGrantsLoop l gs st c u = some
      ({ st with
         acls := st.acls.map (aclUpd st.storedPermissions l gs)
                 ++ newRowsFor st.storedPermissions st.acls l gs,
         roles := rolesAfterGrants st.storedPermissions l gs st.roles },
       c + (newRowsFor st.storedPermissions st.acls l gs).length,
       u + (gs.length - (newRowsFor st.storedPermissions st.acls l gs).length)) := by
  intro gs
  induction gs with
  | nil =>
    intro l st c u hwf
    have hupd : st.acls.map (aclUpd st.storedPermissions l []) = st.acls := by
      apply list_map_id_of
      intro a _
      simp [aclUpd]
    have hnr : newRowsFor st.storedPermissions st.acls l [] = [] := by
      simp [newRowsFor, dedupFirst]
    simp [upsertGrantsLoop, hupd, hnr, rolesAfterGrants]
  | cons g rest ih =>
    intro l st c u hwf
    rcases wf_filter_key_cases st.acls hwf l g.document_id with hempty | ⟨a0, hone⟩
    · -- the key has no row: get_or_create creates it
      have hstep := upsertGrant_created l st c u g hempty
      have hwf1 : WfAcl (st.acls ++
          [{ ctApp := "documents", ctModel := "document", objectId := g.document_id,
             roleLabel := l, permissions := storedFor st.storedPermissions g }]) :=
        wf_append_new st.acls l g.document_id _ hwf hempty
      have hih := ih l
        { st with
          acls := st.acls ++
            [{ ctApp := "documents", ctModel := "document", objectId := g.document_id,
               roleLabel := l, permissions := storedFor st.storedPermissions g }],
          roles := rolesAdd l (storedFor st.storedPermissions g) st.roles }
        (c + 1) u hwf1
      have hA : ∀ d', ((st.acls ++
          ([{ ctApp := "documents", ctModel := "document", objectId := g.document_id,
              roleLabel := l, permissions := storedFor st.storedPermissions g }] :
            List AclRow)).filter
            (aclKeyMatch l d')).isEmpty
          = if d' = g.document_id then false
            else (st.acls.filter (aclKeyMatch l d')).isEmpty := by
        intro d'
        rw [List.filter_append]
        by_cases hd : d' = g.document_id
        · subst hd
          rw [hempty]
          simp [aclKeyMatch_new_row]
        · have : (g.document_id == d') = false := by
            simp only [beq_eq_false_iff_ne, ne_eq]
            exact fun hc => hd hc.symm
          simp [List.filter_cons, aclKeyMatch_new_row, this, hd]
      have htail := newRowsFor_tail st.storedPermissions st.acls _ l g rest hA
      have hmapA : (st.acls.map (aclUpd st.storedPermissions l rest))
          = st.acls.map (aclUpd st.storedPermissions l (g :: rest)) := by
        apply List.map_congr_left
        intro a ha
        have hna : aclKeyMatch l g.document_id a = false := by
          have := List.filter_eq_nil_iff.mp hempty a ha
          simpa using this
        exact (aclUpd_cons_not_matching st.storedPermissions l g rest a hna).symm
      have hcons := newRowsFor_cons st.storedPermissions st.acls l g rest
      have hemB : (st.acls.filter (aclKeyMatch l g.document_id)).isEmpty = true := by
        rw [hempty]; rfl
      simp only [hemB, eq_self_iff_true, if_true] at hcons
      simp only [upsertGrantsLoop]
      rw [hstep]
      simp only []
      rw [hih]
      congr 1
      refine Prod.ext ?_ (Prod.ext ?_ ?_)
      · simp only [MayanState.mk.injEq, eq_self_iff_true, true_and]
        refine ⟨rfl, ?_⟩
        rw [List.map_append, List.map_cons, List.map_nil, hmapA, aclUpd_fresh_row, htail,
          hcons, List.append_assoc]
      · rw [htail, hcons]
        simp only [List.length_append, List.length_cons, List.length_nil]
        omega
      · rw [htail, hcons]
        simp only [List.length_append, List.length_cons, List.length_nil]
        omega
    · -- the key already has its unique row: it is updated in place
      have hstep := upsertGrant_updated l st c u g a0 hone
      have hwf1 : WfAcl (st.acls.map (fun a =>
          if aclKeyMatch l g.document_id a
          then { a with permissions := storedFor st.storedPermissions g } else a)) :=
        wf_map_key st.acls _ (fun a => aclKey_permSet l g.document_id _ a) hwf
      have hih := ih l
        { st with
          acls := st.acls.map (fun a =>
            if aclKeyMatch l g.document_id a
            then { a with permissions := storedFor st.storedPermissions g } else a),
          roles := rolesAdd l (storedFor st.storedPermissions g) st.roles }
        c (u + 1) hwf1
      have hA : ∀ d', ((st.acls.map (fun a =>
          if aclKeyMatch l g.document_id a
          then { a with permissions := storedFor st.storedPermissions g } else a)).filter
            (aclKeyMatch l d')).isEmpty
          = if d' = g.document_id then false
            else (st.acls.filter (aclKeyMatch l d')).isEmpty := by
        intro d'
        rw [filter_key_map _ _ _ (fun a => aclKeyMatch_permSet l l g.document_id d' _ a)]
        by_cases hd : d' = g.document_id
        · subst hd
          rw [hone]
          simp
        · simp only [hd, if_false]
          cases st.acls.filter (aclKeyMatch l d') <;> simp
      have htail := newRowsFor_tail st.storedPermissions st.acls _ l g rest hA
      have hmapA : ((st.acls.map (fun a =>
          if aclKeyMatch l g.document_id a
          then { a with permissions := storedFor st.storedPermissions g } else a)).map
            (aclUpd st.storedPermissions l rest))
          = st.acls.map (aclUpd st.storedPermissions l (g :: rest)) := by
        rw [List.map_map]
        apply List.map_congr_left
        intro a _
        simp only [Function.comp]
        by_cases hm : aclKeyMatch l g.document_id a = true
        · rw [hm]
          simp only [if_true]
          rw [aclUpd_cons_matching st.storedPermissions l g rest a hm,
            aclUpd_cons_self st.storedPermissions l g rest a hm]
        · simp only [Bool.not_eq_true] at hm
          rw [hm]
          simp only [Bool.false_eq_true, if_false]
          exact (aclUpd_cons_not_matching st.storedPermissions l g rest a hm).symm
      have hcons := newRowsFor_cons st.storedPermissions st.acls l g rest
      have hemB : (st.acls.filter (aclKeyMatch l g.document_id)).isEmpty = false := by
        rw [hone]; rfl
      simp only [hemB, Bool.false_eq_true, if_false, List.nil_append] at hcons
      have hlen := newRowsFor_length_le st.storedPermissions
        (st.acls.map (fun a =>
          if aclKeyMatch l g.document_id a
          then { a with permissions := storedFor st.storedPermissions g } else a)) l rest
      simp only [upsertGrantsLoop]
      rw [hstep]
      simp only []
      rw [hih]
      congr 1
      refine Prod.ext ?_ (Prod.ext ?_ ?_)
      · simp only [MayanState.mk.injEq, eq_self_iff_true, true_and]
        refine ⟨rfl, ?_⟩
        rw [hmapA, htail, hcons]
      · rw [htail, hcons]
      · rw [htail, hcons]
        rw [htail] at hlen
        simp only [List.length_cons]
        omega

/-- A conditioned `filterMap` is a filter followed by a map. -/
theorem filterMap_ite_eq {α β : Type} (D : List α) (P : α → Bool) (f : α → β) :
    D.filterMap (fun d => if P d then some (f d) else none) = (D.filter P).map f := by
  induction D with
  | nil => rfl
  | cons d D ih =>
    by_cases hP : P d = true
    · simp [List.filterMap_cons, List.filter_cons, hP, ih]
    · simp only [Bool.not_eq_true] at hP
      simp [List.filterMap_cons, List.filter_cons, hP, ih]

/-- `aclUpd` preserves the whole key. -/
theorem aclKey_aclUpd (T : List String) (l : String) (gs : List Grant) (a : AclRow) :
    aclKey (aclUpd T l gs a) = aclKey a := by
  unfold aclUpd
  split <;> rfl

/-- One user's upsert keeps the ACL table's unique-key constraint. -/
theorem wf_upsert_step (T : List String) (A : List AclRow) (l : String) (gs : List Grant)
    (hwf : WfAcl A) : WfAcl (A.map (aclUpd T l gs) ++ newRowsFor T A l gs) := by
  unfold WfAcl
  rw [List.map_append, List.nodup_append]
  refine ⟨wf_map_key A _ (aclKey_aclUpd T l gs) hwf, ?_, ?_⟩
  · -- the appended rows have pairwise distinct keys
    unfold newRowsFor
    rw [filterMap_ite_eq, List.map_map]
    have hnd : ((dedupFirst (gs.map (fun x => x.document_id))).filter
        (fun d => (A.filter (aclKeyMatch l d)).isEmpty)).Nodup :=
      (dedupFirst_nodup (gs.map (fun x => x.document_id)).length _ (Nat.le_refl _)).filter _
    refine hnd.map ?_
    intro d1 d2 hk
    simpa [aclKey] using hk
  · -- the appended keys are fresh
    intro k hk
    simp only [List.mem_map] at hk
    rcases hk with ⟨a, ha, hka⟩
    rcases ha with ⟨a0, ha0, haa⟩
    intro hc
    simp only [newRowsFor] at hc
    rw [filterMap_ite_eq, List.map_map] at hc
    simp only [List.mem_map, List.mem_filter] at hc
    rcases hc with ⟨d, ⟨hdmem, hdem⟩, hkd⟩
    have hkey : aclKey a = ("documents", "document", d, l) := by
      rw [hka, ← hkd]
      rfl
    have hmatch : aclKeyMatch l d a0 = true := by
      apply aclKey_eq_imp_match
      rw [← haa] at hkey
      rw [aclKey_aclUpd] at hkey
      exact hkey
    have : a0 ∈ A.filter (aclKeyMatch l d) := List.mem_filter.mpr ⟨ha0, hmatch⟩
    rw [List.isEmpty_iff.mp hdem] at this
    cases this

/-- Skipping a user without a usable `mayan:user` mapping. -/
theorem usersLoop_cons_unmapped (r : RedisState) (uid : String) (gs : List Grant)
    (rest : List (String × List Grant)) (st : MayanState) (c u sk : Nat)
    (h : mappedId r uid = none) :
    upsertUsersLoop r ((uid, gs) :: rest) st c u sk =
      upsertUsersLoop r rest st c u (sk + gs.length) := by
  unfold mappedId at h
  simp only [upsertUsersLoop]
  cases hget : redisGet r ("mayan:user:" ++ uid) with
  | none => rfl
  | some raw =>
    rw [hget] at h
    dsimp only at h
    by_cases hraw : (raw == "") = true
    · simp [hraw]
    · simp only [Bool.not_eq_true] at hraw
      rw [hraw] at h
      simp only [Bool.false_eq_true, if_false] at h
      simp [hraw, h]

/-- Processing a mapped user whose Mayan account exists: the ensure and
grant loops perform the `userStep` state change and bump the counters by
the user's created/updated split. -/
theorem usersLoop_cons_mapped (r : RedisState) (uid : String) (n : Int) (gs : List Grant)
    (rest : List (String × List Grant)) (st : MayanState) (c u sk : Nat)
    (hm : mappedId r uid = some n)
    (husr : st.users.any (fun u2 => u2.pk == n) = true)
    (hwf : WfAcl st.acls) :
    upsertUsersLoop r ((uid, gs) :: rest) st c u sk =
      upsertUsersLoop r rest (userStep r uid gs st)
        (c + (newRowsFor st.storedPermissions st.acls (labelOf uid) gs).length)
        (u + (gs.length - (newRowsFor st.storedPermissions st.acls (labelOf uid) gs).length))
        sk := by
  have hstep : userStep r uid gs st =
      { storedPermissions := st.storedPermissions
        groupNames := addUnique st.groupNames (labelOf uid)
        roles := rolesAfterGrants st.storedPermissions (labelOf uid) gs
                   (ensureRolesFor (labelOf uid) st.roles)
        users := usersAddGroup n (labelOf uid) st.users
        acls := st.acls.map (aclUpd st.storedPermissions (labelOf uid) gs)
                ++ newRowsFor st.storedPermissions st.acls (labelOf uid) gs } := by
    unfold userStep
    rw [hm]
  unfold mappedId at hm
  simp only [upsertUsersLoop]
  cases hget : redisGet r ("mayan:user:" ++ uid) with
  | none => rw [hget] at hm; cases hm
  | some raw =>
    rw [hget] at hm
    dsimp only at hm
    by_cases hraw : (raw == "") = true
    · rw [hraw] at hm; simp at hm
    · simp only [Bool.not_eq_true] at hraw
      rw [hraw] at hm
      simp only [Bool.false_eq_true, if_false] at hm
      dsimp only
      rw [hraw]
      simp only [Bool.false_eq_true, if_false]
      rw [hm]
      dsimp only
      rw [ensure_eq st uid n husr]
      dsimp only
      have hloop := upsertGrantsLoop_spec gs (labelOf uid)
        { storedPermissions := st.storedPermissions,
          groupNames := addUnique st.groupNames (labelOf uid),
          roles := ensureRolesFor (labelOf uid) st.roles,
          users := usersAddGroup n (labelOf uid) st.users,
          acls := st.acls } c u hwf
      dsimp only at hloop
      simp only [ensureRolesFor, usersAddGroup] at hloop ⊢
      rw [hloop, hstep]
      dsimp only
      simp only [ensureRolesFor, usersAddGroup]

/-- A user step never changes the `StoredPermission` table. -/
theorem userStep_storedPerms (r : RedisState) (uid : String) (gs : List Grant)
    (st : MayanState) : (userStep r uid gs st).storedPermissions = st.storedPermissions := by
  unfold userStep
  cases mappedId r uid <;> rfl

/-- A user step preserves the set of user primary keys. -/
theorem userStep_users_any (r : RedisState) (uid : String) (gs : List Grant)
    (st : MayanState) (m : Int) :
    ((userStep r uid gs st).users.any (fun u2 => u2.pk == m))
      = st.users.any (fun u2 => u2.pk == m) := by
  unfold userStep
  cases mappedId r uid with
  | none => rfl
  | some n =>
    simp only [usersAddGroup, List.any_map]
    congr 1
    funext u2
    simp only [Function.comp]
    by_cases hu : (u2.pk == n) = true <;> simp [hu]

/-- A user step preserves the ACL unique-key constraint. -/
theorem userStep_wf (r : RedisState) (uid : String) (gs : List Grant) (st : MayanState)
    (hwf : WfAcl st.acls) : WfAcl (userStep r uid gs st).acls := by
  unfold userStep
  cases mappedId r uid with
  | none => exact hwf
  | some n => exact wf_upsert_step st.storedPermissions st.acls (labelOf uid) gs hwf

/-- Completed runs of the upsert pass: the final state is the fold of the
per-user steps, `skipped` collects exactly the grants of unmapped users,
and the counters collect the per-user created/updated splits. -/
theorem upsertUsersLoop_fold (r : RedisState) :
    ∀ (us : List (String × List Grant)) (st : MayanState) (c u sk : Nat),
    WfAcl st.acls → PkOk r st us →
    upsertUsersLoop r us st c u sk =
      some (us.foldl (fun s p => userStep r p.1 p.2 s) st,
        c + createdLoop r us st, u + updatedLoop r us st, sk + skippedOf r us) := by
  intro us
  induction us with
  | nil =>
    intro st c u sk hwf hpk
    simp [upsertUsersLoop, createdLoop, updatedLoop, skippedOf]
  | cons p rest ih =>
    intro st c u sk hwf hpk
    obtain ⟨uid, gs⟩ := p
    cases hm : mappedId r uid with
    | none =>
      rw [usersLoop_cons_unmapped r uid gs rest st c u sk hm]
      rw [ih st c u (sk + gs.length) hwf
        (fun q hq n hn => hpk q (List.mem_cons_of_mem _ hq) n hn)]
      have hstep0 : userStep r uid gs st = st := by
        unfold userStep
        rw [hm]
      have hskip : skippedOf r ((uid, gs) :: rest) = gs.length + skippedOf r rest := by
        simp [skippedOf, List.filter_cons, hm]
      simp only [List.foldl_cons, hstep0, createdLoop, updatedLoop, hm, hskip]
      rw [Nat.add_assoc]
    | some n =>
      have husr : st.users.any (fun u2 => u2.pk == n) = true :=
        hpk (uid, gs) (List.mem_cons_self _ _) n hm
      rw [usersLoop_cons_mapped r uid n gs rest st c u sk hm husr hwf]
      have hwf1 : WfAcl (userStep r uid gs st).acls := userStep_wf r uid gs st hwf
      have hpk1 : PkOk r (userStep r uid gs st) rest := by
        intro q hq m hmm
        rw [userStep_users_any]
        exact hpk q (List.mem_cons_of_mem _ hq) m hmm
      rw [ih (userStep r uid gs st) _ _ sk hwf1 hpk1]
      have hskip : skippedOf r ((uid, gs) :: rest) = skippedOf r rest := by
        simp [skippedOf, List.filter_cons, hm]
      simp only [List.foldl_cons, createdLoop, updatedLoop, hm, hskip]
      rw [Nat.add_assoc, Nat.add_assoc]

/-! ### Key-filter view of one user's upsert -/

/-- Filtering a deduplicated integer list for one value. -/
theorem filter_beq_of_nodup (D : List Int) (d : Int) (hnd : D.Nodup) :
    D.filter (fun x => x == d) = if d ∈ D then [d] else [] := by
  induction D with
  | nil => simp
  | cons e D ih =>
    rcases List.nodup_cons.mp hnd with ⟨hne, hnd'⟩
    by_cases he : e = d
    · subst he
      simp only [List.filter_cons, beq_self_eq_true, if_true, List.mem_cons, true_or]
      have : D.filter (fun x => x == e) = [] := by
        rw [List.filter_eq_nil_iff]
        intro x hx hbe
        exact hne (by simpa using (beq_iff_eq.mp hbe) ▸ hx)
      simp [this]
    · have hbe : (e == d) = false := by simp [he]
      simp only [List.filter_cons, hbe, Bool.false_eq_true, if_false, ih hnd',
        List.mem_cons]
      have hde : ¬ d = e := fun h => he h.symm
      by_cases hd : d ∈ D <;> simp [hd, hde]

/-- The rows of one user's own key after the user's upsert: the granted
documents carry exactly the last grant's stored permissions, ungranted
documents keep their old rows. -/
theorem step_filter_key (T : List String) (A : List AclRow) (l : String) (gs : List Grant)
    (d : Int) (hwf : WfAcl A) :
    ((A.map (aclUpd T l gs) ++ newRowsFor T A l gs).filter (aclKeyMatch l d)) =
      if gs.any (fun g => g.document_id == d) then
        [{ ctApp := "documents", ctModel := "document", objectId := d, roleLabel := l,
           permissions := storedFor T (lastGrantFor gs d) }]
      else A.filter (aclKeyMatch l d) := by
  rw [List.filter_append]
  rw [filter_key_map A _ _ (fun a => aclKeyMatch_aclUpd T l l gs d a)]
  have hnewfil : (newRowsFor T A l gs).filter (aclKeyMatch l d) =
      if d ∈ dedupFirst (gs.map (fun x => x.document_id))
          ∧ (A.filter (aclKeyMatch l d)).isEmpty = true then
        [{ ctApp := "documents", ctModel := "document", objectId := d, roleLabel := l,
           permissions := storedFor T (lastGrantFor gs d) }]
      else [] := by
    unfold newRowsFor
    rw [filterMap_ite_eq]
    rw [List.filter_map]
    have hpred : ((aclKeyMatch l d) ∘ (fun d' =>
        ({ ctApp := "documents", ctModel := "document", objectId := d', roleLabel := l,
           permissions := storedFor T (lastGrantFor gs d') } : AclRow)))
        = fun d' => (d' == d) := by
      funext d'
      simp only [Function.comp]
      exact aclKeyMatch_new_row l d' d _
    rw [hpred]
    rw [List.filter_filter]
    have hsplit : (dedupFirst (gs.map (fun x => x.document_id))).filter
        (fun d' => (d' == d) && (A.filter (aclKeyMatch l d')).isEmpty) =
        if (A.filter (aclKeyMatch l d)).isEmpty = true then
          (dedupFirst (gs.map (fun x => x.document_id))).filter (fun d' => d' == d)
        else [] := by
      by_cases hem : (A.filter (aclKeyMatch l d)).isEmpty = true
      · rw [if_pos hem]
        apply List.filter_congr
        intro d' _
        by_cases hdd : d' = d
        · subst hdd
          simp [hem]
        · simp [hdd]
      · rw [if_neg hem]
        rw [List.filter_eq_nil_iff]
        intro d' _ hc
        simp only [Bool.and_eq_true, beq_iff_eq] at hc
        exact hem (hc.1 ▸ hc.2)
    rw [hsplit]
    by_cases hem : (A.filter (aclKeyMatch l d)).isEmpty = true
    · rw [if_pos hem]
      rw [filter_beq_of_nodup _ d
        (dedupFirst_nodup (gs.map (fun x => x.document_id)).length _ (Nat.le_refl _))]
      by_cases hmem : d ∈ dedupFirst (gs.map (fun x => x.document_id))
      · simp [hmem, hem]
      · simp [hmem, hem]
    · rw [if_neg hem]
      simp only [Bool.not_eq_true] at hem
      simp [hem]
  by_cases hany : gs.any (fun g => g.document_id == d) = true
  · rw [if_pos hany]
    have hmem : d ∈ dedupFirst (gs.map (fun x => x.document_id)) := by
      apply mem_dedupFirst_of_mem d (gs.map (fun x => x.document_id)).length _ (Nat.le_refl _)
      rcases List.any_eq_true.mp hany with ⟨g, hg, hgd⟩
      exact List.mem_map.mpr ⟨g, hg, beq_iff_eq.mp hgd⟩
    rcases wf_filter_key_cases A hwf l d with hem | ⟨a0, hone⟩
    · rw [hem]
      have hemT : (A.filter (aclKeyMatch l d)).isEmpty = true := by rw [hem]; rfl
      rw [hnewfil, if_pos ⟨hmem, hemT⟩]
      rfl
    · have hemF : (A.filter (aclKeyMatch l d)).isEmpty = false := by rw [hone]; rfl
      rw [hone, hnewfil]
      have : ¬ (d ∈ dedupFirst (gs.map (fun x => x.document_id))
          ∧ (A.filter (aclKeyMatch l d)).isEmpty = true) := by
        intro hc
        rw [hemF] at hc
        cases hc.2
      rw [if_neg this, List.append_nil, List.map_cons, List.map_nil]
      have hkm : aclKeyMatch l d a0 = true := by
        have : a0 ∈ A.filter (aclKeyMatch l d) := by
          rw [hone]; exact List.mem_cons_self _ _
        exact (List.mem_filter.mp this).2
      rcases aclKeyMatch_elim l d a0 hkm with ⟨hdoc, hoid, hlab⟩
      simp only [rowIsDocument, Bool.and_eq_true, beq_iff_eq] at hdoc
      have hanyo : gs.any (fun g => g.document_id == a0.objectId) = true := by
        rw [hoid]; exact hany
      have hupd : aclUpd T l gs a0 =
          { a0 with permissions := storedFor T (lastGrantFor gs a0.objectId) } := by
        unfold aclUpd
        simp [hlab, rowIsDocument, hdoc.1, hdoc.2, hanyo]
      rw [hupd]
      cases a0
      simp only [AclRow.mk.injEq] at hdoc hoid hlab ⊢
      simp_all
  · rw [if_neg (by simpa using hany)]
    simp only [Bool.not_eq_true] at hany
    have hnmem : ¬ (d ∈ dedupFirst (gs.map (fun x => x.document_id))
        ∧ (A.filter (aclKeyMatch l d)).isEmpty = true) := by
      rintro ⟨hmem, _⟩
      have hds := mem_dedupFirst d (gs.map (fun x => x.document_id)).length _
        (Nat.le_refl _) hmem
      rcases List.mem_map.mp hds with ⟨g, hg, hgd⟩
      have : gs.any (fun g => g.document_id == d) = true :=
        List.any_eq_true.mpr ⟨g, hg, by simp [hgd]⟩
      rw [hany] at this
      cases this
    rw [hnewfil, if_neg hnmem, List.append_nil]
    apply list_map_id_of
    intro a ha
    have hkm := (List.mem_filter.mp ha).2
    rcases aclKeyMatch_elim l d a hkm with ⟨hdoc, hoid, hlab⟩
    unfold aclUpd
    have : gs.any (fun g => g.document_id == a.objectId) = false := by
      rw [hoid]; exact hany
    simp [this]

/-- Filtering the step result by another role's key changes nothing. -/
theorem step_filter_key_other (T : List String) (A : List AclRow) (l : String)
    (gs : List Grant) (l2 : String) (d : Int) (hne : l2 ≠ l) :
    ((A.map (aclUpd T l gs) ++ newRowsFor T A l gs).filter (aclKeyMatch l2 d)) =
      A.filter (aclKeyMatch l2 d) := by
  rw [List.filter_append]
  rw [filter_key_map A _ _ (fun a => aclKeyMatch_aclUpd T l l2 gs d a)]
  have hnew : (newRowsFor T A l gs).filter (aclKeyMatch l2 d) = [] := by
    rw [List.filter_eq_nil_iff]
    intro a ha hc
    unfold newRowsFor at ha
    rw [filterMap_ite_eq] at ha
    rcases List.mem_map.mp ha with ⟨d', _, hrow⟩
    rcases aclKeyMatch_elim l2 d a hc with ⟨_, _, hlab⟩
    rw [← hrow] at hlab
    exact hne hlab.symm
  rw [hnew, List.append_nil]
  apply list_map_id_of
  intro a ha
  have hkm := (List.mem_filter.mp ha).2
  rcases aclKeyMatch_elim l2 d a hkm with ⟨_, _, hlab⟩
  unfold aclUpd
  have : (a.roleLabel == l) = false := by
    rw [hlab]
    simp only [beq_eq_false_iff_ne, ne_eq]
    exact hne
  simp [this]

/-- A fold step never changes the `StoredPermission` table. -/
theorem foldUsers_storedPerms (r : RedisState) (us : List (String × List Grant))
    (st : MayanState) : (foldUsers r us st).storedPermissions = st.storedPermissions := by
  induction us generalizing st with
  | nil => rfl
  | cons p rest ih =>
    simp only [foldUsers, List.foldl_cons]
    rw [show (List.foldl (fun s p => userStep r p.1 p.2 s) (userStep r p.1 p.2 st) rest) =
      foldUsers r rest (userStep r p.1 p.2 st) from rfl, ih, userStep_storedPerms]

/-- The fold preserves the ACL unique-key constraint. -/
theorem foldUsers_wf (r : RedisState) (us : List (String × List Grant)) (st : MayanState)
    (hwf : WfAcl st.acls) : WfAcl (foldUsers r us st).acls := by
  induction us generalizing st with
  | nil => exact hwf
  | cons p rest ih =>
    simp only [foldUsers, List.foldl_cons]
    exact ih (userStep r p.1 p.2 st) (userStep_wf r p.1 p.2 st hwf)

/-- The fold preserves the set of user primary keys. -/
theorem foldUsers_users_any (r : RedisState) (us : List (String × List Grant))
    (st : MayanState) (m : Int) :
    ((foldUsers r us st).users.any (fun u2 => u2.pk == m))
      = st.users.any (fun u2 => u2.pk == m) := by
  induction us generalizing st with
  | nil => rfl
  | cons p rest ih =>
    simp only [foldUsers, List.foldl_cons]
    rw [show (List.foldl (fun s p => userStep r p.1 p.2 s) (userStep r p.1 p.2 st) rest) =
      foldUsers r rest (userStep r p.1 p.2 st) from rfl, ih, userStep_users_any]

/-- Membership in an `add`ed group link list is monotone. -/
theorem mem_addUnique_of (l : List String) (x y : String) (h : y ∈ l) :
    y ∈ addUnique l x := by
  unfold addUnique
  split
  · exact h
  · exact List.mem_append_left _ h

/-- `add` links the added element. -/
theorem mem_addUnique_self (l : List String) (x : String) : x ∈ addUnique l x := by
  unfold addUnique
  split
  · next h => simpa using h
  · exact List.mem_append_right _ (List.mem_singleton.mpr rfl)

/-- Filtering twice with the outer predicate implying the inner one
discards the inner filter. -/
theorem filter_of_filter_keep {α : Type} (A : List α) (p q : α → Bool)
    (h : ∀ a ∈ A, p a = true → q a = true) : (A.filter q).filter p = A.filter p := by
  rw [List.filter_filter]
  apply List.filter_congr
  intro a ha
  cases hp : p a
  · simp
  · simp [h a ha hp]

/-- A filter commutes with a map that preserves the predicate. -/
theorem filter_map_pres {α : Type} (A : List α) (f : α → α) (p : α → Bool)
    (h : ∀ a, p (f a) = p a) : (A.map f).filter p = (A.filter p).map f := by
  induction A with
  | nil => rfl
  | cons a A ih =>
    simp only [List.map_cons, List.filter_cons, h a]
    cases hp : p a
    · simpa using ih
    · simpa using ih

/-! ### Frame lemmas: unmanaged rows (claim C2) -/

/-- The one-grant permission overwrite fixes every row outside the
managed (`kc:` Document) fragment. -/
theorem unmanaged_overwrite_id (l : String) (d : Int) (sp : List String) (a : AclRow)
    (hl : strStartsWith l "kc:" = true) (ha : unmanagedB a = true) :
    (if aclKeyMatch l d a then { a with permissions := sp } else a) = a := by
  have hkm : aclKeyMatch l d a = false := by
    unfold unmanagedB at ha
    unfold aclKeyMatch
    cases hdoc : rowIsDocument a
    · simp
    · have hns : strStartsWith a.roleLabel "kc:" = false := by simpa [hdoc] using ha
      have hlab : (a.roleLabel == l) = false := by
        apply beq_eq_false_iff_ne.mpr
        intro hc
        rw [hc, hl] at hns
        cases hns
      simp [hlab]
  simp [hkm]

/-- The one-grant permission overwrite never changes the managed/
unmanaged classification. -/
theorem unmanagedB_overwrite (l : String) (d : Int) (sp : List String) (a : AclRow) :
    unmanagedB (if aclKeyMatch l d a then { a with permissions := sp } else a)
      = unmanagedB a := by
  split <;> rfl

/-- A freshly created managed row is inside the managed fragment. -/
theorem newRow_not_unmanaged (l : String) (d : Int) (sp : List String)
    (hl : strStartsWith l "kc:" = true) :
    unmanagedB { ctApp := "documents", ctModel := "document", objectId := d,
                 roleLabel := l, permissions := sp } = false := by
  unfold unmanagedB rowIsDocument
  simp [hl]

/-- One permission overwrite leaves the unmanaged rows untouched. -/
theorem overwrite_filter_unmanaged (l : String) (d : Int) (sp : List String)
    (A : List AclRow) (hl : strStartsWith l "kc:" = true) :
    ((A.map (fun a => if aclKeyMatch l d a then { a with permissions := sp } else a)).filter
      unmanagedB) = A.filter unmanagedB := by
  rw [filter_map_pres _ _ _ (fun a => unmanagedB_overwrite l d sp a)]
  exact list_map_id_of _ _ (fun a ha =>
    unmanaged_overwrite_id l d sp a hl (List.mem_filter.mp ha).2)

/-- One upsert iteration fixes the unmanaged rows. -/
theorem upsertGrant_unmanaged_frame (l : String) (st : MayanState) (c u : Nat) (g : Grant)
    (st' : MayanState) (c' u' : Nat) (hl : strStartsWith l "kc:" = true)
    (h : upsertGrant l st c u g = some (st', c', u')) :
    st'.acls.filter unmanagedB = st.acls.filter unmanagedB := by
  by_cases hlen : (st.acls.filter (aclKeyMatch l g.document_id)).length > 1
  · unfold upsertGrant at h
    rw [if_pos hlen] at h
    cases h
  · unfold upsertGrant at h
    rw [if_neg hlen] at h
    dsimp only at h
    injection h with h1
    have h2 := congrArg (fun p : MayanState × Nat × Nat => p.1.acls) h1
    dsimp only at h2
    by_cases hperm : (get_stored_permissions st.storedPermissions
        (permission_keys_for_grant g)).isEmpty = true
    · rw [if_pos hperm] at h2
      dsimp only at h2
      by_cases hem : (st.acls.filter (aclKeyMatch l g.document_id)).isEmpty = true
      · rw [if_pos hem] at h2
        dsimp only at h2
        rw [← h2, overwrite_filter_unmanaged l g.document_id _ _ hl, List.filter_append]
        simp [List.filter_cons, newRow_not_unmanaged l g.document_id [] hl]
      · rw [if_neg hem] at h2
        rw [← h2, overwrite_filter_unmanaged l g.document_id _ _ hl]
    · rw [if_neg hperm] at h2
      dsimp only at h2
      by_cases hem : (st.acls.filter (aclKeyMatch l g.document_id)).isEmpty = true
      · rw [if_pos hem] at h2
        dsimp only at h2
        rw [← h2, overwrite_filter_unmanaged l g.document_id _ _ hl, List.filter_append]
        simp [List.filter_cons, newRow_not_unmanaged l g.document_id [] hl]
      · rw [if_neg hem] at h2
        rw [← h2, overwrite_filter_unmanaged l g.document_id _ _ hl]

/-- The inner grant loop fixes the unmanaged rows. -/
theorem upsertGrantsLoop_unmanaged_frame (l : String) (gs : List Grant)
    (hl : strStartsWith l "kc:" = true) :
    ∀ (st : MayanState) (c u : Nat) (out : MayanState × Nat × Nat),
    upsertGrantsLoop l gs st c u = some out →
    out.1.acls.filter unmanagedB = st.acls.filter unmanagedB := by
  induction gs with
  | nil =>
    intro st c u out h
    simp only [upsertGrantsLoop] at h
    injection h with h1
    rw [← h1]
  | cons g gs ih =>
    intro st c u out h
    simp only [upsertGrantsLoop] at h
    cases hg : upsertGrant l st c u g with
    | none => rw [hg] at h; cases h
    | some trip =>
      obtain ⟨st1, c1, u1⟩ := trip
      rw [hg] at h
      dsimp only at h
      rw [ih st1 c1 u1 out h]
      exact upsertGrant_unmanaged_frame l st c u g st1 c1 u1 hl hg

/-- A successful `_ensure_user_group_role` changes no ACL row and
returns the managed label. -/
theorem ensure_some_inv (st : MayanState) (uid : String) (n : Int) (st' : MayanState)
    (l : String) (h : ensure_user_group_role st uid n = some (st', l)) :
    st'.acls = st.acls ∧ l = labelOf uid
      ∧ st.users.any (fun u2 => u2.pk == n) = true := by
  cases husr : st.users.any (fun u2 => u2.pk == n) with
  | false => rw [ensure_none st uid n husr] at h; cases h
  | true =>
    rw [ensure_eq st uid n husr] at h
    injection h with h1
    have h2 := congrArg (fun p : MayanState × String => p.1.acls) h1
    have h3 := congrArg (fun p : MayanState × String => p.2) h1
    dsimp only at h2 h3
    exact ⟨h2.symm, h3.symm, rfl⟩

/-- The outer upsert loop fixes the unmanaged rows. -/
theorem usersLoop_unmanaged_frame (r : RedisState) :
    ∀ (us : List (String × List Grant)) (st : MayanState) (c u sk : Nat)
      (out : MayanState × Nat × Nat × Nat),
    upsertUsersLoop r us st c u sk = some out →
    out.1.acls.filter unmanagedB = st.acls.filter unmanagedB := by
  intro us
  induction us with
  | nil =>
    intro st c u sk out h
    simp only [upsertUsersLoop] at h
    injection h with h1
    rw [← h1]
  | cons p rest ih =>
    intro st c u sk out h
    obtain ⟨uid, gs⟩ := p
    simp only [upsertUsersLoop] at h
    cases hget : redisGet r ("mayan:user:" ++ uid) with
    | none =>
      rw [hget] at h
      exact ih st c u (sk + gs.length) out h
    | some raw =>
      rw [hget] at h
      dsimp only at h
      by_cases hraw : (raw == "") = true
      · rw [if_pos hraw] at h
        exact ih st c u (sk + gs.length) out h
      · rw [if_neg hraw] at h
        cases hint : pyStrToInt raw with
        | none =>
          rw [hint] at h
          exact ih st c u (sk + gs.length) out h
        | some m =>
          rw [hint] at h
          dsimp only at h
          cases hens : ensure_user_group_role st uid m with
          | none => rw [hens] at h; cases h
          | some pr =>
            obtain ⟨stE, lab⟩ := pr
            rw [hens] at h
            dsimp only at h
            rcases ensure_some_inv st uid m stE lab hens with ⟨hEacls, hElab, _⟩
            cases hloop : upsertGrantsLoop lab gs stE c u with
            | none => rw [hloop] at h; cases h
            | some trip =>
              obtain ⟨stG, c2, u2⟩ := trip
              rw [hloop] at h
              dsimp only at h
              rw [ih stG c2 u2 sk out h]
              rw [upsertGrantsLoop_unmanaged_frame lab gs
                (by rw [hElab]; exact labelOf_startsWith uid) stE c u (stG, c2, u2) hloop]
              rw [hEacls]

/-- The deletion pass fixes the unmanaged rows: every listed role is
`kc:`-prefixed and stale rows carry the role's label on the Document
content type. -/
theorem del_unmanaged_frame (gbu : List (String × List Grant)) (ros : List RoleRow)
    (st : MayanState) (dl : Nat)
    (hros : ∀ ro ∈ ros, strStartsWith ro.label "kc:" = true) :
    (deleteStaleLoop gbu ros st dl).1.acls.filter unmanagedB
      = st.acls.filter unmanagedB := by
  rw [deleteStaleLoop_state]
  dsimp only
  apply filter_of_filter_keep
  intro a _ ha
  unfold keepRowB
  rw [List.all_eq_true]
  intro ro hro
  unfold staleRow
  unfold unmanagedB at ha
  cases hdoc : rowIsDocument a
  · simp [hdoc]
  · have hns : strStartsWith a.roleLabel "kc:" = false := by simpa [hdoc] using ha
    have hlab : (a.roleLabel == ro.label) = false := by
      apply beq_eq_false_iff_ne.mpr
      intro hc
      rw [hc, hros ro hro] at hns
      cases hns
    simp [hlab]

/-- **C2**: `sync_acl_from_redis` never deletes or modifies an
`AccessControlList` row whose role label does not start with `"kc:"` or
whose content type is not the Document content type: over any completed
run, the subsequence of unmanaged rows (order and contents included) is
exactly that of the initial state. -/
theorem claim_c2_unmanaged_frame (r : RedisState) (st st' : MayanState) (stats : Stats)
    (h : sync_acl_from_redis r st = some (st', stats)) :
    st'.acls.filter unmanagedB = st.acls.filter unmanagedB := by
  simp only [sync_acl_from_redis] at h
  cases hloop : upsertUsersLoop r (groupGrants (iterGrants r.grantValues))
      (deleteStaleLoop (groupGrants (iterGrants r.grantValues))
        (st.roles.filter (fun ro => strStartsWith ro.label "kc:")) st 0).1 0 0 0 with
  | none =>
    rw [hloop] at h
    cases h
  | some out =>
    obtain ⟨st2, c, u, sk⟩ := out
    rw [hloop] at h
    dsimp only at h
    injection h with h1
    have hst : st' = st2 := (congrArg Prod.fst h1).symm
    rw [hst]
    rw [usersLoop_unmanaged_frame r _ _ 0 0 0 _ hloop]
    exact del_unmanaged_frame _ _ st 0
      (fun ro hro => (List.mem_filter.mp hro).2)

/-- Witness for C2 at the concrete instance. -/
theorem claim_c2_unmanaged_frame_witness :
    sync_acl_from_redis exRedis exState = some (exFinal, exStats)
    ∧ exFinal.acls.filter unmanagedB = exState.acls.filter unmanagedB :=
  ⟨by decide, claim_c2_unmanaged_frame exRedis exState exFinal exStats (by decide)⟩

/-! ### Per-key view of the deletion pass -/

/-- `List.contains` on integers decides membership. -/
theorem int_contains_iff (l : List Int) (x : Int) : l.contains x = true ↔ x ∈ l := by
  simp

/-- The unique-key constraint survives any filtering. -/
theorem wf_filter (A : List AclRow) (p : AclRow → Bool) (h : WfAcl A) :
    WfAcl (A.filter p) :=
  h.sublist ((List.filter_sublist A).map aclKey)

/-- The deletion pass written as a record update. -/
theorem delState_eq (r : RedisState) (st : MayanState) :
    delState r st =
      { st with
        acls := st.acls.filter
                  (keepRowB (gbuOf r)
                    (st.roles.filter (fun ro => strStartsWith ro.label "kc:"))) } := by
  unfold delState
  rw [deleteStaleLoop_state]

/-- `dict.find?` on a nodup-keyed association list locates a member
pair. -/
theorem find_key_of_nodup {β : Type} :
    ∀ (us : List (String × β)) (uid : String) (b : β),
    ((us.map (·.1)).Nodup) → (uid, b) ∈ us →
    us.find? (fun p => p.1 == uid) = some (uid, b) := by
  intro us
  induction us with
  | nil => intro uid b _ hmem; cases hmem
  | cons q rest ih =>
    intro uid b hnd hmem
    rw [List.map_cons] at hnd
    rcases List.nodup_cons.mp hnd with ⟨hq, hnd'⟩
    rcases List.mem_cons.mp hmem with h1 | h1
    · subst h1
      simp [List.find?_cons]
    · have hqu : (q.1 == uid) = false := by
        apply beq_eq_false_iff_ne.mpr
        intro hc
        exact hq (by
          rw [hc]
          exact List.mem_map.mpr ⟨(uid, b), h1, rfl⟩)
      rw [List.find?_cons, hqu]
      exact ih uid b hnd' h1

/-- A member pair of `grants_by_user` is the `get` of its key. -/
theorem mem_grantsFor (us : List (String × List Grant)) (uid : String) (gs : List Grant)
    (hnd : (us.map (·.1)).Nodup) (hmem : (uid, gs) ∈ us) : grantsFor us uid = gs := by
  unfold grantsFor
  rw [find_key_of_nodup us uid gs hnd hmem]
  rfl

/-- The grant list of a user key of `grants_by_user` is the scan-order
filter of all parsed grants by that user. -/
theorem gbu_pairs (r : RedisState) (uid : String) (gs : List Grant)
    (h : (uid, gs) ∈ gbuOf r) :
    gs = (iterGrants r.grantValues).filter (fun g => g.user_id == uid) := by
  have h1 := mem_grantsFor (gbuOf r) uid gs (groupGrants_keys_nodup _) h
  rw [← h1]
  unfold gbuOf
  rw [groupGrants_grantsFor]

/-- Every user key of `grants_by_user` holds at least one grant. -/
theorem gbu_snd_ne_nil (grants : List Grant) : ∀ p ∈ groupGrants grants, p.2 ≠ [] := by
  suffices h : ∀ (acc : List (String × List Grant)), (∀ p ∈ acc, p.2 ≠ []) →
      ∀ p ∈ grants.foldl ggStep acc, p.2 ≠ [] by
    intro p hp
    exact h [] (by intro p hp; cases hp) p hp
  induction grants with
  | nil => intro acc hacc; exact hacc
  | cons g grants ih =>
    intro acc hacc
    simp only [List.foldl_cons]
    apply ih
    intro p hp
    unfold ggStep at hp
    split at hp
    · rcases List.mem_map.mp hp with ⟨q, hq, hpq⟩
      by_cases hqu : (q.1 == g.user_id) = true
      · rw [← hpq]
        simp [hqu]
      · rw [← hpq]
        simp only [Bool.not_eq_true] at hqu
        simp only [hqu, Bool.false_eq_true, if_false]
        exact hacc q hq
    · rcases List.mem_append.mp hp with h1 | h1
      · exact hacc p h1
      · rw [List.mem_singleton.mp h1]
        simp

/-- A managed row whose document is still granted survives the deletion
pass. -/
theorem del_filter_key_granted (gbu : List (String × List Grant)) (ros : List RoleRow)
    (st : MayanState) (dl : Nat) (uid : String) (d : Int)
    (hshort : uid.data.length ≤ 125) (hd : d ∈ docsOf gbu uid) :
    (deleteStaleLoop gbu ros st dl).1.acls.filter (aclKeyMatch (labelOf uid) d)
      = st.acls.filter (aclKeyMatch (labelOf uid) d) := by
  rw [deleteStaleLoop_state]
  dsimp only
  apply filter_of_filter_keep
  intro a _ ha
  unfold keepRowB
  rw [List.all_eq_true]
  intro ro hro
  rcases aclKeyMatch_elim (labelOf uid) d a ha with ⟨hdoc, hoid, hlab⟩
  unfold staleRow
  by_cases hrl : (a.roleLabel == ro.label) = true
  · have hrolab : ro.label = labelOf uid := by
      rw [← beq_iff_eq.mp hrl, hlab]
    have hdes : docsOf gbu (strDrop ro.label 3) = docsOf gbu uid := by
      rw [hrolab, strDrop_label uid hshort]
    rw [hdes]
    have hne : docsOf gbu uid ≠ [] := List.ne_nil_of_mem hd
    have hie : ¬((docsOf gbu uid).isEmpty = true) := fun hc => hne (List.isEmpty_iff.mp hc)
    rw [if_neg hie]
    have hmem2 : a.objectId ∈ docsOf gbu uid := by rw [hoid]; exact hd
    simp [hmem2]
  · simp only [Bool.not_eq_true] at hrl
    simp [hrl]

/-- A managed row of a still-granted user whose document is no longer
granted is removed by the deletion pass (the row's role exists by
foreign-key integrity). -/
theorem del_filter_key_ungranted (gbu : List (String × List Grant)) (st : MayanState)
    (dl : Nat) (uid : String) (d : Int) (hshort : uid.data.length ≤ 125)
    (hfk : KcFk st) (hne : docsOf gbu uid ≠ []) (hd : d ∉ docsOf gbu uid) :
    (deleteStaleLoop gbu (st.roles.filter (fun ro => strStartsWith ro.label "kc:"))
      st dl).1.acls.filter (aclKeyMatch (labelOf uid) d) = [] := by
  rw [deleteStaleLoop_state]
  dsimp only
  rw [List.filter_filter, List.filter_eq_nil_iff]
  intro a ha hc
  rw [Bool.and_eq_true] at hc
  obtain ⟨hkm, hkeep⟩ := hc
  rcases aclKeyMatch_elim (labelOf uid) d a hkm with ⟨hdoc, hoid, hlab⟩
  have hsw : strStartsWith a.roleLabel "kc:" = true := by
    rw [hlab]; exact labelOf_startsWith uid
  have hro := hfk a ha hsw hdoc
  rcases List.any_eq_true.mp hro with ⟨ro, hros, hrlab⟩
  have hrolab : ro.label = a.roleLabel := beq_iff_eq.mp hrlab
  have hrosf : ro ∈ st.roles.filter (fun ro => strStartsWith ro.label "kc:") :=
    List.mem_filter.mpr ⟨hros, by rw [hrolab]; exact hsw⟩
  unfold keepRowB at hkeep
  have hns := List.all_eq_true.mp hkeep ro hrosf
  have hstale : staleRow (docsOf gbu (strDrop ro.label 3)) ro.label a = true := by
    unfold staleRow
    have hdes : docsOf gbu (strDrop ro.label 3) = docsOf gbu uid := by
      rw [hrolab, hlab, strDrop_label uid hshort]
    rw [hdes]
    have hie : ¬((docsOf gbu uid).isEmpty = true) := fun hc2 => hne (List.isEmpty_iff.mp hc2)
    rw [if_neg hie]
    have hnotmem : a.objectId ∉ docsOf gbu uid := by rw [hoid]; exact hd
    have hlr : (a.roleLabel == ro.label) = true := beq_iff_eq.mpr hrolab.symm
    simp [hdoc, hlr, hnotmem]
  rw [hstale] at hns
  cases hns

/-- Every Document row of a managed role whose user holds no grants is
removed by the deletion pass. -/
theorem del_filter_emptyrole (gbu : List (String × List Grant)) (st : MayanState)
    (dl : Nat) (ro : RoleRow) (hro : ro ∈ st.roles)
    (hkc : strStartsWith ro.label "kc:" = true)
    (hg : grantsFor gbu (strDrop ro.label 3) = []) :
    (deleteStaleLoop gbu (st.roles.filter (fun ro => strStartsWith ro.label "kc:"))
      st dl).1.acls.filter (fun a => rowIsDocument a && (a.roleLabel == ro.label)) = [] := by
  rw [deleteStaleLoop_state]
  dsimp only
  rw [List.filter_filter, List.filter_eq_nil_iff]
  intro a _ hc
  rw [Bool.and_eq_true] at hc
  obtain ⟨hkm, hkeep⟩ := hc
  rw [Bool.and_eq_true] at hkm
  obtain ⟨hdoc, hlr⟩ := hkm
  have hrosf : ro ∈ st.roles.filter (fun ro => strStartsWith ro.label "kc:") :=
    List.mem_filter.mpr ⟨hro, hkc⟩
  unfold keepRowB at hkeep
  have hns := List.all_eq_true.mp hkeep ro hrosf
  have hstale : staleRow (docsOf gbu (strDrop ro.label 3)) ro.label a = true := by
    unfold staleRow
    have hdes : docsOf gbu (strDrop ro.label 3) = [] := by
      unfold docsOf
      rw [hg]
      rfl
    rw [hdes]
    simp [hdoc, hlr]
  rw [hstale] at hns
  cases hns

/-! ### Per-key view of the upsert fold -/

/-- A grant-holding user id under the truncation bound. -/
theorem shortIds_len (us : List (String × List Grant)) (h : ShortIds us)
    (p : String × List Grant) (hp : p ∈ us) : p.1.data.length ≤ 125 := by
  have h1 := h p hp
  rw [String.data_append] at h1
  rw [kc_data] at h1
  simp only [List.length_append, List.length_cons, List.length_nil] at h1
  omega

/-- Steps of other users leave a role key's rows untouched. -/
theorem fold_filter_key_frame (r : RedisState) (l : String) (d : Int) :
    ∀ (us : List (String × List Grant)) (st : MayanState),
    (∀ p ∈ us, (mappedId r p.1).isSome = true → labelOf p.1 ≠ l) →
    (foldUsers r us st).acls.filter (aclKeyMatch l d) = st.acls.filter (aclKeyMatch l d) := by
  intro us
  induction us with
  | nil => intro st _; rfl
  | cons p rest ih =>
    intro st hothers
    obtain ⟨uid, gs⟩ := p
    simp only [foldUsers, List.foldl_cons]
    rw [show (List.foldl (fun s p => userStep r p.1 p.2 s) (userStep r uid gs st) rest) =
      foldUsers r rest (userStep r uid gs st) from rfl]
    rw [ih (userStep r uid gs st) (fun q hq => hothers q (List.mem_cons_of_mem _ hq))]
    unfold userStep
    cases hm : mappedId r uid with
    | none => rfl
    | some n =>
      dsimp only
      exact step_filter_key_other st.storedPermissions st.acls (labelOf uid) gs l d
        (Ne.symm (hothers (uid, gs) (List.mem_cons_self _ _) (by rw [hm]; rfl)))

/-- The full upsert pass seen on one mapped user's role key: the user's
own step installs the reconciled row set, every other step leaves it
alone. -/
theorem fold_filter_key_hit (r : RedisState) (us1 us2 : List (String × List Grant))
    (uid : String) (gs : List Grant) (st : MayanState) (d : Int)
    (hwf : WfAcl st.acls) (n : Int) (hm : mappedId r uid = some n)
    (h1 : ∀ p ∈ us1, (mappedId r p.1).isSome = true → labelOf p.1 ≠ labelOf uid)
    (h2 : ∀ p ∈ us2, (mappedId r p.1).isSome = true → labelOf p.1 ≠ labelOf uid) :
    (foldUsers r (us1 ++ (uid, gs) :: us2) st).acls.filter (aclKeyMatch (labelOf uid) d) =
      if gs.any (fun g => g.document_id == d) then
        [{ ctApp := "documents", ctModel := "document", objectId := d,
           roleLabel := labelOf uid,
           permissions := storedFor st.storedPermissions (lastGrantFor gs d) }]
      else st.acls.filter (aclKeyMatch (labelOf uid) d) := by
  have hsplit : foldUsers r (us1 ++ (uid, gs) :: us2) st =
      foldUsers r us2 (userStep r uid gs (foldUsers r us1 st)) := by
    unfold foldUsers
    rw [List.foldl_append, List.foldl_cons]
  rw [hsplit]
  rw [fold_filter_key_frame r (labelOf uid) d us2 _ h2]
  have hwf1 : WfAcl (foldUsers r us1 st).acls := foldUsers_wf r us1 st hwf
  have hsp1 : (foldUsers r us1 st).storedPermissions = st.storedPermissions :=
    foldUsers_storedPerms r us1 st
  unfold userStep
  rw [hm]
  dsimp only
  rw [step_filter_key (foldUsers r us1 st).storedPermissions (foldUsers r us1 st).acls
    (labelOf uid) gs d hwf1]
  rw [hsp1]
  rw [fold_filter_key_frame r (labelOf uid) d us1 st h1]

/-- Splitting a nodup-keyed association list at a member pair. -/
theorem mem_nodup_keys_split (us : List (String × List Grant)) (uid : String)
    (gs : List Grant) (hnd : (us.map (·.1)).Nodup) (hmem : (uid, gs) ∈ us) :
    ∃ us1 us2, us = us1 ++ (uid, gs) :: us2
      ∧ (∀ p ∈ us1, p.1 ≠ uid) ∧ (∀ p ∈ us2, p.1 ≠ uid) := by
  rcases List.append_of_mem hmem with ⟨us1, us2, hsp⟩
  refine ⟨us1, us2, hsp, ?_, ?_⟩
  · intro p hp hc
    rw [hsp, List.map_append, List.map_cons] at hnd
    rcases List.nodup_append.mp hnd with ⟨_, _, hdisj⟩
    exact hdisj (List.mem_map.mpr ⟨p, hp, rfl⟩) (by rw [hc]; exact List.mem_cons_self _ _)
  · intro p hp hc
    rw [hsp, List.map_append, List.map_cons] at hnd
    rcases List.nodup_append.mp hnd with ⟨_, hnd2, _⟩
    rcases List.nodup_cons.mp hnd2 with ⟨hq, _⟩
    exact hq (by rw [← hc]; exact List.mem_map.mpr ⟨p, hp, rfl⟩)

/-! ### The closed form of a completed sync -/

/-- The deletion pass leaves the user table unchanged. -/
theorem delState_users (r : RedisState) (st : MayanState) :
    (delState r st).users = st.users := by
  rw [delState_eq]

/-- The deletion pass leaves the `StoredPermission` table unchanged. -/
theorem delState_storedPerms (r : RedisState) (st : MayanState) :
    (delState r st).storedPermissions = st.storedPermissions := by
  rw [delState_eq]

/-- The deletion pass leaves the role table unchanged. -/
theorem delState_roles (r : RedisState) (st : MayanState) :
    (delState r st).roles = st.roles := by
  rw [delState_eq]

/-- The deletion pass leaves the group table unchanged. -/
theorem delState_groupNames (r : RedisState) (st : MayanState) :
    (delState r st).groupNames = st.groupNames := by
  rw [delState_eq]

/-- The deletion pass preserves the ACL unique-key constraint. -/
theorem wf_delState (r : RedisState) (st : MayanState) (hwf : WfAcl st.acls) :
    WfAcl (delState r st).acls := by
  rw [delState_eq]
  exact wf_filter _ _ hwf

/-- Account existence for the mapped users transfers over the deletion
pass. -/
theorem pkok_delState (r : RedisState) (st : MayanState)
    (hpk : PkOk r st (gbuOf r)) : PkOk r (delState r st) (gbuOf r) := by
  intro p hp n hn
  rw [delState_users]
  exact hpk p hp n hn

/-- The closed form of a completed `sync_acl_from_redis` run: delete,
then fold the per-user upserts, collecting the four statistics. -/
theorem sync_eq (r : RedisState) (st : MayanState)
    (hwf : WfAcl st.acls) (hpk : PkOk r st (gbuOf r)) :
    sync_acl_from_redis r st =
      some (foldUsers r (gbuOf r) (delState r st),
        { created := createdLoop r (gbuOf r) (delState r st),
          updated := updatedLoop r (gbuOf r) (delState r st),
          deleted := delCount r st,
          skipped := skippedOf r (gbuOf r) }) := by
  simp only [sync_acl_from_redis]
  have h1 : groupGrants (iterGrants r.grantValues) = gbuOf r := rfl
  rw [h1]
  have h2 : (deleteStaleLoop (gbuOf r)
      (st.roles.filter (fun ro => strStartsWith ro.label "kc:")) st 0).1 = delState r st := rfl
  rw [h2]
  rw [upsertUsersLoop_fold r (gbuOf r) (delState r st) 0 0 0
    (wf_delState r st hwf) (pkok_delState r st hpk)]
  have h3 : (deleteStaleLoop (gbuOf r)
      (st.roles.filter (fun ro => strStartsWith ro.label "kc:")) st 0).2 = delCount r st := rfl
  rw [h3]
  dsimp only
  simp [foldUsers]

/-- After a completed sync, a mapped user's still-granted document key
holds exactly the reconciled row. -/
theorem final_key_granted (r : RedisState) (st : MayanState)
    (hwf : WfAcl st.acls) (hshort : ShortIds (gbuOf r))
    (uid : String) (gs : List Grant) (n : Int) (d : Int)
    (hmem : (uid, gs) ∈ gbuOf r) (hm : mappedId r uid = some n)
    (hd : gs.any (fun g => g.document_id == d) = true) :
    (foldUsers r (gbuOf r) (delState r st)).acls.filter (aclKeyMatch (labelOf uid) d) =
      [{ ctApp := "documents", ctModel := "document", objectId := d,
         roleLabel := labelOf uid,
         permissions := storedFor st.storedPermissions (lastGrantFor gs d) }] := by
  rcases mem_nodup_keys_split (gbuOf r) uid gs (groupGrants_keys_nodup _) hmem
    with ⟨us1, us2, hsp, hne1, hne2⟩
  have hself : uid.data.length ≤ 125 := shortIds_len _ hshort (uid, gs) hmem
  have hlab1 : ∀ p ∈ us1, (mappedId r p.1).isSome = true → labelOf p.1 ≠ labelOf uid := by
    intro p hp _ hc
    exact hne1 p hp (labelOf_inj p.1 uid
      (shortIds_len _ hshort p (by rw [hsp]; exact List.mem_append_left _ hp)) hself hc)
  have hlab2 : ∀ p ∈ us2, (mappedId r p.1).isSome = true → labelOf p.1 ≠ labelOf uid := by
    intro p hp _ hc
    exact hne2 p hp (labelOf_inj p.1 uid
      (shortIds_len _ hshort p
        (by rw [hsp]; exact List.mem_append_right _ (List.mem_cons_of_mem _ hp))) hself hc)
  rw [hsp]
  rw [fold_filter_key_hit r us1 us2 uid gs (delState r st) d (wf_delState r st hwf) n hm
    hlab1 hlab2]
  rw [if_pos hd, delState_storedPerms]

/-- After a completed sync, a mapped user's no-longer-granted document
key holds no row. -/
theorem final_key_ungranted (r : RedisState) (st : MayanState)
    (hwf : WfAcl st.acls) (hfk : KcFk st) (hshort : ShortIds (gbuOf r))
    (uid : String) (gs : List Grant) (n : Int) (d : Int)
    (hmem : (uid, gs) ∈ gbuOf r) (hm : mappedId r uid = some n)
    (hd : gs.any (fun g => g.document_id == d) = false) :
    (foldUsers r (gbuOf r) (delState r st)).acls.filter (aclKeyMatch (labelOf uid) d)
      = [] := by
  rcases mem_nodup_keys_split (gbuOf r) uid gs (groupGrants_keys_nodup _) hmem
    with ⟨us1, us2, hsp, hne1, hne2⟩
  have hself : uid.data.length ≤ 125 := shortIds_len _ hshort (uid, gs) hmem
  have hlab1 : ∀ p ∈ us1, (mappedId r p.1).isSome = true → labelOf p.1 ≠ labelOf uid := by
    intro p hp _ hc
    exact hne1 p hp (labelOf_inj p.1 uid
      (shortIds_len _ hshort p (by rw [hsp]; exact List.mem_append_left _ hp)) hself hc)
  have hlab2 : ∀ p ∈ us2, (mappedId r p.1).isSome = true → labelOf p.1 ≠ labelOf uid := by
    intro p hp _ hc
    exact hne2 p hp (labelOf_inj p.1 uid
      (shortIds_len _ hshort p
        (by rw [hsp]; exact List.mem_append_right _ (List.mem_cons_of_mem _ hp))) hself hc)
  rw [hsp]
  rw [fold_filter_key_hit r us1 us2 uid gs (delState r st) d (wf_delState r st hwf) n hm
    hlab1 hlab2]
  rw [if_neg (by rw [hd]; exact Bool.false_ne_true)]
  have hdocs : docsOf (gbuOf r) uid = gs.map (fun g => g.document_id) := by
    unfold docsOf
    rw [mem_grantsFor (gbuOf r) uid gs (groupGrants_keys_nodup _) hmem]
  have hgs : gs ≠ [] := gbu_snd_ne_nil (iterGrants r.grantValues) (uid, gs) hmem
  have hne : docsOf (gbuOf r) uid ≠ [] := by
    rw [hdocs]
    intro hc
    exact hgs (List.map_eq_nil.mp hc)
  have hdmem : d ∉ docsOf (gbuOf r) uid := by
    rw [hdocs]
    intro hc
    rcases List.mem_map.mp hc with ⟨g, hg, hgd⟩
    have := List.any_eq_false.mp hd g hg
    simp [hgd] at this
  unfold delState
  exact del_filter_key_ungranted (gbuOf r) st 0 uid d hself hfk hne hdmem

/-- After a completed sync, a managed role whose user holds no grants
has no Document row at all. -/
theorem final_emptyrole (r : RedisState) (st : MayanState) (hshort : ShortIds (gbuOf r))
    (ro : RoleRow) (hro : ro ∈ st.roles) (hkc : strStartsWith ro.label "kc:" = true)
    (hg : grantsFor (gbuOf r) (strDrop ro.label 3) = []) :
    (foldUsers r (gbuOf r) (delState r st)).acls.filter
      (fun a => rowIsDocument a && (a.roleLabel == ro.label)) = [] := by
  rw [List.filter_eq_nil_iff]
  intro a ha hc
  rw [Bool.and_eq_true] at hc
  obtain ⟨hdoc, hlr⟩ := hc
  have hkm : aclKeyMatch ro.label a.objectId a = true := by
    unfold aclKeyMatch
    simp [hdoc, hlr]
  have hkey : a ∈ (foldUsers r (gbuOf r) (delState r st)).acls.filter
      (aclKeyMatch ro.label a.objectId) := List.mem_filter.mpr ⟨ha, hkm⟩
  have hno : ∀ p ∈ gbuOf r, (mappedId r p.1).isSome = true → labelOf p.1 ≠ ro.label := by
    intro p hp _ hcl
    have hshortp := shortIds_len _ hshort p hp
    have hdropeq : strDrop ro.label 3 = p.1 := by
      rw [← hcl, strDrop_label p.1 hshortp]
    have hgf : grantsFor (gbuOf r) p.1 = p.2 :=
      mem_grantsFor (gbuOf r) p.1 p.2 (groupGrants_keys_nodup _) hp
    rw [hdropeq, hgf] at hg
    exact gbu_snd_ne_nil (iterGrants r.grantValues) p hp hg
  rw [fold_filter_key_frame r ro.label a.objectId (gbuOf r) (delState r st) hno] at hkey
  have hdel := del_filter_emptyrole (gbuOf r) st 0 ro hro hkc hg
  have hmem2 : a ∈ (deleteStaleLoop (gbuOf r)
      (st.roles.filter (fun ro => strStartsWith ro.label "kc:")) st 0).1.acls.filter
      (fun a => rowIsDocument a && (a.roleLabel == ro.label)) := by
    rcases List.mem_filter.mp hkey with ⟨hmem3, _⟩
    exact List.mem_filter.mpr ⟨hmem3, by simp [hdoc, hlr]⟩
  rw [hdel] at hmem2
  cases hmem2

/-- The decidable mapped-account check implies the propositional one. -/
theorem pkok_of_b (r : RedisState) (st : MayanState) (us : List (String × List Grant))
    (h : PkOkB r st us = true) : PkOk r st us := by
  intro p hp n hn
  have h1 := List.all_eq_true.mp h p hp
  rw [hn] at h1
  exact h1

/-- **C1** (corrected): for a well-formed host state (unique ACL keys,
role foreign keys intact, mapped users existing) and untruncated user
ids, `sync_acl_from_redis` reconciles the managed ACL rows with the
Redis grants — but only for users holding a usable `mayan:user:{userId}`
mapping: for each such user and each document, the row on the Document
content type under role `kc:{userId}` exists exactly when the document
is currently granted (stale rows deleted, missing rows inserted,
remaining rows overwritten with the last grant's stored permissions),
and every managed role whose user holds no grant at all loses all its
Document rows.  The frozen claim is refuted for grants of users without
a `mayan:user` mapping (`claim_c1_counterexample`): their granted
documents get no row. -/
theorem claim_c1_reconciliation (r : RedisState) (st : MayanState)
    (hwf : WfAcl st.acls) (hfk : KcFk st) (hshort : ShortIds (gbuOf r))
    (hpk : PkOk r st (gbuOf r)) :
    ∃ st2 stats, sync_acl_from_redis r st = some (st2, stats) ∧
      (∀ uid gs n, (uid, gs) ∈ gbuOf r → mappedId r uid = some n → ∀ d : Int,
        st2.acls.filter (aclKeyMatch (labelOf uid) d) =
          if gs.any (fun g => g.document_id == d) then
            [{ ctApp := "documents", ctModel := "document", objectId := d,
               roleLabel := labelOf uid,
               permissions := storedFor st.storedPermissions (lastGrantFor gs d) }]
          else []) ∧
      (∀ ro ∈ st.roles, strStartsWith ro.label "kc:" = true →
        grantsFor (gbuOf r) (strDrop ro.label 3) = [] →
        st2.acls.filter (fun a => rowIsDocument a && (a.roleLabel == ro.label)) = []) := by
  refine ⟨_, _, sync_eq r st hwf hpk, ?_, ?_⟩
  · intro uid gs n hmem hm d
    by_cases hd : gs.any (fun g => g.document_id == d) = true
    · rw [if_pos hd]
      exact final_key_granted r st hwf hshort uid gs n d hmem hm hd
    · rw [if_neg hd]
      exact final_key_ungranted r st hwf hfk hshort uid gs n d hmem hm
        (Bool.eq_false_iff.mpr hd)
  · intro ro hro hkc hg
    exact final_emptyrole r st hshort ro hro hkc hg

/-- Witness for C1 at the concrete instance. -/
theorem claim_c1_reconciliation_witness :
    WfAcl exState.acls ∧
    (∃ st2 stats, sync_acl_from_redis exRedis exState = some (st2, stats) ∧
      (∀ uid gs n, (uid, gs) ∈ gbuOf exRedis → mappedId exRedis uid = some n → ∀ d : Int,
        st2.acls.filter (aclKeyMatch (labelOf uid) d) =
          if gs.any (fun g => g.document_id == d) then
            [{ ctApp := "documents", ctModel := "document", objectId := d,
               roleLabel := labelOf uid,
               permissions := storedFor exState.storedPermissions (lastGrantFor gs d) }]
          else []) ∧
      (∀ ro ∈ exState.roles, strStartsWith ro.label "kc:" = true →
        grantsFor (gbuOf exRedis) (strDrop ro.label 3) = [] →
        st2.acls.filter (fun a => rowIsDocument a && (a.roleLabel == ro.label)) = [])) :=
  ⟨by unfold WfAcl; decide,
   claim_c1_reconciliation exRedis exState (by unfold WfAcl; decide) (by unfold KcFk; decide)
     (by unfold ShortIds; decide) (pkok_of_b _ _ _ (by decide))⟩

/-- Counterexample to the frozen C1: user `u` is granted document 5 in
Redis and `kc:u` is a managed role, but because `u` has no
`mayan:user:u` mapping the sync inserts no row for the newly granted
document — the run completes, counts the grant as skipped, and the host
ACL table does not match the Redis grants. -/
theorem claim_c1_counterexample :
    sync_acl_from_redis cxRedis cxState =
      some (cxState, { created := 0, updated := 0, deleted := 0, skipped := 1 })
    ∧ (5 : Int) ∈ docsOf (gbuOf cxRedis) "u"
    ∧ (cxState.roles.any (fun ro => ro.label == labelOf "u")) = true
    ∧ cxState.acls.filter (aclKeyMatch (labelOf "u") 5) = [] := by decide

/-! ### The permission pipeline (claim C3) -/

/-- Membership in a sorted insertion. -/
theorem mem_insertSorted (x y : String) :
    ∀ (l : List String), y ∈ insertSorted x l ↔ (y = x ∨ y ∈ l) := by
  intro l
  induction l with
  | nil => simp [insertSorted]
  | cons z zs ih =>
    unfold insertSorted
    split
    · simp
    · simp only [List.mem_cons, ih]
      tauto

/-- `sorted()` keeps exactly the original elements. -/
theorem mem_sortStrings (l : List String) (y : String) : y ∈ sortStrings l ↔ y ∈ l := by
  unfold sortStrings
  induction l with
  | nil => simp
  | cons x xs ih =>
    simp only [List.foldr_cons, mem_insertSorted, List.mem_cons, ih]

/-- The derived permission-key set of one grant, element by element: the
two baseline document-view keys, the file-download key iff `"download"`
is listed, and the parsed-content-view key iff `"ocr"` is listed; every
other listed string is ignored. -/
theorem perm_keys_mem (g : Grant) (k : String) :
    k ∈ permission_keys_for_grant g ↔
      (k = "documents.document_view" ∨ k = "documents.document_file_view"
       ∨ (k = "document_downloads.document_file_download" ∧ "download" ∈ g.permissions)
       ∨ (k = "document_parsing.content_view" ∧ "ocr" ∈ g.permissions)) := by
  unfold permission_keys_for_grant
  cases hdl : g.permissions.contains "download" <;>
  cases hocr : g.permissions.contains "ocr" <;>
    simp_all <;> tauto

/-- The stored permissions of one grant: exactly the derived keys that
exist in the `StoredPermission` registry. -/
theorem stored_mem (T : List String) (g : Grant) (p : String) :
    p ∈ storedFor T g ↔ (p ∈ T ∧ p ∈ permission_keys_for_grant g) := by
  unfold storedFor get_stored_permissions
  rw [List.mem_filter, mem_sortStrings]
  simp only [List.contains_iff_exists_mem_beq]
  constructor
  · rintro ⟨h1, h2⟩
    rcases h2 with ⟨q, hq, hbq⟩
    exact ⟨(beq_iff_eq.mp hbq) ▸ hq, h1⟩
  · rintro ⟨h1, h2⟩
    exact ⟨h2, ⟨p, h1, beq_iff_eq.mpr rfl⟩⟩

/-- **C3** (corrected): after a completed run over a well-formed state,
each granted document's ACL row carries exactly the stored-permission
set derived from the winning (last-scanned) grant for that document —
replacing whatever the row held before, so successive syncs resolve
conflicts last-write-wins — and that set contains a permission iff it is
one of the claim's derived keys (the two baselines, the file-download
key iff `"download"` is listed, the parsed-content-view key iff `"ocr"`
is listed, everything else ignored) **and** the key is present in the
`StoredPermission` registry.  The frozen claim omits the registry
filter; `claim_c3_counterexample` refutes it with an empty registry. -/
theorem claim_c3_permission_sets (r : RedisState) (st : MayanState)
    (hwf : WfAcl st.acls) (hfk : KcFk st) (hshort : ShortIds (gbuOf r))
    (hpk : PkOk r st (gbuOf r)) :
    ∃ st2 stats, sync_acl_from_redis r st = some (st2, stats) ∧
      ∀ uid gs n d, (uid, gs) ∈ gbuOf r → mappedId r uid = some n →
        gs.any (fun g => g.document_id == d) = true →
        ((st2.acls.filter (aclKeyMatch (labelOf uid) d)).map (fun a => a.permissions))
            = [storedFor st.storedPermissions (lastGrantFor gs d)] ∧
        (∀ p, p ∈ storedFor st.storedPermissions (lastGrantFor gs d) ↔
          (p ∈ st.storedPermissions ∧
            (p = "documents.document_view" ∨ p = "documents.document_file_view"
             ∨ (p = "document_downloads.document_file_download"
                ∧ "download" ∈ (lastGrantFor gs d).permissions)
             ∨ (p = "document_parsing.content_view"
                ∧ "ocr" ∈ (lastGrantFor gs d).permissions)))) := by
  refine ⟨_, _, sync_eq r st hwf hpk, ?_⟩
  intro uid gs n d hmem hm hd
  constructor
  · rw [final_key_granted r st hwf hshort uid gs n d hmem hm hd]
    rfl
  · intro p
    rw [stored_mem, perm_keys_mem]

/-- Witness for C3 at the concrete instance. -/
theorem claim_c3_permission_sets_witness :
    WfAcl exState.acls ∧
    (∃ st2 stats, sync_acl_from_redis exRedis exState = some (st2, stats) ∧
      ∀ uid gs n d, (uid, gs) ∈ gbuOf exRedis → mappedId exRedis uid = some n →
        gs.any (fun g => g.document_id == d) = true →
        ((st2.acls.filter (aclKeyMatch (labelOf uid) d)).map (fun a => a.permissions))
            = [storedFor exState.storedPermissions (lastGrantFor gs d)] ∧
        (∀ p, p ∈ storedFor exState.storedPermissions (lastGrantFor gs d) ↔
          (p ∈ exState.storedPermissions ∧
            (p = "documents.document_view" ∨ p = "documents.document_file_view"
             ∨ (p = "document_downloads.document_file_download"
                ∧ "download" ∈ (lastGrantFor gs d).permissions)
             ∨ (p = "document_parsing.content_view"
                ∧ "ocr" ∈ (lastGrantFor gs d).permissions))))) :=
  ⟨by unfold WfAcl; decide,
   claim_c3_permission_sets exRedis exState (by unfold WfAcl; decide)
     (by unfold KcFk; decide) (by unfold ShortIds; decide) (pkok_of_b _ _ _ (by decide))⟩

/-- Counterexample to the frozen C3: with an empty `StoredPermission`
registry the run completes and creates the row, but its permission set
is empty — not the claim's derived set, which contains the baseline
`documents.document_view`.  The registry filter of
`_get_stored_permissions` is part of the behaviour. -/
theorem claim_c3_counterexample :
    (sync_acl_from_redis cyRedis cyState).map
        (fun p => p.1.acls.map (fun a => a.permissions)) = some [[]]
    ∧ "documents.document_view" ∈ permission_keys_for_grant
        { user_id := "u", document_id := 1, permissions := ["download"] } := by decide

/-! ### Skip accounting (claim C4) -/

/-- Unfolding `skipped` at one user. -/
theorem skippedOf_cons (r : RedisState) (uid : String) (gs : List Grant)
    (rest : List (String × List Grant)) :
    skippedOf r ((uid, gs) :: rest)
      = (if (mappedId r uid).isSome then 0 else gs.length) + skippedOf r rest := by
  unfold skippedOf
  rw [List.filter_cons]
  cases hm : (mappedId r uid).isSome <;> simp [hm]

/-- A completed outer loop returns `skipped` increased by exactly the
grants of unmapped users. -/
theorem usersLoop_skipped (r : RedisState) :
    ∀ (us : List (String × List Grant)) (st : MayanState) (c u sk : Nat)
      (out : MayanState × Nat × Nat × Nat),
    upsertUsersLoop r us st c u sk = some out → out.2.2.2 = sk + skippedOf r us := by
  intro us
  induction us with
  | nil =>
    intro st c u sk out h
    simp only [upsertUsersLoop] at h
    injection h with h1
    rw [← h1]
    simp [skippedOf]
  | cons p rest ih =>
    intro st c u sk out h
    obtain ⟨uid, gs⟩ := p
    simp only [upsertUsersLoop] at h
    cases hget : redisGet r ("mayan:user:" ++ uid) with
    | none =>
      rw [hget] at h
      have hm : mappedId r uid = none := by unfold mappedId; rw [hget]
      rw [ih st c u (sk + gs.length) out h, skippedOf_cons, hm]
      simp [Nat.add_assoc]
    | some raw =>
      rw [hget] at h
      dsimp only at h
      by_cases hraw : (raw == "") = true
      · rw [if_pos hraw] at h
        have hm : mappedId r uid = none := by
          unfold mappedId
          rw [hget]
          simp [hraw]
        rw [ih st c u (sk + gs.length) out h, skippedOf_cons, hm]
        simp [Nat.add_assoc]
      · rw [if_neg hraw] at h
        cases hint : pyStrToInt raw with
        | none =>
          rw [hint] at h
          have hm : mappedId r uid = none := by
            unfold mappedId
            rw [hget]
            simp only [Bool.not_eq_true] at hraw
            simp [hraw, hint]
          rw [ih st c u (sk + gs.length) out h, skippedOf_cons, hm]
          simp [Nat.add_assoc]
        | some m =>
          rw [hint] at h
          dsimp only at h
          have hm : mappedId r uid = some m := by
            unfold mappedId
            rw [hget]
            simp only [Bool.not_eq_true] at hraw
            simp [hraw, hint]
          cases hens : ensure_user_group_role st uid m with
          | none => rw [hens] at h; cases h
          | some pr =>
            obtain ⟨stE, lab⟩ := pr
            rw [hens] at h
            dsimp only at h
            cases hloop : upsertGrantsLoop lab gs stE c u with
            | none => rw [hloop] at h; cases h
            | some trip =>
              obtain ⟨stG, c2, u2⟩ := trip
              rw [hloop] at h
              dsimp only at h
              rw [ih stG c2 u2 sk out h, skippedOf_cons, hm]
              simp

/-- **C4**: the grant reader skips (without failing the sync) every
empty value, invalid JSON, record without an integer-convertible
`documentId`, and record with an empty `userId`; a missing or falsy
`permissions` field defaults to `["view"]` and a non-empty string value
becomes a one-element list; a user without a usable
`mayan:user:{userId}` mapping contributes all its grants to the
returned `skipped` statistic and its processing leaves the host state
(hence the ACL table) untouched. -/
theorem claim_c4_skip_semantics :
    (parseGrantValue RedisValue.empty = none)
    ∧ (parseGrantValue RedisValue.badJson = none)
    ∧ (∀ fs, pyToInt (jsonGet fs "documentId") = none →
         parseGrantValue (.val (.obj fs)) = none)
    ∧ (∀ fs, pyStrip (pyStrOrEmpty (jsonGet fs "userId")) = "" →
         parseGrantValue (.val (.obj fs)) = none)
    ∧ (∀ v vs, parseGrantValue v = none → iterGrants (v :: vs) = iterGrants vs)
    ∧ (∀ fs g, parseGrantValue (.val (.obj fs)) = some g →
         jsonGet fs "permissions" = none → g.permissions = ["view"])
    ∧ (∀ fs g j, parseGrantValue (.val (.obj fs)) = some g →
         jsonGet fs "permissions" = some j → pyTruthy j = false → g.permissions = ["view"])
    ∧ (∀ fs g s, parseGrantValue (.val (.obj fs)) = some g →
         jsonGet fs "permissions" = some (.str s) → s ≠ "" → g.permissions = [s])
    ∧ (∀ (r : RedisState) uid gs rest (st : MayanState) c u sk, mappedId r uid = none →
         upsertUsersLoop r ((uid, gs) :: rest) st c u sk
           = upsertUsersLoop r rest st c u (sk + gs.length))
    ∧ (∀ (r : RedisState) st st2 stats, sync_acl_from_redis r st = some (st2, stats) →
         stats.skipped = skippedOf r (gbuOf r)) := by
  refine ⟨rfl, rfl, ?_, ?_, ?_, ?_, ?_, ?_, ?_, ?_⟩
  · intro fs h
    simp [parseGrantValue, h]
  · intro fs h
    cases hdoc : pyToInt (jsonGet fs "documentId") with
    | none => simp [parseGrantValue, hdoc]
    | some d =>
      cases hperm : pyPermissions (jsonGet fs "permissions") with
      | none => simp [parseGrantValue, hdoc, hperm]
      | some ps => simp [parseGrantValue, hdoc, hperm, h]
  · intro v vs h
    simp [iterGrants, List.filterMap_cons, h]
  · intro fs g hg hjson
    simp only [parseGrantValue] at hg
    rw [hjson] at hg
    have hpv : pyPermissions none = some ["view"] := rfl
    rw [hpv] at hg
    cases hdoc : pyToInt (jsonGet fs "documentId") with
    | none => rw [hdoc] at hg; cases hg
    | some d =>
      rw [hdoc] at hg
      dsimp only at hg
      by_cases huid : (pyStrip (pyStrOrEmpty (jsonGet fs "userId")) == "") = true
      · rw [if_pos huid] at hg; cases hg
      · rw [if_neg huid] at hg
        injection hg with h1
        exact (congrArg Grant.permissions h1).symm
  · intro fs g j hg hjson htr
    simp only [parseGrantValue] at hg
    rw [hjson] at hg
    have hpv : pyPermissions (some j) = some ["view"] := by
      simp only [pyPermissions]
      rw [htr]
      rfl
    rw [hpv] at hg
    cases hdoc : pyToInt (jsonGet fs "documentId") with
    | none => rw [hdoc] at hg; cases hg
    | some d =>
      rw [hdoc] at hg
      dsimp only at hg
      by_cases huid : (pyStrip (pyStrOrEmpty (jsonGet fs "userId")) == "") = true
      · rw [if_pos huid] at hg; cases hg
      · rw [if_neg huid] at hg
        injection hg with h1
        exact (congrArg Grant.permissions h1).symm
  · intro fs g s hg hjson hs
    simp only [parseGrantValue] at hg
    rw [hjson] at hg
    have hpv : pyPermissions (some (.str s)) = some [s] := by
      simp [pyPermissions, pyTruthy, hs]
    rw [hpv] at hg
    cases hdoc : pyToInt (jsonGet fs "documentId") with
    | none => rw [hdoc] at hg; cases hg
    | some d =>
      rw [hdoc] at hg
      dsimp only at hg
      by_cases huid : (pyStrip (pyStrOrEmpty (jsonGet fs "userId")) == "") = true
      · rw [if_pos huid] at hg; cases hg
      · rw [if_neg huid] at hg
        injection hg with h1
        exact (congrArg Grant.permissions h1).symm
  · intro r uid gs rest st c u sk hm
    exact usersLoop_cons_unmapped r uid gs rest st c u sk hm
  · intro r st st2 stats h
    simp only [sync_acl_from_redis] at h
    cases hloop : upsertUsersLoop r (groupGrants (iterGrants r.grantValues))
        (deleteStaleLoop (groupGrants (iterGrants r.grantValues))
          (st.roles.filter (fun ro => strStartsWith ro.label "kc:")) st 0).1 0 0 0 with
    | none =>
      rw [hloop] at h
      cases h
    | some out =>
      obtain ⟨stO, c, u, sk⟩ := out
      rw [hloop] at h
      dsimp only at h
      injection h with h1
      have hstats := congrArg Prod.snd h1
      dsimp only at hstats
      rw [← hstats]
      dsimp only
      have := usersLoop_skipped r (groupGrants (iterGrants r.grantValues)) _ 0 0 0 _ hloop
      dsimp only at this
      rw [this, Nat.zero_add]
      rfl

/-- Witness for C4 at concrete records: a record with no integer
`documentId` is skipped, an unmapped user's grants increase `skipped`
while the state passes through unchanged, and a completed sync returns
`skipped` equal to the unmapped-grant count. -/
theorem claim_c4_skip_semantics_witness :
    (pyToInt (jsonGet [("userId", JVal.str "u")] "documentId") = none
     ∧ parseGrantValue (.val (.obj [("userId", JVal.str "u")])) = none)
    ∧ (mappedId cxRedis "u" = none
       ∧ upsertUsersLoop cxRedis
           [("u", [{ user_id := "u", document_id := 5, permissions := ["view"] }])]
           cxState 0 0 0
         = upsertUsersLoop cxRedis [] cxState 0 0
             (0 + [({ user_id := "u", document_id := 5,
                      permissions := ["view"] } : Grant)].length))
    ∧ (sync_acl_from_redis exRedis exState = some (exFinal, exStats)
       ∧ exStats.skipped = skippedOf exRedis (gbuOf exRedis)) :=
  ⟨⟨by decide, claim_c4_skip_semantics.2.2.1 _ (by decide)⟩,
   ⟨by decide, claim_c4_skip_semantics.2.2.2.2.2.2.2.2.1 cxRedis "u" _ [] cxState 0 0 0
      (by decide)⟩,
   ⟨by decide, claim_c4_skip_semantics.2.2.2.2.2.2.2.2.2 exRedis exState exFinal exStats
      (by decide)⟩⟩

/-- The grant overwrite keeps the role label. -/
theorem aclUpd_roleLabel (T : List String) (l : String) (gs : List Grant) (a : AclRow) :
    (aclUpd T l gs a).roleLabel = a.roleLabel := by
  unfold aclUpd
  split <;> rfl

/-- The grant overwrite keeps the object id. -/
theorem aclUpd_objectId (T : List String) (l : String) (gs : List Grant) (a : AclRow) :
    (aclUpd T l gs a).objectId = a.objectId := by
  unfold aclUpd
  split <;> rfl

/-- The grant overwrite keeps the content type. -/
theorem aclUpd_rowIsDocument (T : List String) (l : String) (gs : List Grant) (a : AclRow) :
    rowIsDocument (aclUpd T l gs a) = rowIsDocument a := by
  unfold aclUpd
  split <;> rfl

/-- After the deletion pass every surviving managed row is current. -/
theorem del_current (r : RedisState) (st : MayanState) (hfk : KcFk st) :
    CurrentManaged r (delState r st).acls := by
  rw [delState_eq]
  intro a ha hkc hdoc
  rcases List.mem_filter.mp ha with ⟨hmem, hkeep⟩
  have hro := hfk a hmem hkc hdoc
  rcases List.any_eq_true.mp hro with ⟨ro, hros, hrlab⟩
  have hrolab : ro.label = a.roleLabel := beq_iff_eq.mp hrlab
  have hrosf : ro ∈ st.roles.filter (fun ro => strStartsWith ro.label "kc:") :=
    List.mem_filter.mpr ⟨hros, by rw [hrolab]; exact hkc⟩
  unfold keepRowB at hkeep
  have hns := List.all_eq_true.mp hkeep ro hrosf
  rw [hrolab] at hns
  by_contra hc
  have hstale : staleRow (docsOf (gbuOf r) (strDrop a.roleLabel 3)) a.roleLabel a = true := by
    unfold staleRow
    by_cases hie : (docsOf (gbuOf r) (strDrop a.roleLabel 3)).isEmpty = true
    · rw [if_pos hie]
      simp [hdoc]
    · rw [if_neg hie]
      simp [hdoc, hc]
  rw [hstale] at hns
  cases hns

/-- The rows appended for one user are rows of currently granted
documents of that user. -/
theorem newRowsFor_current (T : List String) (A : List AclRow) (l : String)
    (gs : List Grant) (a : AclRow) (ha : a ∈ newRowsFor T A l gs) :
    a.roleLabel = l ∧ rowIsDocument a = true
      ∧ a.objectId ∈ gs.map (fun g => g.document_id) := by
  unfold newRowsFor at ha
  rw [filterMap_ite_eq] at ha
  rcases List.mem_map.mp ha with ⟨d, hd, hrow⟩
  have hdm : d ∈ dedupFirst (gs.map (fun g => g.document_id)) := (List.mem_filter.mp hd).1
  have hdocs : d ∈ gs.map (fun g => g.document_id) :=
    mem_dedupFirst d (gs.map (fun g => g.document_id)).length _ (Nat.le_refl _) hdm
  rw [← hrow]
  exact ⟨rfl, rfl, hdocs⟩

/-- One user step preserves row currency. -/
theorem userStep_current (r : RedisState) (uid : String) (gs : List Grant)
    (st : MayanState) (hshortu : uid.data.length ≤ 125)
    (hdocs : ∀ g ∈ gs, g.document_id ∈ docsOf (gbuOf r) uid)
    (hcur : CurrentManaged r st.acls) : CurrentManaged r (userStep r uid gs st).acls := by
  unfold userStep
  cases hm : mappedId r uid with
  | none => exact hcur
  | some n =>
    intro a ha hkc hdoc
    rcases List.mem_append.mp ha with h1 | h1
    · rcases List.mem_map.mp h1 with ⟨a0, ha0, haa⟩
      rw [← haa, aclUpd_roleLabel, aclUpd_objectId]
      rw [← haa, aclUpd_roleLabel] at hkc
      rw [← haa, aclUpd_rowIsDocument] at hdoc
      exact hcur a0 ha0 hkc hdoc
    · rcases newRowsFor_current _ _ _ _ a h1 with ⟨hlab, _, hmemd⟩
      rw [hlab, strDrop_label uid hshortu]
      rcases List.mem_map.mp hmemd with ⟨g, hg, hgd⟩
      rw [← hgd]
      exact hdocs g hg

/-- The whole upsert pass preserves row currency. -/
theorem foldUsers_current (r : RedisState) :
    ∀ (us : List (String × List Grant)) (st : MayanState),
    (∀ p ∈ us, p ∈ gbuOf r) → ShortIds (gbuOf r) →
    CurrentManaged r st.acls → CurrentManaged r (foldUsers r us st).acls := by
  intro us
  induction us with
  | nil => intro st _ _ h; exact h
  | cons p rest ih =>
    intro st hsub hshort hcur
    simp only [foldUsers, List.foldl_cons]
    rw [show (List.foldl (fun s p => userStep r p.1 p.2 s) (userStep r p.1 p.2 st) rest) =
      foldUsers r rest (userStep r p.1 p.2 st) from rfl]
    refine ih (userStep r p.1 p.2 st) (fun q hq => hsub q (List.mem_cons_of_mem _ hq))
      hshort ?_
    apply userStep_current r p.1 p.2 st
      (shortIds_len _ hshort p (hsub p (List.mem_cons_self _ _)))
    · intro g hg
      have hgf : docsOf (gbuOf r) p.1 = p.2.map (fun g => g.document_id) := by
        unfold docsOf
        rw [mem_grantsFor (gbuOf r) p.1 p.2 (groupGrants_keys_nodup _)
          (hsub p (List.mem_cons_self _ _))]
      rw [hgf]
      exact List.mem_map.mpr ⟨g, hg, rfl⟩
    · exact hcur

/-! ### Role and user invariants through the upsert pass -/

/-- Membership survives a fold of `add`s. -/
theorem mem_foldl_addUnique_keeps (xs : List String) (l : List String) (y : String)
    (h : y ∈ l) : y ∈ xs.foldl addUnique l := by
  have h1 := foldl_addUnique_keeps xs l y (by simpa using h)
  simpa using h1

/-- A fold of `add`s links every folded element. -/
theorem mem_foldl_addUnique_adds (xs : List String) (l : List String) (x : String)
    (h : x ∈ xs) : x ∈ xs.foldl addUnique l := by
  have h1 := foldl_addUnique_adds xs l x h
  simpa using h1

/-- The get-or-create of a role keeps every label and only grows
groups. -/
theorem ensureRolesFor_any_self (l : String) (roles : List RoleRow) :
    (ensureRolesFor l roles).any (fun ro => ro.label == l) = true := by
  unfold ensureRolesFor
  rw [List.any_map]
  by_cases hany : roles.any (fun ro => ro.label == l) = true
  · rw [if_pos hany]
    rcases List.any_eq_true.mp hany with ⟨ro, hro, hlab⟩
    apply List.any_eq_true.mpr
    refine ⟨ro, hro, ?_⟩
    simp only [Function.comp]
    rw [hlab]
    simp [beq_iff_eq.mp hlab]
  · rw [if_neg hany]
    apply List.any_eq_true.mpr
    refine ⟨{ label := l, groups := [], permissions := [] },
      List.mem_append_right _ (List.mem_singleton.mpr rfl), ?_⟩
    simp [Function.comp]

/-- After the get-or-create, every role carrying the label is linked to
the group. -/
theorem ensureRolesFor_groups (l : String) (roles : List RoleRow) (ro : RoleRow)
    (hro : ro ∈ ensureRolesFor l roles) (hlab : ro.label = l) : l ∈ ro.groups := by
  unfold ensureRolesFor at hro
  rcases List.mem_map.mp hro with ⟨ro0, _, hmap⟩
  by_cases h0 : (ro0.label == l) = true
  · rw [if_pos h0] at hmap
    rw [← hmap]
    exact mem_addUnique_self _ _
  · rw [if_neg h0] at hmap
    rw [← hmap] at hlab
    exact absurd (beq_iff_eq.mpr hlab) h0

/-- A role of another label after the get-or-create was already
present. -/
theorem ensure_mem_other (l2 : String) (roles : List RoleRow) (ro : RoleRow)
    (hro : ro ∈ ensureRolesFor l2 roles) (hne : ro.label ≠ l2) : ro ∈ roles := by
  unfold ensureRolesFor at hro
  rcases List.mem_map.mp hro with ⟨ro0, h0, hmap⟩
  by_cases hl0 : (ro0.label == l2) = true
  · rw [if_pos hl0] at hmap
    rw [← hmap] at hne
    exact absurd (beq_iff_eq.mp hl0) hne
  · rw [if_neg hl0] at hmap
    rw [← hmap]
    split at h0
    · exact h0
    · rcases List.mem_append.mp h0 with h1 | h1
      · exact h1
      · rw [List.mem_singleton.mp h1] at hl0
        exact absurd (beq_iff_eq.mpr rfl) hl0

/-- The label of a role existing before the get-or-create still
appears. -/
theorem ensure_any_mono (l l2 : String) (roles : List RoleRow)
    (h : roles.any (fun ro => ro.label == l) = true) :
    (ensureRolesFor l2 roles).any (fun ro => ro.label == l) = true := by
  unfold ensureRolesFor
  rw [List.any_map]
  rcases List.any_eq_true.mp h with ⟨ro, hro, hlab⟩
  apply List.any_eq_true.mpr
  refine ⟨ro, ?_, ?_⟩
  · split
    · exact hro
    · exact List.mem_append_left _ hro
  · simp only [Function.comp]
    split <;> simpa using hlab

/-- One role extension step: membership traced back, labels and groups
kept, permissions only grown, and the added set fully linked on the
matching label. -/
theorem rolesAdd_mem (l : String) (sp : List String) (roles : List RoleRow) (ro : RoleRow)
    (hro : ro ∈ rolesAdd l sp roles) :
    ∃ ro0 ∈ roles, ro.label = ro0.label ∧ ro.groups = ro0.groups
      ∧ (∀ p ∈ ro0.permissions, p ∈ ro.permissions)
      ∧ (ro.label = l → ∀ p ∈ sp, p ∈ ro.permissions) := by
  unfold rolesAdd at hro
  split at hro
  · next hsp =>
    refine ⟨ro, hro, rfl, rfl, fun p hp => hp, ?_⟩
    intro _ p hp
    rw [List.isEmpty_iff.mp hsp] at hp
    cases hp
  · rcases List.mem_map.mp hro with ⟨ro0, h0, hmap⟩
    by_cases hl0 : (ro0.label == l) = true
    · rw [if_pos hl0] at hmap
      refine ⟨ro0, h0, by rw [← hmap], by rw [← hmap], ?_, ?_⟩
      · intro p hp
        rw [← hmap]
        exact mem_foldl_addUnique_keeps sp ro0.permissions p hp
      · intro _ p hp
        rw [← hmap]
        exact mem_foldl_addUnique_adds sp ro0.permissions p hp
    · rw [if_neg hl0] at hmap
      refine ⟨ro0, h0, by rw [← hmap], by rw [← hmap], by rw [← hmap]; exact fun p hp => hp, ?_⟩
      intro hlab
      rw [← hmap] at hlab
      exact absurd (beq_iff_eq.mpr hlab) hl0

/-- The labels appearing in the role table are untouched by the grant
loop's permission extensions. -/
theorem rolesAfterGrants_any (T : List String) (l : String) (l2 : String) :
    ∀ (gs : List Grant) (roles : List RoleRow),
    (rolesAfterGrants T l gs roles).any (fun ro => ro.label == l2)
      = roles.any (fun ro => ro.label == l2) := by
  intro gs
  induction gs with
  | nil => intro roles; rfl
  | cons g gs ih =>
    intro roles
    unfold rolesAfterGrants
    rw [List.foldl_cons]
    have h1 := ih (rolesAdd l (storedFor T g) roles)
    unfold rolesAfterGrants at h1
    rw [h1]
    unfold rolesAdd
    split
    · rfl
    · rw [List.any_map]
      congr 1
      funext ro
      simp only [Function.comp]
      split <;> rfl

/-- Tracing one role through the whole grant loop of one user. -/
theorem rolesAfterGrants_mem (T : List String) (l : String) :
    ∀ (gs : List Grant) (roles : List RoleRow) (ro : RoleRow),
    ro ∈ rolesAfterGrants T l gs roles →
    ∃ ro0 ∈ roles, ro.label = ro0.label ∧ ro.groups = ro0.groups
      ∧ (∀ p ∈ ro0.permissions, p ∈ ro.permissions)
      ∧ (ro.label = l → ∀ g ∈ gs, ∀ p ∈ storedFor T g, p ∈ ro.permissions) := by
  intro gs
  induction gs with
  | nil =>
    intro roles ro hro
    refine ⟨ro, hro, rfl, rfl, fun p hp => hp, ?_⟩
    intro _ g hg
    cases hg
  | cons g gs ih =>
    intro roles ro hro
    unfold rolesAfterGrants at hro
    rw [List.foldl_cons] at hro
    have hro' : ro ∈ rolesAfterGrants T l gs (rolesAdd l (storedFor T g) roles) := hro
    rcases ih (rolesAdd l (storedFor T g) roles) ro hro' with
      ⟨ro1, h1, hlab1, hgrp1, hperm1, hgs1⟩
    rcases rolesAdd_mem l (storedFor T g) roles ro1 h1 with
      ⟨ro0, h0, hlab0, hgrp0, hperm0, hg0⟩
    refine ⟨ro0, h0, hlab1.trans hlab0, hgrp1.trans hgrp0,
      fun p hp => hperm1 p (hperm0 p hp), ?_⟩
    intro hlabl g2 hg2
    rcases List.mem_cons.mp hg2 with hh | hh
    · subst hh
      intro p hp
      exact hperm1 p (hg0 (hlab1 ▸ hlabl) p hp)
    · exact hgs1 hlabl g2 hh

/-- Processing one user establishes their role invariant. -/
theorem step_roles_self (T : List String) (l : String) (gs : List Grant)
    (roles : List RoleRow) : RolesOk l T gs (rolesAfterGrants T l gs (ensureRolesFor l roles)) := by
  constructor
  · rw [rolesAfterGrants_any]
    exact ensureRolesFor_any_self l roles
  · intro ro hro hlab
    rcases rolesAfterGrants_mem T l gs (ensureRolesFor l roles) ro hro with
      ⟨ro1, h1, hlab1, hgrp1, _, hgs1⟩
    refine ⟨?_, hgs1 hlab⟩
    rw [hgrp1]
    exact ensureRolesFor_groups l roles ro1 h1 (hlab1 ▸ hlab)

/-- Processing another user preserves an established role invariant. -/
theorem step_roles_other (T T2 : List String) (l l2 : String) (gs gs2 : List Grant)
    (roles : List RoleRow) (hne : l ≠ l2) (h : RolesOk l T gs roles) :
    RolesOk l T gs (rolesAfterGrants T2 l2 gs2 (ensureRolesFor l2 roles)) := by
  obtain ⟨hany, hmain⟩ := h
  constructor
  · rw [rolesAfterGrants_any]
    exact ensure_any_mono l l2 roles hany
  · intro ro hro hlab
    rcases rolesAfterGrants_mem T2 l2 gs2 (ensureRolesFor l2 roles) ro hro with
      ⟨ro1, h1, hlab1, hgrp1, hperm1, _⟩
    have hlab1l : ro1.label = l := hlab1 ▸ hlab
    have h1r : ro1 ∈ roles := ensure_mem_other l2 roles ro1 h1 (by rw [hlab1l]; exact hne)
    rcases hmain ro1 h1r hlab1l with ⟨hg, hp⟩
    refine ⟨by rw [hgrp1]; exact hg, ?_⟩
    intro g hgmem p hp2
    exact hperm1 p (hp g hgmem p hp2)

/-- Adding the group to a user's account establishes the account
invariant. -/
theorem usersAddGroup_self (n : Int) (l : String) (users : List UserRow) :
    UsersOk l n (usersAddGroup n l users) := by
  intro u2 h2 hpk
  unfold usersAddGroup at h2
  rcases List.mem_map.mp h2 with ⟨u0, _, hmap⟩
  by_cases h0 : (u0.pk == n) = true
  · rw [if_pos h0] at hmap
    rw [← hmap]
    exact mem_addUnique_self _ _
  · rw [if_neg h0] at hmap
    rw [← hmap] at hpk
    exact absurd (beq_iff_eq.mpr hpk) h0

/-- Adding another group preserves the account invariant. -/
theorem usersAddGroup_mono (n2 : Int) (l2 : String) (users : List UserRow) (l : String)
    (n : Int) (h : UsersOk l n users) : UsersOk l n (usersAddGroup n2 l2 users) := by
  intro u2 h2 hpk
  unfold usersAddGroup at h2
  rcases List.mem_map.mp h2 with ⟨u0, h0, hmap⟩
  by_cases hb : (u0.pk == n2) = true
  · rw [if_pos hb] at hmap
    have hpk0 : u0.pk = n := by
      rw [← hmap] at hpk
      exact hpk
    rw [← hmap]
    exact mem_addUnique_of _ _ _ (h u0 h0 hpk0)
  · rw [if_neg hb] at hmap
    rw [← hmap] at hpk ⊢
    exact h u0 h0 hpk

/-- One user step matched on a usable mapping. -/
theorem userStep_mapped (r : RedisState) (uid : String) (gs : List Grant) (st : MayanState)
    (n : Int) (hm : mappedId r uid = some n) :
    userStep r uid gs st =
      { storedPermissions := st.storedPermissions
        groupNames := addUnique st.groupNames (labelOf uid)
        roles := rolesAfterGrants st.storedPermissions (labelOf uid) gs
                   (ensureRolesFor (labelOf uid) st.roles)
        users := usersAddGroup n (labelOf uid) st.users
        acls := st.acls.map (aclUpd st.storedPermissions (labelOf uid) gs)
                ++ newRowsFor st.storedPermissions st.acls (labelOf uid) gs } := by
  unfold userStep
  rw [hm]

/-- The upsert fold preserves group-name membership. -/
theorem foldUsers_groupNames_mono (r : RedisState) :
    ∀ (us : List (String × List Grant)) (st : MayanState) (x : String),
    x ∈ st.groupNames → x ∈ (foldUsers r us st).groupNames := by
  intro us
  induction us with
  | nil => intro st x h; exact h
  | cons p rest ih =>
    intro st x h
    simp only [foldUsers, List.foldl_cons]
    rw [show (List.foldl (fun s p => userStep r p.1 p.2 s) (userStep r p.1 p.2 st) rest) =
      foldUsers r rest (userStep r p.1 p.2 st) from rfl]
    apply ih
    unfold userStep
    cases mappedId r p.1 with
    | none => exact h
    | some n => exact mem_addUnique_of _ _ _ h

/-- The upsert fold of other users preserves a role invariant. -/
theorem foldUsers_rolesOk (r : RedisState) (l : String) (T : List String) (gs : List Grant) :
    ∀ (us : List (String × List Grant)) (st : MayanState),
    (∀ p ∈ us, (mappedId r p.1).isSome = true → labelOf p.1 ≠ l) →
    RolesOk l T gs st.roles → RolesOk l T gs (foldUsers r us st).roles := by
  intro us
  induction us with
  | nil => intro st _ h; exact h
  | cons p rest ih =>
    intro st hothers h
    simp only [foldUsers, List.foldl_cons]
    rw [show (List.foldl (fun s p => userStep r p.1 p.2 s) (userStep r p.1 p.2 st) rest) =
      foldUsers r rest (userStep r p.1 p.2 st) from rfl]
    apply ih _ (fun q hq => hothers q (List.mem_cons_of_mem _ hq))
    unfold userStep
    cases hm : mappedId r p.1 with
    | none => exact h
    | some n =>
      dsimp only
      exact step_roles_other T st.storedPermissions l (labelOf p.1) gs p.2 st.roles
        (Ne.symm (hothers p (List.mem_cons_self _ _) (by rw [hm]; rfl))) h

/-- The upsert fold preserves an account invariant. -/
theorem foldUsers_usersOk (r : RedisState) (l : String) (n : Int) :
    ∀ (us : List (String × List Grant)) (st : MayanState),
    UsersOk l n st.users → UsersOk l n (foldUsers r us st).users := by
  intro us
  induction us with
  | nil => intro st h; exact h
  | cons p rest ih =>
    intro st h
    simp only [foldUsers, List.foldl_cons]
    rw [show (List.foldl (fun s p => userStep r p.1 p.2 s) (userStep r p.1 p.2 st) rest) =
      foldUsers r rest (userStep r p.1 p.2 st) from rfl]
    apply ih
    unfold userStep
    cases mappedId r p.1 with
    | none => exact h
    | some n2 => exact usersAddGroup_mono n2 (labelOf p.1) st.users l n h

/-- Splitting the upsert fold at one user. -/
theorem foldUsers_split (r : RedisState) (us1 us2 : List (String × List Grant))
    (p : String × List Grant) (st : MayanState) :
    foldUsers r (us1 ++ p :: us2) st
      = foldUsers r us2 (userStep r p.1 p.2 (foldUsers r us1 st)) := by
  unfold foldUsers
  rw [List.foldl_append, List.foldl_cons]

/-- Distinct grant-holding users have distinct untruncated labels. -/
theorem gbu_labels_ne (r : RedisState) (hshort : ShortIds (gbuOf r)) (uid : String)
    (gs : List Grant) (hmem : (uid, gs) ∈ gbuOf r) (p : String × List Grant)
    (hp : p ∈ gbuOf r) (hne : p.1 ≠ uid) : labelOf p.1 ≠ labelOf uid :=
  fun hc => hne (labelOf_inj p.1 uid (shortIds_len _ hshort p hp)
    (shortIds_len _ hshort (uid, gs) hmem) hc)

/-- Account existence transfers over the upsert fold. -/
theorem pkok_foldUsers (r : RedisState) (us : List (String × List Grant))
    (st : MayanState) (hpk : PkOk r st (gbuOf r)) :
    PkOk r (foldUsers r us st) (gbuOf r) := by
  intro p hp n hn
  rw [foldUsers_users_any]
  exact hpk p hp n hn

/-- A completed run synchronises the host state with the Redis
grants. -/
theorem run1_synced (r : RedisState) (st : MayanState)
    (hwf : WfAcl st.acls) (hfk : KcFk st) (hshort : ShortIds (gbuOf r)) :
    SyncedState r st.storedPermissions (foldUsers r (gbuOf r) (delState r st)) := by
  refine ⟨?_, ?_, ?_⟩
  · rw [foldUsers_storedPerms, delState_storedPerms]
  · exact foldUsers_current r (gbuOf r) (delState r st) (fun p hp => hp) hshort
      (del_current r st hfk)
  · intro uid gs n hmem hm
    rcases mem_nodup_keys_split (gbuOf r) uid gs (groupGrants_keys_nodup _) hmem
      with ⟨us1, us2, hsp, hne1, hne2⟩
    have hlab1 : ∀ p ∈ us1, (mappedId r p.1).isSome = true → labelOf p.1 ≠ labelOf uid := by
      intro p hp _
      exact gbu_labels_ne r hshort uid gs hmem p
        (by rw [hsp]; exact List.mem_append_left _ hp) (hne1 p hp)
    have hlab2 : ∀ p ∈ us2, (mappedId r p.1).isSome = true → labelOf p.1 ≠ labelOf uid := by
      intro p hp _
      exact gbu_labels_ne r hshort uid gs hmem p
        (by rw [hsp]; exact List.mem_append_right _ (List.mem_cons_of_mem _ hp)) (hne2 p hp)
    have hrows : ∀ d : Int, gs.any (fun g => g.document_id == d) = true →
        (foldUsers r (gbuOf r) (delState r st)).acls.filter (aclKeyMatch (labelOf uid) d) =
          [{ ctApp := "documents", ctModel := "document", objectId := d,
             roleLabel := labelOf uid,
             permissions := storedFor st.storedPermissions (lastGrantFor gs d) }] := by
      intro d hd
      exact final_key_granted r st hwf hshort uid gs n d hmem hm hd
    have hstep := userStep_mapped r uid gs (foldUsers r us1 (delState r st)) n hm
    have hsp1 : (foldUsers r us1 (delState r st)).storedPermissions
        = st.storedPermissions := by
      rw [foldUsers_storedPerms, delState_storedPerms]
    refine ⟨?_, ?_, ?_, hrows⟩
    · rw [hsp, foldUsers_split]
      apply foldUsers_groupNames_mono
      rw [hstep]
      exact mem_addUnique_self _ _
    · rw [hsp, foldUsers_split]
      apply foldUsers_rolesOk r (labelOf uid) st.storedPermissions gs us2 _ hlab2
      rw [hstep]
      dsimp only
      rw [hsp1]
      exact step_roles_self st.storedPermissions (labelOf uid) gs _
    · rw [hsp, foldUsers_split]
      apply foldUsers_usersOk
      rw [hstep]
      exact usersAddGroup_self n (labelOf uid) _

/-! ### A synchronised state is a fixpoint of the sync -/

/-- Get-or-create is the identity on a role table already carrying a
linked role. -/
theorem ensureRolesFor_id (l : String) (roles : List RoleRow)
    (hany : roles.any (fun ro => ro.label == l) = true)
    (hgr : ∀ ro ∈ roles, ro.label = l → l ∈ ro.groups) :
    ensureRolesFor l roles = roles := by
  unfold ensureRolesFor
  rw [if_pos hany]
  apply list_map_id_of
  intro ro hro
  by_cases hb : (ro.label == l) = true
  · rw [if_pos hb]
    have hadd : addUnique ro.groups l = ro.groups :=
      addUnique_of_contains _ _ (by simpa using hgr ro hro (beq_iff_eq.mp hb))
    rw [hadd]
  · rw [if_neg hb]

/-- The grant loop's permission extensions are the identity on a role
table already carrying all stored permissions. -/
theorem rolesAfterGrants_id (T : List String) (l : String) :
    ∀ (gs : List Grant) (roles : List RoleRow),
    (∀ g ∈ gs, ∀ ro ∈ roles, ro.label = l → ∀ p ∈ storedFor T g, p ∈ ro.permissions) →
    rolesAfterGrants T l gs roles = roles := by
  intro gs
  induction gs with
  | nil => intro roles _; rfl
  | cons g gs ih =>
    intro roles h
    unfold rolesAfterGrants
    rw [List.foldl_cons]
    have hadd : rolesAdd l (storedFor T g) roles = roles := by
      unfold rolesAdd
      split
      · rfl
      · apply list_map_id_of
        intro ro hro
        by_cases hb : (ro.label == l) = true
        · rw [if_pos hb]
          have hfold : (storedFor T g).foldl addUnique ro.permissions = ro.permissions :=
            foldl_addUnique_id _ _ (fun p hp => by
              simpa using h g (List.mem_cons_self _ _) ro hro (beq_iff_eq.mp hb) p hp)
          rw [hfold]
        · rw [if_neg hb]
    rw [hadd]
    exact ih roles (fun g2 hg2 => h g2 (List.mem_cons_of_mem _ hg2))

/-- The deletion pass is the identity on a state whose managed rows are
all current. -/
theorem synced_del_id (r : RedisState) (s : MayanState)
    (hcur : CurrentManaged r s.acls) :
    deleteStaleLoop (gbuOf r) (s.roles.filter (fun ro => strStartsWith ro.label "kc:"))
      s 0 = (s, 0) := by
  apply deleteStaleLoop_id
  intro a ha
  unfold keepRowB
  rw [List.all_eq_true]
  intro ro hro
  unfold staleRow
  by_cases hlr : (a.roleLabel == ro.label) = true
  · by_cases hdoc : rowIsDocument a = true
    · have hkc : strStartsWith a.roleLabel "kc:" = true := by
        rw [beq_iff_eq.mp hlr]
        exact (List.mem_filter.mp hro).2
      have hcurr := hcur a ha hkc hdoc
      have hdes : docsOf (gbuOf r) (strDrop ro.label 3)
          = docsOf (gbuOf r) (strDrop a.roleLabel 3) := by
        rw [beq_iff_eq.mp hlr]
      rw [hdes]
      have hie : ¬((docsOf (gbuOf r) (strDrop a.roleLabel 3)).isEmpty = true) :=
        fun hc => (List.ne_nil_of_mem hcurr) (List.isEmpty_iff.mp hc)
      rw [if_neg hie]
      simp [hcurr]
    · have hdf : rowIsDocument a = false := Bool.eq_false_iff.mpr hdoc
      simp [hdf]
  · simp only [Bool.not_eq_true] at hlr
    simp [hlr]

/-- No row is appended for a user whose granted documents all have a
row. -/
theorem newRows_nil_of_present (T : List String) (A : List AclRow) (l : String)
    (gs : List Grant)
    (h : ∀ d : Int, gs.any (fun g => g.document_id == d) = true →
       A.filter (aclKeyMatch l d) ≠ []) :
    newRowsFor T A l gs = [] := by
  unfold newRowsFor
  rw [List.filterMap_eq_nil_iff]
  intro d hd
  have hdm := mem_dedupFirst d (gs.map (fun g => g.document_id)).length _ (Nat.le_refl _) hd
  rcases List.mem_map.mp hdm with ⟨g, hg, hgd⟩
  have hany : gs.any (fun g => g.document_id == d) = true :=
    List.any_eq_true.mpr ⟨g, hg, by simp [hgd]⟩
  have hne := h d hany
  rw [if_neg (fun hc => hne (List.isEmpty_iff.mp hc))]

/-- One user step is the identity on a synchronised state. -/
theorem synced_userStep_id (r : RedisState) (T : List String) (s : MayanState)
    (uid : String) (gs : List Grant) (n : Int) (hs : SyncedState r T s)
    (hmem : (uid, gs) ∈ gbuOf r) (hm : mappedId r uid = some n) :
    userStep r uid gs s = s := by
  obtain ⟨hsp, hcur, hmain⟩ := hs
  obtain ⟨hgn, hrok, huok, hrows⟩ := hmain uid gs n hmem hm
  rw [userStep_mapped r uid gs s n hm]
  have hgneq : addUnique s.groupNames (labelOf uid) = s.groupNames :=
    addUnique_of_contains _ _ (by simpa using hgn)
  have hens : ensureRolesFor (labelOf uid) s.roles = s.roles :=
    ensureRolesFor_id _ _ hrok.1 (fun ro hro hl => (hrok.2 ro hro hl).1)
  have hroles : rolesAfterGrants s.storedPermissions (labelOf uid) gs s.roles = s.roles := by
    apply rolesAfterGrants_id
    intro g hg ro hro hl p hp
    rw [hsp] at hp
    exact (hrok.2 ro hro hl).2 g hg p hp
  have husers : usersAddGroup n (labelOf uid) s.users = s.users := by
    unfold usersAddGroup
    apply list_map_id_of
    intro u2 hu
    by_cases hb : (u2.pk == n) = true
    · rw [if_pos hb]
      have hadd : addUnique u2.groups (labelOf uid) = u2.groups :=
        addUnique_of_contains _ _ (by simpa using huok u2 hu (beq_iff_eq.mp hb))
      rw [hadd]
    · rw [if_neg hb]
  have hnew : newRowsFor s.storedPermissions s.acls (labelOf uid) gs = [] := by
    apply newRows_nil_of_present
    intro d hany
    rw [hrows d hany]
    intro hc
    cases hc
  have hmap : s.acls.map (aclUpd s.storedPermissions (labelOf uid) gs) = s.acls := by
    apply list_map_id_of
    intro a ha
    unfold aclUpd
    by_cases hcnd : (a.roleLabel == labelOf uid && rowIsDocument a
        && gs.any (fun g => g.document_id == a.objectId)) = true
    · rw [if_pos hcnd]
      rw [Bool.and_eq_true, Bool.and_eq_true] at hcnd
      obtain ⟨⟨hl, hdoc⟩, hany⟩ := hcnd
      have hfil := hrows a.objectId hany
      have hmemf : a ∈ s.acls.filter (aclKeyMatch (labelOf uid) a.objectId) :=
        List.mem_filter.mpr ⟨ha, by unfold aclKeyMatch; simp [hdoc, hl]⟩
      rw [hfil] at hmemf
      have ha_eq := List.mem_singleton.mp hmemf
      have hperm : a.permissions = storedFor T (lastGrantFor gs a.objectId) :=
        congrArg AclRow.permissions ha_eq
      rw [hsp, ← hperm]
    · rw [if_neg hcnd]
  rw [hgneq, hens, hroles, husers, hmap, hnew, List.append_nil]

/-- The upsert fold is the identity when every step is. -/
theorem foldUsers_id (r : RedisState) :
    ∀ (us : List (String × List Grant)) (s : MayanState),
    (∀ p ∈ us, userStep r p.1 p.2 s = s) → foldUsers r us s = s := by
  intro us
  induction us with
  | nil => intro s _; rfl
  | cons p rest ih =>
    intro s h
    simp only [foldUsers, List.foldl_cons]
    rw [h p (List.mem_cons_self _ _)]
    exact ih s (fun q hq => h q (List.mem_cons_of_mem _ hq))

/-- No row is created by the upsert pass when every step is the identity
and appends nothing. -/
theorem createdLoop_zero (r : RedisState) :
    ∀ (us : List (String × List Grant)) (s : MayanState),
    (∀ p ∈ us, userStep r p.1 p.2 s = s) →
    (∀ p ∈ us, (mappedId r p.1).isSome = true →
       newRowsFor s.storedPermissions s.acls (labelOf p.1) p.2 = []) →
    createdLoop r us s = 0 := by
  intro us
  induction us with
  | nil => intro s _ _; rfl
  | cons p rest ih =>
    intro s h1 h2
    obtain ⟨uid, gs⟩ := p
    simp only [createdLoop]
    cases hm : mappedId r uid with
    | none =>
      dsimp only
      exact ih s (fun q hq => h1 q (List.mem_cons_of_mem _ hq))
        (fun q hq => h2 q (List.mem_cons_of_mem _ hq))
    | some n =>
      dsimp only
      rw [h2 (uid, gs) (List.mem_cons_self _ _) (by rw [hm]; rfl)]
      rw [h1 (uid, gs) (List.mem_cons_self _ _)]
      rw [ih s (fun q hq => h1 q (List.mem_cons_of_mem _ hq))
        (fun q hq => h2 q (List.mem_cons_of_mem _ hq))]
      rfl

/-- A synchronised state is a fixpoint: a second run returns the state
unchanged, creating and deleting nothing. -/
theorem synced_fixpoint (r : RedisState) (T : List String) (s : MayanState)
    (hs : SyncedState r T s) (hwf : WfAcl s.acls) (hpk : PkOk r s (gbuOf r)) :
    sync_acl_from_redis r s =
      some (s, { created := 0, updated := updatedLoop r (gbuOf r) s,
                 deleted := 0, skipped := skippedOf r (gbuOf r) }) := by
  have hdel := synced_del_id r s hs.2.1
  have hds : delState r s = s := by
    unfold delState
    rw [hdel]
  have hdc : delCount r s = 0 := by
    unfold delCount
    rw [hdel]
  have hid : ∀ p ∈ gbuOf r, userStep r p.1 p.2 s = s := by
    intro p hp
    cases hm : mappedId r p.1 with
    | none =>
      unfold userStep
      rw [hm]
    | some n => exact synced_userStep_id r T s p.1 p.2 n hs hp hm
  have hnews : ∀ p ∈ gbuOf r, (mappedId r p.1).isSome = true →
      newRowsFor s.storedPermissions s.acls (labelOf p.1) p.2 = [] := by
    intro p hp hsome
    rcases Option.isSome_iff_exists.mp hsome with ⟨n, hm⟩
    obtain ⟨hsp, hcur, hmain⟩ := hs
    obtain ⟨_, _, _, hrows⟩ := hmain p.1 p.2 n hp hm
    apply newRows_nil_of_present
    intro d hany
    rw [hrows d hany]
    intro hc
    cases hc
  rw [sync_eq r s hwf hpk, hds, hdc]
  rw [foldUsers_id r (gbuOf r) s hid]
  rw [createdLoop_zero r (gbuOf r) s hid hnews]

/-- **C5** (corrected): with the Redis contents fixed, a completed first
run lands in a synchronised state, so an immediate second run returns
the very same host state with `created = 0` and `deleted = 0` —
provided the host state is well-formed (unique ACL keys, role foreign
keys, mapped accounts existing) and no grant-holding user id overflows
the 128-character role label.  Truncated ids break idempotence
(`claim_c5_counterexample`): the deletion pass reads the user id back
from the truncated label, finds no grants for it, and deletes the rows
the previous run created. -/
theorem claim_c5_idempotent (r : RedisState) (st : MayanState)
    (hwf : WfAcl st.acls) (hfk : KcFk st) (hshort : ShortIds (gbuOf r))
    (hpk : PkOk r st (gbuOf r)) (s1 : MayanState) (stats1 : Stats)
    (h1 : sync_acl_from_redis r st = some (s1, stats1)) :
    ∃ stats2, sync_acl_from_redis r s1 = some (s1, stats2)
      ∧ stats2.created = 0 ∧ stats2.deleted = 0 := by
  have hsync := sync_eq r st hwf hpk
  rw [h1] at hsync
  injection hsync with h2
  have hs1 : s1 = foldUsers r (gbuOf r) (delState r st) := congrArg Prod.fst h2
  have hsyn : SyncedState r st.storedPermissions s1 := by
    rw [hs1]
    exact run1_synced r st hwf hfk hshort
  have hwf1 : WfAcl s1.acls := by
    rw [hs1]
    exact foldUsers_wf r _ _ (wf_delState r st hwf)
  have hpk1 : PkOk r s1 (gbuOf r) := by
    rw [hs1]
    exact pkok_foldUsers r _ _ (pkok_delState r st hpk)
  exact ⟨_, synced_fixpoint r st.storedPermissions s1 hsyn hwf1 hpk1, rfl, rfl⟩

/-- Witness for C5 at the concrete instance. -/
theorem claim_c5_idempotent_witness :
    sync_acl_from_redis exRedis exState = some (exFinal, exStats)
    ∧ (∃ stats2, sync_acl_from_redis exRedis exFinal = some (exFinal, stats2)
        ∧ stats2.created = 0 ∧ stats2.deleted = 0) :=
  ⟨by decide,
   claim_c5_idempotent exRedis exState (by unfold WfAcl; decide) (by unfold KcFk; decide)
     (by unfold ShortIds; decide) (pkok_of_b _ _ _ (by decide)) exFinal exStats (by decide)⟩

/-- Counterexample to the frozen C5: both runs complete, but the second
run's `deleted` statistic is `1`, not `0` — the truncated role label
`kc:aaa…` no longer matches the 126-character user id, so the deletion
pass treats the row created by the first run as stale. -/
theorem claim_c5_counterexample :
    ((sync_acl_from_redis czRedis czState).bind
      (fun p => (sync_acl_from_redis czRedis p.1).map (fun q => q.2.deleted))) = some 1 := by
  decide

/-! ### Scan-order independence (claim C6) -/

/-- `any` only depends on the elements. -/
theorem perm_any {α : Type} (l1 l2 : List α) (p : α → Bool) (h : l1.Perm l2) :
    l1.any p = l2.any p := by
  cases hh : l2.any p
  · rw [List.any_eq_false] at hh ⊢
    intro x hx
    exact hh x (h.mem_iff.mp hx)
  · rw [List.any_eq_true] at hh ⊢
    rcases hh with ⟨x, hx, hpx⟩
    exact ⟨x, h.mem_iff.mpr hx, hpx⟩

/-- `isEmpty` only depends on the length. -/
theorem perm_isEmpty {α : Type} (l1 l2 : List α) (h : l1.Perm l2) :
    l1.isEmpty = l2.isEmpty := by
  cases l1 with
  | nil =>
    rw [← h.nil_eq]
  | cons a t =>
    cases l2 with
    | nil => cases (List.cons_ne_nil a t) h.eq_nil
    | cons b t2 => rfl

/-- Integer containment only depends on the elements. -/
theorem perm_contains (l1 l2 : List Int) (x : Int) (h : l1.Perm l2) :
    l1.contains x = l2.contains x := by
  cases hh : l2.contains x
  · cases hc : l1.contains x
    · rfl
    · have := h.mem_iff.mp ((int_contains_iff _ _).mp hc)
      rw [(int_contains_iff l2 x).mpr this] at hh
      cases hh
  · exact (int_contains_iff _ _).mpr (h.mem_iff.mpr ((int_contains_iff _ _).mp hh))

/-- First-occurrence deduplication of permuted lists yields permuted
lists. -/
theorem dedupFirst_perm (l1 l2 : List Int) (h : l1.Perm l2) :
    (dedupFirst l1).Perm (dedupFirst l2) := by
  apply (List.perm_ext_iff_of_nodup
    (dedupFirst_nodup l1.length l1 (Nat.le_refl _))
    (dedupFirst_nodup l2.length l2 (Nat.le_refl _))).mpr
  intro d
  constructor
  · intro hd
    exact mem_dedupFirst_of_mem d l2.length l2 (Nat.le_refl _)
      (h.mem_iff.mp (mem_dedupFirst d l1.length l1 (Nat.le_refl _) hd))
  · intro hd
    exact mem_dedupFirst_of_mem d l1.length l1 (Nat.le_refl _)
      (h.mem_iff.mpr (mem_dedupFirst d l2.length l2 (Nat.le_refl _) hd))

/-- Permuted lists of length at most one are equal. -/
theorem perm_len_le_one_eq {α : Type} (l1 l2 : List α) (h : l1.Perm l2)
    (hlen : l1.length ≤ 1) : l1 = l2 := by
  cases l1 with
  | nil => exact h.nil_eq
  | cons a t =>
    cases t with
    | nil =>
      cases l2 with
      | nil => cases (List.cons_ne_nil a []) h.eq_nil
      | cons b t2 =>
        cases t2 with
        | nil =>
          have hab : a = b := by
            have := h.mem_iff.mp (List.mem_singleton.mpr rfl)
            simpa using this
          rw [hab]
        | cons c t3 =>
          have := h.length_eq
          simp at this
    | cons b t2 => simp at hlen

/-- Two Redis states with the same string key space agree on every
`mayan:user` mapping. -/
theorem mapped_eq (r r' : RedisState) (hkv : r.kv = r'.kv) (uid : String) :
    mappedId r uid = mappedId r' uid := by
  unfold mappedId redisGet
  rw [hkv]

/-- Permuted scans parse to permuted grant lists. -/
theorem grants_perm (r r' : RedisState) (hgv : r.grantValues.Perm r'.grantValues) :
    (iterGrants r.grantValues).Perm (iterGrants r'.grantValues) :=
  hgv.filterMap parseGrantValue

/-- The user keys of `grants_by_user` are the granted users. -/
theorem mem_keys_iff (r : RedisState) (uid : String) :
    uid ∈ (gbuOf r).map (fun p => p.1)
      ↔ (iterGrants r.grantValues).any (fun g => g.user_id == uid) = true := by
  rw [← groupGrants_hasKey]
  rw [List.any_eq_true]
  constructor
  · intro h
    rcases List.mem_map.mp h with ⟨p, hp, hpk⟩
    exact ⟨p, hp, beq_iff_eq.mpr hpk⟩
  · rintro ⟨p, hp, hpk⟩
    exact List.mem_map.mpr ⟨p, hp, beq_iff_eq.mp hpk⟩

/-- The user keys of two permuted scans are permuted. -/
theorem keys_perm (r r' : RedisState) (hgv : r.grantValues.Perm r'.grantValues) :
    ((gbuOf r).map (fun p => p.1)).Perm ((gbuOf r').map (fun p => p.1)) := by
  have h1 : ((gbuOf r).map (fun p => p.1)).Nodup := groupGrants_keys_nodup _
  have h2 : ((gbuOf r').map (fun p => p.1)).Nodup := groupGrants_keys_nodup _
  apply (List.perm_ext_iff_of_nodup h1 h2).mpr
  intro uid
  rw [mem_keys_iff, mem_keys_iff, perm_any _ _ _ (grants_perm r r' hgv)]

/-- A key of `grants_by_user` names a member pair. -/
theorem key_to_pair (r : RedisState) (uid : String)
    (h : uid ∈ (gbuOf r).map (fun p => p.1)) :
    (uid, (iterGrants r.grantValues).filter (fun g => g.user_id == uid)) ∈ gbuOf r := by
  rcases List.mem_map.mp h with ⟨p, hp, hpk⟩
  have hpair := gbu_pairs r p.1 p.2 hp
  have : p = (uid, (iterGrants r.grantValues).filter (fun g => g.user_id == uid)) := by
    rw [← hpk, ← hpair]
  rw [← this]
  exact hp

/-- Staleness only depends on the desired ids as a set. -/
theorem staleRow_perm (des des' : List Int) (label : String) (a : AclRow)
    (h : des.Perm des') : staleRow des label a = staleRow des' label a := by
  unfold staleRow
  rw [perm_isEmpty _ _ h, perm_contains _ _ a.objectId h]

/-- The deletion passes of two permuted scans coincide. -/
theorem delState_congr (r r' : RedisState) (st : MayanState)
    (hkv : r.kv = r'.kv) (hgv : r.grantValues.Perm r'.grantValues) :
    delState r st = delState r' st ∧ delCount r st = delCount r' st := by
  have hstal : ∀ (ro : RoleRow) (a : AclRow),
      staleRow (docsOf (gbuOf r) (strDrop ro.label 3)) ro.label a
        = staleRow (docsOf (gbuOf r') (strDrop ro.label 3)) ro.label a := by
    intro ro a
    apply staleRow_perm
    unfold docsOf gbuOf
    rw [groupGrants_grantsFor, groupGrants_grantsFor]
    exact ((grants_perm r r' hgv).filter _).map _
  have hkeep : ∀ a, keepRowB (gbuOf r)
      (st.roles.filter (fun ro => strStartsWith ro.label "kc:")) a
      = keepRowB (gbuOf r')
      (st.roles.filter (fun ro => strStartsWith ro.label "kc:")) a := by
    intro a
    unfold keepRowB
    congr 1
    funext ro
    rw [hstal ro a]
  have hfil : st.acls.filter (keepRowB (gbuOf r)
        (st.roles.filter (fun ro => strStartsWith ro.label "kc:")))
      = st.acls.filter (keepRowB (gbuOf r')
        (st.roles.filter (fun ro => strStartsWith ro.label "kc:"))) :=
    List.filter_congr (fun a _ => hkeep a)
  have hstate : delState r st = delState r' st := by
    rw [delState_eq, delState_eq, hfil]
  refine ⟨hstate, ?_⟩
  have hc1 := deleteStaleLoop_count (gbuOf r)
    (st.roles.filter (fun ro => strStartsWith ro.label "kc:")) st 0
  have hc2 := deleteStaleLoop_count (gbuOf r')
    (st.roles.filter (fun ro => strStartsWith ro.label "kc:")) st 0
  have hlen : (delState r st).acls.length = (delState r' st).acls.length := by
    rw [hstate]
  unfold delState at hlen
  unfold delCount
  omega

/-- With untruncated ids, distinct grant-holding users get pairwise
distinct labels. -/
theorem gbu_labels_pairwise (r : RedisState) (hshort : ShortIds (gbuOf r)) :
    List.Pairwise (fun p q : String × List Grant => labelOf p.1 ≠ labelOf q.1) (gbuOf r) := by
  have h1 : List.Pairwise (fun p q : String × List Grant => p.1 ≠ q.1) (gbuOf r) :=
    List.pairwise_map.mp (groupGrants_keys_nodup _)
  exact List.Pairwise.imp_of_mem
    (fun hp hq hne hc => hne (labelOf_inj _ _
      (shortIds_len _ hshort _ hp) (shortIds_len _ hshort _ hq) hc)) h1

/-- The appended rows only depend on the table through the key
filters. -/
theorem newRowsFor_congr (T : List String) (A A' : List AclRow) (l : String)
    (gs : List Grant)
    (h : ∀ d : Int, A.filter (aclKeyMatch l d) = A'.filter (aclKeyMatch l d)) :
    newRowsFor T A l gs = newRowsFor T A' l gs := by
  unfold newRowsFor
  apply filterMap_congr_mem
  intro d _
  rw [h d]

/-- Summing over a filtered list as a guarded sum. -/
theorem sum_filter_ite {α : Type} (us : List α) (P : α → Bool) (f : α → Nat) :
    ((us.filter P).map f).sum = (us.map (fun p => if P p then f p else 0)).sum := by
  induction us with
  | nil => rfl
  | cons a us ih =>
    rw [List.filter_cons]
    cases hP : P a
    · simp [hP, ih]
    · simp [hP, ih]

/-- The `created` contributions of the upsert pass judged against the
initial table: with pairwise distinct labels, earlier users' steps never
touch a later user's keys. -/
theorem createdLoop_stable (r : RedisState) (T : List String) :
    ∀ (us : List (String × List Grant)) (st : MayanState),
    st.storedPermissions = T →
    List.Pairwise (fun p q : String × List Grant => labelOf p.1 ≠ labelOf q.1) us →
    createdLoop r us st
      = (us.map (fun p => if (mappedId r p.1).isSome
          then (newRowsFor T st.acls (labelOf p.1) p.2).length else 0)).sum := by
  intro us
  induction us with
  | nil => intro st _ _; rfl
  | cons p rest ih =>
    intro st hsp hpw
    obtain ⟨uid, gs⟩ := p
    rcases List.pairwise_cons.mp hpw with ⟨hhd, hpw'⟩
    simp only [createdLoop]
    cases hm : mappedId r uid with
    | none =>
      dsimp only
      rw [ih st hsp hpw', List.map_cons, List.sum_cons, hm]
      simp
    | some n =>
      dsimp only
      rw [ih (userStep r uid gs st) (by rw [userStep_storedPerms]; exact hsp) hpw']
      have hcongr : ∀ q ∈ rest,
          (if (mappedId r q.1).isSome
           then (newRowsFor T (userStep r uid gs st).acls (labelOf q.1) q.2).length else 0)
          = (if (mappedId r q.1).isSome
             then (newRowsFor T st.acls (labelOf q.1) q.2).length else 0) := by
        intro q hq
        by_cases hq2 : (mappedId r q.1).isSome = true
        · rw [if_pos hq2, if_pos hq2]
          have hrows : newRowsFor T (userStep r uid gs st).acls (labelOf q.1) q.2
              = newRowsFor T st.acls (labelOf q.1) q.2 := by
            apply newRowsFor_congr
            intro d
            rw [userStep_mapped r uid gs st n hm]
            exact step_filter_key_other st.storedPermissions st.acls (labelOf uid) gs
              (labelOf q.1) d (Ne.symm (hhd q hq))
          rw [hrows]
        · rw [if_neg hq2, if_neg hq2]
      rw [List.map_congr_left hcongr, List.map_cons, List.sum_cons, hm, hsp]
      simp

/-- The `updated` contributions judged against the initial table. -/
theorem updatedLoop_stable (r : RedisState) (T : List String) :
    ∀ (us : List (String × List Grant)) (st : MayanState),
    st.storedPermissions = T →
    List.Pairwise (fun p q : String × List Grant => labelOf p.1 ≠ labelOf q.1) us →
    updatedLoop r us st
      = (us.map (fun p => if (mappedId r p.1).isSome
          then p.2.length - (newRowsFor T st.acls (labelOf p.1) p.2).length else 0)).sum := by
  intro us
  induction us with
  | nil => intro st _ _; rfl
  | cons p rest ih =>
    intro st hsp hpw
    obtain ⟨uid, gs⟩ := p
    rcases List.pairwise_cons.mp hpw with ⟨hhd, hpw'⟩
    simp only [updatedLoop]
    cases hm : mappedId r uid with
    | none =>
      dsimp only
      rw [ih st hsp hpw', List.map_cons, List.sum_cons, hm]
      simp
    | some n =>
      dsimp only
      rw [ih (userStep r uid gs st) (by rw [userStep_storedPerms]; exact hsp) hpw']
      have hcongr : ∀ q ∈ rest,
          (if (mappedId r q.1).isSome
           then q.2.length - (newRowsFor T (userStep r uid gs st).acls (labelOf q.1) q.2).length
           else 0)
          = (if (mappedId r q.1).isSome
             then q.2.length - (newRowsFor T st.acls (labelOf q.1) q.2).length else 0) := by
        intro q hq
        by_cases hq2 : (mappedId r q.1).isSome = true
        · rw [if_pos hq2, if_pos hq2]
          have hrows : newRowsFor T (userStep r uid gs st).acls (labelOf q.1) q.2
              = newRowsFor T st.acls (labelOf q.1) q.2 := by
            apply newRowsFor_congr
            intro d
            rw [userStep_mapped r uid gs st n hm]
            exact step_filter_key_other st.storedPermissions st.acls (labelOf uid) gs
              (labelOf q.1) d (Ne.symm (hhd q hq))
          rw [hrows]
        · rw [if_neg hq2, if_neg hq2]
      rw [List.map_congr_left hcongr, List.map_cons, List.sum_cons, hm, hsp]
      simp

/-- Appended-row counts only depend on the granted document ids as a
set. -/
theorem newRowsFor_length_perm (T : List String) (A : List AclRow) (l : String)
    (gs gs' : List Grant)
    (h : (gs.map (fun g => g.document_id)).Perm (gs'.map (fun g => g.document_id))) :
    (newRowsFor T A l gs).length = (newRowsFor T A l gs').length := by
  unfold newRowsFor
  rw [filterMap_ite_eq, filterMap_ite_eq, List.length_map, List.length_map]
  exact ((dedupFirst_perm _ _ h).filter _).length_eq

/-- Under at most one grant per `(userId, documentId)` pair, a user's
grants for one document number at most one. -/
theorem filter_pair_le_one (grants : List Grant)
    (hnd : (grants.map (fun g => (g.user_id, g.document_id))).Nodup)
    (uid : String) (d : Int) :
    ((grants.filter (fun g => g.user_id == uid)).filter
      (fun g => g.document_id == d)).length ≤ 1 := by
  have hsub : ((grants.filter (fun g => g.user_id == uid)).filter
      (fun g => g.document_id == d)).Sublist grants :=
    (List.filter_sublist _).trans (List.filter_sublist _)
  have hnd2 : (((grants.filter (fun g => g.user_id == uid)).filter
      (fun g => g.document_id == d)).map (fun g => (g.user_id, g.document_id))).Nodup :=
    hnd.sublist (hsub.map _)
  have hall : ∀ g ∈ (grants.filter (fun g => g.user_id == uid)).filter
      (fun g => g.document_id == d), (g.user_id, g.document_id) = (uid, d) := by
    intro g hg
    rcases List.mem_filter.mp hg with ⟨hg1, hd2⟩
    rcases List.mem_filter.mp hg1 with ⟨_, hu2⟩
    rw [beq_iff_eq.mp hu2, beq_iff_eq.mp hd2]
  cases hfil : (grants.filter (fun g => g.user_id == uid)).filter
      (fun g => g.document_id == d) with
  | nil => simp
  | cons a rest =>
    cases rest with
    | nil => simp
    | cons b rest2 =>
      exfalso
      have hha := hall a (by rw [hfil]; exact List.mem_cons_self _ _)
      have hhb := hall b (by rw [hfil]; exact List.mem_cons_of_mem _ (List.mem_cons_self _ _))
      rw [hfil] at hnd2
      simp only [List.map_cons, List.nodup_cons, List.mem_cons, List.mem_map] at hnd2
      exact hnd2.1 (Or.inl (hha.trans hhb.symm))

/-- The winning grant only depends on the per-document filter. -/
theorem lastGrantFor_congr (gs gs' : List Grant) (d : Int)
    (heq : gs.filter (fun g => g.document_id == d)
      = gs'.filter (fun g => g.document_id == d)) :
    lastGrantFor gs d = lastGrantFor gs' d := by
  unfold lastGrantFor
  rw [heq]

/-- The grant overwrite fixes unmanaged rows. -/
theorem aclUpd_unmanaged_id (T : List String) (l : String) (gs : List Grant) (a : AclRow)
    (hl : strStartsWith l "kc:" = true) (ha : unmanagedB a = true) :
    aclUpd T l gs a = a := by
  unfold aclUpd
  have hcnd : (a.roleLabel == l && rowIsDocument a
      && gs.any (fun g => g.document_id == a.objectId)) = false := by
    unfold unmanagedB at ha
    cases hdoc : rowIsDocument a
    · simp [hdoc]
    · have hns : strStartsWith a.roleLabel "kc:" = false := by simpa [hdoc] using ha
      have hlab : (a.roleLabel == l) = false := by
        apply beq_eq_false_iff_ne.mpr
        intro hc
        rw [hc, hl] at hns
        cases hns
      simp [hlab]
  simp [hcnd]

/-- The grant overwrite never changes the managed/unmanaged
classification. -/
theorem unmanagedB_aclUpd (T : List String) (l : String) (gs : List Grant) (a : AclRow) :
    unmanagedB (aclUpd T l gs a) = unmanagedB a := by
  unfold aclUpd
  split <;> rfl

/-- The whole upsert fold fixes the unmanaged rows. -/
theorem foldUsers_unmanaged (r : RedisState) :
    ∀ (us : List (String × List Grant)) (st : MayanState),
    (foldUsers r us st).acls.filter unmanagedB = st.acls.filter unmanagedB := by
  intro us
  induction us with
  | nil => intro st; rfl
  | cons p rest ih =>
    intro st
    simp only [foldUsers, List.foldl_cons]
    rw [show (List.foldl (fun s p => userStep r p.1 p.2 s) (userStep r p.1 p.2 st) rest) =
      foldUsers r rest (userStep r p.1 p.2 st) from rfl, ih]
    unfold userStep
    cases hm : mappedId r p.1 with
    | none => rfl
    | some n =>
      dsimp only
      rw [List.filter_append]
      have hnew : (newRowsFor st.storedPermissions st.acls (labelOf p.1) p.2).filter
          unmanagedB = [] := by
        rw [List.filter_eq_nil_iff]
        intro a ha hc
        rcases newRowsFor_current _ _ _ _ a ha with ⟨hlab, hdoc, _⟩
        unfold unmanagedB at hc
        rw [hlab, labelOf_startsWith, hdoc] at hc
        cases hc
      rw [hnew, List.append_nil]
      rw [filter_map_pres _ _ _ (fun a => unmanagedB_aclUpd st.storedPermissions
        (labelOf p.1) p.2 a)]
      exact list_map_id_of _ _ (fun a ha => aclUpd_unmanaged_id _ _ _ a
        (labelOf_startsWith p.1) (List.mem_filter.mp ha).2)

/-- A sum over an association list whose terms only depend on the
keys. -/
theorem sum_over_keys {β : Type} (us : List (String × β)) (f : String × β → Nat)
    (F : String → Nat) (h : ∀ p ∈ us, f p = F p.1) :
    (us.map f).sum = ((us.map (fun p => p.1)).map F).sum := by
  rw [List.map_map]
  exact congrArg List.sum (List.map_congr_left (fun p hp => h p hp))

/-- The `skipped` statistic only depends on the Redis contents, not the
scan order. -/
theorem skipped_eq (r r' : RedisState) (hkv : r.kv = r'.kv)
    (hgv : r.grantValues.Perm r'.grantValues) :
    skippedOf r (gbuOf r) = skippedOf r' (gbuOf r') := by
  unfold skippedOf
  rw [sum_filter_ite, sum_filter_ite]
  rw [sum_over_keys (gbuOf r) _
    (fun uid => if !(mappedId r uid).isSome
      then ((iterGrants r.grantValues).filter (fun g => g.user_id == uid)).length else 0)
    (by
      intro p hp
      dsimp only
      rw [← gbu_pairs r p.1 p.2 hp])]
  rw [sum_over_keys (gbuOf r') _
    (fun uid => if !(mappedId r' uid).isSome
      then ((iterGrants r'.grantValues).filter (fun g => g.user_id == uid)).length else 0)
    (by
      intro p hp
      dsimp only
      rw [← gbu_pairs r' p.1 p.2 hp])]
  have hF : ∀ uid : String,
      (if !(mappedId r uid).isSome
       then ((iterGrants r.grantValues).filter (fun g => g.user_id == uid)).length else 0)
      = (if !(mappedId r' uid).isSome
         then ((iterGrants r'.grantValues).filter (fun g => g.user_id == uid)).length
         else 0) := by
    intro uid
    rw [mapped_eq r r' hkv uid, ((grants_perm r r' hgv).filter _).length_eq]
  rw [List.map_congr_left (fun uid _ => hF uid)]
  exact ((keys_perm r r' hgv).map _).sum_eq

/-- The `created` statistic only depends on the Redis contents. -/
theorem created_eq (r r' : RedisState) (st : MayanState) (hkv : r.kv = r'.kv)
    (hgv : r.grantValues.Perm r'.grantValues) (hshort : ShortIds (gbuOf r))
    (hshort' : ShortIds (gbuOf r')) :
    createdLoop r (gbuOf r) (delState r st) = createdLoop r' (gbuOf r') (delState r' st) := by
  have hD := (delState_congr r r' st hkv hgv).1
  rw [createdLoop_stable r st.storedPermissions (gbuOf r) (delState r st)
    (delState_storedPerms r st) (gbu_labels_pairwise r hshort)]
  rw [createdLoop_stable r' st.storedPermissions (gbuOf r') (delState r' st)
    (delState_storedPerms r' st) (gbu_labels_pairwise r' hshort')]
  rw [← hD]
  rw [sum_over_keys (gbuOf r) _
    (fun uid => if (mappedId r uid).isSome
      then (newRowsFor st.storedPermissions (delState r st).acls (labelOf uid)
        ((iterGrants r.grantValues).filter (fun g => g.user_id == uid))).length else 0)
    (by
      intro p hp
      dsimp only
      rw [← gbu_pairs r p.1 p.2 hp])]
  rw [sum_over_keys (gbuOf r') _
    (fun uid => if (mappedId r' uid).isSome
      then (newRowsFor st.storedPermissions (delState r st).acls (labelOf uid)
        ((iterGrants r'.grantValues).filter (fun g => g.user_id == uid))).length else 0)
    (by
      intro p hp
      dsimp only
      rw [← gbu_pairs r' p.1 p.2 hp])]
  have hF : ∀ uid : String,
      (if (mappedId r uid).isSome
       then (newRowsFor st.storedPermissions (delState r st).acls (labelOf uid)
         ((iterGrants r.grantValues).filter (fun g => g.user_id == uid))).length else 0)
      = (if (mappedId r' uid).isSome
         then (newRowsFor st.storedPermissions (delState r st).acls (labelOf uid)
           ((iterGrants r'.grantValues).filter (fun g => g.user_id == uid))).length
         else 0) := by
    intro uid
    rw [mapped_eq r r' hkv uid]
    rw [newRowsFor_length_perm st.storedPermissions (delState r st).acls (labelOf uid) _ _
      (((grants_perm r r' hgv).filter _).map _)]
  rw [List.map_congr_left (fun uid _ => hF uid)]
  exact ((keys_perm r r' hgv).map _).sum_eq

/-- The `updated` statistic only depends on the Redis contents. -/
theorem updated_eq (r r' : RedisState) (st : MayanState) (hkv : r.kv = r'.kv)
    (hgv : r.grantValues.Perm r'.grantValues) (hshort : ShortIds (gbuOf r))
    (hshort' : ShortIds (gbuOf r')) :
    updatedLoop r (gbuOf r) (delState r st) = updatedLoop r' (gbuOf r') (delState r' st) := by
  have hD := (delState_congr r r' st hkv hgv).1
  rw [updatedLoop_stable r st.storedPermissions (gbuOf r) (delState r st)
    (delState_storedPerms r st) (gbu_labels_pairwise r hshort)]
  rw [updatedLoop_stable r' st.storedPermissions (gbuOf r') (delState r' st)
    (delState_storedPerms r' st) (gbu_labels_pairwise r' hshort')]
  rw [← hD]
  rw [sum_over_keys (gbuOf r) _
    (fun uid => if (mappedId r uid).isSome
      then ((iterGrants r.grantValues).filter (fun g => g.user_id == uid)).length
        - (newRowsFor st.storedPermissions (delState r st).acls (labelOf uid)
          ((iterGrants r.grantValues).filter (fun g => g.user_id == uid))).length else 0)
    (by
      intro p hp
      dsimp only
      rw [← gbu_pairs r p.1 p.2 hp])]
  rw [sum_over_keys (gbuOf r') _
    (fun uid => if (mappedId r' uid).isSome
      then ((iterGrants r'.grantValues).filter (fun g => g.user_id == uid)).length
        - (newRowsFor st.storedPermissions (delState r st).acls (labelOf uid)
          ((iterGrants r'.grantValues).filter (fun g => g.user_id == uid))).length else 0)
    (by
      intro p hp
      dsimp only
      rw [← gbu_pairs r' p.1 p.2 hp])]
  have hF : ∀ uid : String,
      (if (mappedId r uid).isSome
       then ((iterGrants r.grantValues).filter (fun g => g.user_id == uid)).length
         - (newRowsFor st.storedPermissions (delState r st).acls (labelOf uid)
           ((iterGrants r.grantValues).filter (fun g => g.user_id == uid))).length else 0)
      = (if (mappedId r' uid).isSome
         then ((iterGrants r'.grantValues).filter (fun g => g.user_id == uid)).length
           - (newRowsFor st.storedPermissions (delState r st).acls (labelOf uid)
             ((iterGrants r'.grantValues).filter (fun g => g.user_id == uid))).length
         else 0) := by
    intro uid
    rw [mapped_eq r r' hkv uid]
    rw [((grants_perm r r' hgv).filter _).length_eq]
    rw [newRowsFor_length_perm st.storedPermissions (delState r st).acls (labelOf uid) _ _
      (((grants_perm r r' hgv).filter _).map _)]
  rw [List.map_congr_left (fun uid _ => hF uid)]
  exact ((keys_perm r r' hgv).map _).sum_eq

/-- Two permuted scans land every role key on the same rows. -/
theorem final_filters_eq (r r' : RedisState) (st : MayanState)
    (hkv : r.kv = r'.kv) (hgv : r.grantValues.Perm r'.grantValues)
    (hnd : ((iterGrants r.grantValues).map (fun g => (g.user_id, g.document_id))).Nodup)
    (hshort : ShortIds (gbuOf r)) (hshort' : ShortIds (gbuOf r'))
    (hwf : WfAcl st.acls) (hfk : KcFk st) (l : String) (d : Int) :
    (foldUsers r (gbuOf r) (delState r st)).acls.filter (aclKeyMatch l d)
      = (foldUsers r' (gbuOf r') (delState r' st)).acls.filter (aclKeyMatch l d) := by
  by_cases hx : ∃ uid n, uid ∈ (gbuOf r).map (fun p => p.1)
      ∧ mappedId r uid = some n ∧ labelOf uid = l
  · obtain ⟨uid, n, hk, hm, hl⟩ := hx
    have hpair := key_to_pair r uid hk
    have hk' : uid ∈ (gbuOf r').map (fun p => p.1) := (keys_perm r r' hgv).mem_iff.mp hk
    have hpair' := key_to_pair r' uid hk'
    have hgsperm : ((iterGrants r.grantValues).filter (fun g => g.user_id == uid)).Perm
        ((iterGrants r'.grantValues).filter (fun g => g.user_id == uid)) :=
      (grants_perm r r' hgv).filter _
    have hm' : mappedId r' uid = some n := by
      rw [← mapped_eq r r' hkv uid]
      exact hm
    by_cases hany : ((iterGrants r.grantValues).filter
        (fun g => g.user_id == uid)).any (fun g => g.document_id == d) = true
    · have hany' : ((iterGrants r'.grantValues).filter
          (fun g => g.user_id == uid)).any (fun g => g.document_id == d) = true := by
        rw [← perm_any _ _ _ hgsperm]
        exact hany
      rw [← hl]
      rw [final_key_granted r st hwf hshort uid _ n d hpair hm hany]
      rw [final_key_granted r' st hwf hshort' uid _ n d hpair' hm' hany']
      have hlg : lastGrantFor ((iterGrants r.grantValues).filter
            (fun g => g.user_id == uid)) d
          = lastGrantFor ((iterGrants r'.grantValues).filter
            (fun g => g.user_id == uid)) d :=
        lastGrantFor_congr _ _ d (perm_len_le_one_eq _ _ (hgsperm.filter _)
          (filter_pair_le_one _ hnd uid d))
      rw [hlg]
    · have hanyf : ((iterGrants r.grantValues).filter
          (fun g => g.user_id == uid)).any (fun g => g.document_id == d) = false :=
        Bool.eq_false_iff.mpr hany
      have hany' : ((iterGrants r'.grantValues).filter
          (fun g => g.user_id == uid)).any (fun g => g.document_id == d) = false := by
        rw [← perm_any _ _ _ hgsperm]
        exact hanyf
      rw [← hl]
      rw [final_key_ungranted r st hwf hfk hshort uid _ n d hpair hm hanyf]
      rw [final_key_ungranted r' st hwf hfk hshort' uid _ n d hpair' hm' hany']
  · have hno : ∀ p ∈ gbuOf r, (mappedId r p.1).isSome = true → labelOf p.1 ≠ l := by
      intro p hp hsome hc
      rcases Option.isSome_iff_exists.mp hsome with ⟨n, hm⟩
      exact hx ⟨p.1, n, List.mem_map.mpr ⟨p, hp, rfl⟩, hm, hc⟩
    have hno' : ∀ p ∈ gbuOf r', (mappedId r' p.1).isSome = true → labelOf p.1 ≠ l := by
      intro p hp hsome hc
      rcases Option.isSome_iff_exists.mp hsome with ⟨n, hm⟩
      refine hx ⟨p.1, n, ?_, ?_, hc⟩
      · exact (keys_perm r r' hgv).mem_iff.mpr (List.mem_map.mpr ⟨p, hp, rfl⟩)
      · rw [mapped_eq r r' hkv]
        exact hm
    rw [fold_filter_key_frame r l d (gbuOf r) _ hno]
    rw [fold_filter_key_frame r' l d (gbuOf r') _ hno']
    rw [(delState_congr r r' st hkv hgv).1]

/-- **C6** (corrected): for Redis contents with at most one grant per
`(userId, documentId)` pair and untruncated user ids, two completed runs
over the same well-formed initial state whose scans read the same
`grant:*` records in any order return equal statistics and the same ACL
table row for row: every role/document key filter and the unmanaged-row
subsequence coincide (together these pin the whole table).  Without the
truncation bound the claim is false (`claim_c6_counterexample`): two
long user ids sharing a truncated label make the last-scanned grant win
the shared row. -/
theorem claim_c6_order_independent (r r' : RedisState) (st : MayanState)
    (hkv : r.kv = r'.kv) (hgv : r.grantValues.Perm r'.grantValues)
    (hnd : ((iterGrants r.grantValues).map (fun g => (g.user_id, g.document_id))).Nodup)
    (hshort : ShortIds (gbuOf r)) (hwf : WfAcl st.acls) (hfk : KcFk st)
    (hpk : PkOk r st (gbuOf r)) :
    ∃ sA stA sB stB, sync_acl_from_redis r st = some (sA, stA)
      ∧ sync_acl_from_redis r' st = some (sB, stB)
      ∧ stA = stB
      ∧ (∀ (l : String) (d : Int),
          sA.acls.filter (aclKeyMatch l d) = sB.acls.filter (aclKeyMatch l d))
      ∧ sA.acls.filter unmanagedB = sB.acls.filter unmanagedB := by
  have hshort' : ShortIds (gbuOf r') := by
    intro p hp
    have hk : p.1 ∈ (gbuOf r).map (fun q => q.1) :=
      (keys_perm r r' hgv).mem_iff.mpr (List.mem_map.mpr ⟨p, hp, rfl⟩)
    rcases List.mem_map.mp hk with ⟨q, hq, hqk⟩
    have hlen := hshort q hq
    rw [hqk] at hlen
    exact hlen
  have hpk' : PkOk r' st (gbuOf r') := by
    intro p hp n hn
    have hk : p.1 ∈ (gbuOf r).map (fun q => q.1) :=
      (keys_perm r r' hgv).mem_iff.mpr (List.mem_map.mpr ⟨p, hp, rfl⟩)
    have hpair := key_to_pair r p.1 hk
    refine hpk _ hpair n ?_
    rw [mapped_eq r r' hkv]
    exact hn
  refine ⟨_, _, _, _, sync_eq r st hwf hpk, sync_eq r' st hwf hpk', ?_, ?_, ?_⟩
  · have h1 := created_eq r r' st hkv hgv hshort hshort'
    have h2 := updated_eq r r' st hkv hgv hshort hshort'
    have h3 := (delState_congr r r' st hkv hgv).2
    have h4 := skipped_eq r r' hkv hgv
    rw [h1, h2, h3, h4]
  · intro l d
    exact final_filters_eq r r' st hkv hgv hnd hshort hshort' hwf hfk l d
  · rw [foldUsers_unmanaged, foldUsers_unmanaged]
    unfold delState
    rw [del_unmanaged_frame _ _ st 0 (fun ro hro => (List.mem_filter.mp hro).2)]
    rw [del_unmanaged_frame _ _ st 0 (fun ro hro => (List.mem_filter.mp hro).2)]

/-- Witness for C6 at the concrete instance. -/
theorem claim_c6_order_independent_witness :
    exRedis.kv = exRedis2.kv
    ∧ (∃ sA stA sB stB, sync_acl_from_redis exRedis exState = some (sA, stA)
        ∧ sync_acl_from_redis exRedis2 exState = some (sB, stB)
        ∧ stA = stB
        ∧ (∀ (l : String) (d : Int),
            sA.acls.filter (aclKeyMatch l d) = sB.acls.filter (aclKeyMatch l d))
        ∧ sA.acls.filter unmanagedB = sB.acls.filter unmanagedB) :=
  ⟨rfl, claim_c6_order_independent exRedis exRedis2 exState rfl (List.Perm.swap _ _ _)
    (by decide) (by unfold ShortIds; decide) (by unfold WfAcl; decide)
    (by unfold KcFk; decide) (pkok_of_b _ _ _ (by decide))⟩

/-- Counterexample to the frozen C6: the same Redis contents (at most
one grant per `(userId, documentId)` pair) scanned in two orders
complete both runs but produce different ACL tables — the two distinct
126-character user ids truncate to one shared role label, so whichever
grant is scanned last overwrites the shared row's permissions. -/
theorem claim_c6_counterexample :
    cwRedisA.kv = cwRedisB.kv
    ∧ cwRedisA.grantValues.Perm cwRedisB.grantValues
    ∧ ((iterGrants cwRedisA.grantValues).map (fun g => (g.user_id, g.document_id))).Nodup
    ∧ ((sync_acl_from_redis cwRedisA cwState).map (fun p => p.1.acls)
        ≠ (sync_acl_from_redis cwRedisB cwState).map (fun p => p.1.acls)) :=
  ⟨rfl, List.Perm.swap _ _ _, by decide, by decide⟩
